import Mathlib

/-!
# Surefire: a shallow embedding of the proxy/patch/snapshot core

This file models the surefire library (src/main/surefire.ts, shallowClone.ts,
createStore.ts): JavaScript values are modelled as primitives or references
into an explicit heap; heap objects are either plain containers (records or
arrays) or proxy targets carrying `source`, `patches` and `proxies`
bookkeeping.  The proxy traps, the non-recursive traversal machine
`traverseProxyable0` and the snapshot algorithm `captureSnapshot` are
translated operation by operation.  Machine mutation is explicit heap
passing; the recursion inside `captureSnapshot` and the traversal loop are
fuel-indexed.
-/

namespace Surefire

/-- JavaScript primitive values (opaque leaves from the engine's viewpoint). -/
inductive Prim where
  | num (n : Int)
  | str (s : String)
  | bool (b : Bool)
  | null
  | undef
  deriving DecidableEq, Repr

/-- Property keys: plain string keys or canonical array indices. -/
inductive Key where
  | s (name : String)
  | i (n : Nat)
  deriving DecidableEq, Repr

/-- A JavaScript value: a primitive, a reference into the heap, or the
`Symbol(Surefire.deleted)` tombstone sentinel. -/
inductive JSVal where
  | prim (p : Prim)
  | ref (r : Nat)
  | tomb
  deriving DecidableEq, Repr

/-- JS truthiness, used by `trapGet` (`if (desc?.value)`). -/
def truthy : JSVal → Bool
  | .prim (.num n) => n != 0
  | .prim (.str s) => s != ""
  | .prim (.bool b) => b
  | .prim .null => false
  | .prim .undef => false
  | .ref _ => true
  | .tomb => true

/-- The data of a plain container: a record (`isArr = false`) or an array
(`isArr = true`, with its `length` slot).  `fields` is the ordered list of own
enumerable data properties; array index properties use `Key.i`. -/
structure PlainData where
  isArr : Bool
  len : Nat
  fields : List (Key × JSVal)
  deriving DecidableEq, Repr

namespace PlainData

/-- Association-list lookup of an own field. -/
def getEntry (fs : List (Key × JSVal)) (k : Key) : Option JSVal :=
  match fs with
  | [] => none
  | (k', v) :: rest => if k' = k then some v else getEntry rest k

/-- Association-list update: replace in place, or append a new entry. -/
def setEntry (fs : List (Key × JSVal)) (k : Key) (v : JSVal) : List (Key × JSVal) :=
  match fs with
  | [] => [(k, v)]
  | (k', v') :: rest => if k' = k then (k, v) :: rest else (k', v') :: setEntry rest k v

/-- Association-list removal. -/
def removeEntry (fs : List (Key × JSVal)) (k : Key) : List (Key × JSVal) :=
  match fs with
  | [] => []
  | (k', v') :: rest => if k' = k then rest else (k', v') :: removeEntry rest k

/-- `Object.prototype.hasOwnProperty`: arrays own their `length` slot. -/
def hasOwnKey (d : PlainData) (k : Key) : Bool :=
  (d.isArr && k = Key.s "length") || (d.fields.any (fun e => e.1 = k))

/-- Own-property read returning `none` when the key is absent. -/
def getOwn (d : PlainData) (k : Key) : Option JSVal :=
  if d.isArr ∧ k = Key.s "length" then some (.prim (.num d.len))
  else getEntry d.fields k

/-- `obj[k]` on a plain container: `undefined` when the key is absent
(sources in this model have no prototype chain of data properties). -/
def read (d : PlainData) (k : Key) : JSVal :=
  (d.getOwn k).getD (.prim .undef)

/-- The numeric value written to an array `length` slot. -/
def lenOf (v : JSVal) (fallback : Nat) : Nat :=
  match v with
  | .prim (.num n) => n.toNat
  | _ => fallback

/-- Keep an index entry when its position is below the new length. -/
def keepIdxUnder (m : Nat) : Key → Bool
  | .i n => decide (n < m)
  | _ => true

/-- Assignment `obj[k] = v` on a plain container.  On an array, writing
`length` truncates: every index entry at position `≥` the new length is
removed (this is native array semantics, which the patch table relies on);
writing an index at or past `length` grows `length`. -/
def set (d : PlainData) (k : Key) (v : JSVal) : PlainData :=
  if d.isArr then
    if k = Key.s "length" then
      { d with len := lenOf v d.len,
               fields := d.fields.filter (fun e => keepIdxUnder (lenOf v d.len) e.1) }
    else
      match k with
      | .i n => { d with len := max d.len (n + 1), fields := setEntry d.fields k v }
      | _ => { d with fields := setEntry d.fields k v }
  else
    { d with fields := setEntry d.fields k v }

/-- `delete obj[k]`: `none` models the `TypeError` thrown in strict mode when
deleting a non-configurable property (the `length` slot of an array).
Deleting an array index does not change `length`. -/
def del (d : PlainData) (k : Key) : Option PlainData :=
  if d.isArr ∧ k = Key.s "length" then none
  else some { d with fields := removeEntry d.fields k }

/-- Insertion into a sorted list of array indices. -/
def insertSorted (n : Nat) : List Nat → List Nat
  | [] => [n]
  | m :: ms => if n ≤ m then n :: m :: ms else m :: insertSorted n ms

/-- Insertion sort for array index keys. -/
def sortNat : List Nat → List Nat
  | [] => []
  | n :: ns => insertSorted n (sortNat ns)

/-- `Reflect.ownKeys`: for an array, index keys in ascending order, then the
`length` slot, then remaining string keys in insertion order; for a record,
insertion order. -/
def ownKeysP (d : PlainData) : List Key :=
  if d.isArr then
    (sortNat (d.fields.filterMap (fun e => match e.1 with | .i n => some n | _ => none))).map Key.i
      ++ [Key.s "length"]
      ++ d.fields.filterMap (fun e => match e.1 with | .s name => some (Key.s name) | _ => none)
  else
    d.fields.map (·.1)

/-- A property of a plain container is configurable unless it is the `length`
slot of an array. -/
def configurable (d : PlainData) (k : Key) : Bool :=
  !(d.isArr && k = Key.s "length")

end PlainData

/-- The backing target of a proxy (`IProxyTarget`): the original `source`
container, the lazily allocated `patches` table (a heap reference), the
`proxies` cache of child façades, and the `referenceCheck` option.  The empty
`proxies` list models the `null` (not yet allocated) cache, which in the
source is never non-null and empty. -/
structure ProxyData where
  source : Nat
  patches : Option Nat
  proxies : List (Key × Nat)
  refCheck : Bool
  deriving DecidableEq, Repr

/-- A heap object: a plain container or a proxy target. -/
inductive Obj where
  | plain (d : PlainData)
  | prox (t : ProxyData)
  deriving DecidableEq, Repr

/-- The heap: objects addressed by allocation index. -/
structure Heap where
  objs : List Obj
  deriving DecidableEq, Repr

namespace Heap

def get? (H : Heap) (r : Nat) : Option Obj := H.objs.get? r

def set (H : Heap) (r : Nat) (o : Obj) : Heap := ⟨H.objs.set r o⟩

def alloc (H : Heap) (o : Obj) : Heap × Nat := (⟨H.objs ++ [o]⟩, H.objs.length)

def size (H : Heap) : Nat := H.objs.length

end Heap

/-- `isProxy`: a value carrying the façade's backing marker. -/
def isProxy (H : Heap) (v : JSVal) : Bool :=
  match v with
  | .ref r => match H.get? r with
    | some (.prox _) => true
    | _ => false
  | _ => false

/-- `isProxyable`: every heap object of this model is a plain-prototype
record, an array, or a proxy, so exactly the references are proxyable. -/
def isProxyable (_H : Heap) (v : JSVal) : Bool :=
  match v with
  | .ref _ => true
  | _ => false

/-- The proxy data behind a value, when it is a proxy. -/
def proxyDataOf (H : Heap) (v : JSVal) : Option ProxyData :=
  match v with
  | .ref r => match H.get? r with
    | some (.prox t) => some t
    | _ => none
  | _ => none

/-- The plain data at a heap reference, when it is a plain container. -/
def plainAt (H : Heap) (r : Nat) : Option PlainData :=
  match H.get? r with
  | some (.plain d) => some d
  | _ => none

/-- `toSource`: the proxy's source, or the value itself. -/
def toSource (H : Heap) (v : JSVal) : JSVal :=
  match proxyDataOf H v with
  | some t => .ref t.source
  | none => v

/-- Association-list lookup in the `proxies` cache. -/
def lookupProxies (ps : List (Key × Nat)) (k : Key) : Option Nat :=
  match ps with
  | [] => none
  | (k', r) :: rest => if k' = k then some r else lookupProxies rest k

/-- Association-list update of the `proxies` cache. -/
def setProxies (ps : List (Key × Nat)) (k : Key) (r : Nat) : List (Key × Nat) :=
  match ps with
  | [] => [(k, r)]
  | (k', r') :: rest => if k' = k then (k, r) :: rest else (k', r') :: setProxies rest k r

/-- `createProxy`: returns an existing proxy unchanged; wraps a plain
container in a fresh proxy target with lazily created bookkeeping. -/
def createProxy (H : Heap) (v : JSVal) (refCheck : Bool) : Heap × JSVal :=
  match v with
  | .ref r =>
    match H.get? r with
    | some (.prox _) => (H, v)
    | some (.plain _) =>
      let (H', p) := H.alloc (.prox { source := r, patches := none, proxies := [], refCheck })
      (H', .ref p)
    | none => (H, v)
  | _ => (H, v)

/-- The domain error kinds raised by the traps. -/
inductive SfError where
  | unsupportedSetPrototypeOf
  | unsupportedPreventExtensions
  | unsupportedDefineProperty
  | targetReadonly
  | deleteNonConfigurable
  deriving DecidableEq, Repr

/-- The patch table of a target, when allocated. -/
def patchData (H : Heap) (t : ProxyData) : Option PlainData :=
  match t.patches with
  | some pr => plainAt H pr
  | none => none

/-- The source data of a target (sources are plain containers). -/
def sourceData (H : Heap) (t : ProxyData) : PlainData :=
  (plainAt H t.source).getD ⟨false, 0, []⟩

/-- The lazy child-façade creation step of `trapGet` (lines 144-148): wrap a
proxyable value, cache it in the `proxies` record (with the parent's
options), else fall back to the raw source value. -/
def createChild (H : Heap) (p : Nat) (t : ProxyData) (k : Key) (v : JSVal) : Heap × JSVal :=
  if isProxyable H v then
    match createProxy H v t.refCheck with
    | (H1, .ref c') =>
      (H1.set p (.prox { t with proxies := setProxies t.proxies k c' }), .ref c')
    | (H1, cv) => (H1, cv)
  else (H, (sourceData H t).read k)

/-- The source fallthrough of `trapGet` (lines 136-150): consult the source
descriptor, serve a cached child façade whose source still matches, else
create a child façade.  Accessors are not modelled: sources are plain data
containers. -/
def trapGetSource (H : Heap) (p : Nat) (t : ProxyData) (k : Key) : Heap × JSVal :=
  let srcD := sourceData H t
  match srcD.getOwn k with
  | some v =>
    if truthy v then
      match lookupProxies t.proxies k with
      | some c =>
        match proxyDataOf H (.ref c) with
        | some ct =>
          if v = .ref ct.source then (H, .ref c)
          else createChild H p t k v
        | none => createChild H p t k v
      | none => createChild H p t k v
    else (H, srcD.read k)
  | none => (H, srcD.read k)

/-- `trapGet` on an ordinary key (the backing marker is `trapGetMarker`):
a defined patch wins, with the tombstone read back as `undefined`; otherwise
fall through to the source. -/
def trapGet (H : Heap) (p : Nat) (k : Key) : Heap × JSVal :=
  match H.get? p with
  | some (.prox t) =>
    match patchData H t with
    | some pd =>
      if pd.hasOwnKey k then
        let v := pd.read k
        (H, if v = .tomb then .prim .undef else v)
      else trapGetSource H p t k
    | none => trapGetSource H p t k
  | _ => (H, .prim .undef)

/-- `ensurePatches`: lazily allocate the patch table, matching the source's
kind (a sparse sequence of the source's length, or an empty record). -/
def ensurePatches (H : Heap) (p : Nat) (t : ProxyData) : Heap × Nat × ProxyData :=
  match t.patches with
  | some pr => (H, pr, t)
  | none =>
    let srcD := sourceData H t
    let init : PlainData := if srcD.isArr then ⟨true, srcD.len, []⟩ else ⟨false, 0, []⟩
    let allocd := H.alloc (.plain init)
    let t' := { t with patches := some allocd.2 }
    (allocd.1.set p (.prox t'), allocd.2, t')

/-- The patch-recording tail of `trapSet` (line 180):
`ensurePatches(target)[key] = value`. -/
def trapSetAssign (H : Heap) (p : Nat) (t : ProxyData) (k : Key) (v : JSVal) : Heap :=
  match ensurePatches H p t with
  | (H1, pr, _) =>
    match plainAt H1 pr with
    | some pd => H1.set pr (.plain (pd.set k v))
    | none => H1

/-- The no-change condition of `trapSet` (lines 162-167): the source owns the
key, and either `target.proxies && target.proxies[key] === value` — the child
cache is allocated (non-empty: in the source it is allocated together with
its first entry and entries are never removed, so it is never non-null and
empty) and its slot at the key, the cached child façade or `undefined` when
the cache has no entry there, is identically the written value — or
`referenceCheck` is enabled and the value is identically the source slot's
value and not a façade. -/
def writeNoChange (H : Heap) (t : ProxyData) (k : Key) (v : JSVal) : Bool :=
  ((sourceData H t).getOwn k).isSome &&
    ((!t.proxies.isEmpty &&
      (match lookupProxies t.proxies k with
       | some c => v = .ref c
       | none => v = .prim .undef))
     || (t.refCheck && (sourceData H t).getOwn k = some v && !isProxy H v))

/-- `trapSet` on an ordinary key.  When the source has the key and the value
round-trips, no change is recorded and an existing configurable patch is
dropped; a non-configurable patch entry falls through to the plain
assignment.  Setters are not modelled: sources are plain data containers. -/
def trapSet (H : Heap) (p : Nat) (k : Key) (v : JSVal) : Heap :=
  match H.get? p with
  | some (.prox t) =>
    if writeNoChange H t k v then
      match patchData H t with
      | none => H
      | some pd =>
        if !pd.hasOwnKey k then H
        else if pd.configurable k then
          match t.patches with
          | some pr => H.set pr (.plain { pd with fields := PlainData.removeEntry pd.fields k })
          | none => H
        else trapSetAssign H p t k v
    else trapSetAssign H p t k v
  | _ => H

/-- `trapDeleteProperty` on an ordinary key.  A source-own key is recorded as
a tombstone (the stale patch is deleted first); deleting the table's own
non-configurable `length` raises, after the table was ensured; a key absent
from the source only clears an existing patch. -/
def trapDelete (H : Heap) (p : Nat) (k : Key) : Heap × Option SfError :=
  match H.get? p with
  | some (.prox t) =>
    let srcD := sourceData H t
    if srcD.hasOwnKey k then
      match ensurePatches H p t with
      | (H1, pr, _) =>
        match plainAt H1 pr with
        | some pd =>
          match pd.del k with
          | none => (H1, some .deleteNonConfigurable)
          | some pd' => (H1.set pr (.plain (pd'.set k .tomb)), none)
        | none => (H1, none)
    else
      match patchData H t with
      | some pd =>
        if pd.hasOwnKey k then
          match pd.del k with
          | none => (H, some .deleteNonConfigurable)
          | some pd' =>
            match t.patches with
            | some pr => (H.set pr (.plain pd'), none)
            | none => (H, none)
        else (H, none)
      | none => (H, none)
  | _ => (H, none)

/-- `trapGet` on the backing marker key returns the backing target itself;
no error is raised (lines 130-132). -/
def trapGetMarker (H : Heap) (p : Nat) : Option ProxyData :=
  proxyDataOf H (.ref p)

/-- `trapSet` on the backing marker raises (lines 154-156). -/
def trapSetMarker (H : Heap) (_p : Nat) (_v : JSVal) : Heap × Option SfError :=
  (H, some .targetReadonly)

/-- `trapDeleteProperty` on the backing marker raises (lines 185-187). -/
def trapDeleteMarker (H : Heap) (_p : Nat) : Heap × Option SfError :=
  (H, some .targetReadonly)

/-- `trapSetPrototypeOf` always raises. -/
def trapSetPrototypeOf (H : Heap) (_p : Nat) (_v : JSVal) : Heap × Option SfError :=
  (H, some .unsupportedSetPrototypeOf)

/-- `trapPreventExtensions` always raises. -/
def trapPreventExtensions (H : Heap) (_p : Nat) : Heap × Option SfError :=
  (H, some .unsupportedPreventExtensions)

/-- `trapDefineProperty` always raises. -/
def trapDefineProperty (H : Heap) (_p : Nat) (_k : Key) : Heap × Option SfError :=
  (H, some .unsupportedDefineProperty)

/-- `traversableOwnKeys`: for a plain container its own keys; for a proxy the
union of patch-table own keys and cached-child keys (patch keys first), or
`none` when neither table was ever allocated. -/
def traversableOwnKeys (H : Heap) (v : JSVal) : Option (List Key) :=
  match v with
  | .ref r =>
    match H.get? r with
    | some (.plain d) => some d.ownKeysP
    | some (.prox t) =>
      let patchedKeys : Option (List Key) := (patchData H t).map PlainData.ownKeysP
      let proxiedKeys : Option (List Key) :=
        if t.proxies.isEmpty then none else some (t.proxies.map (·.1))
      match patchedKeys, proxiedKeys with
      | none, pk => pk
      | some pks, none => some pks
      | some pks, some xks => some (pks ++ xks.filter (fun k => !pks.contains k))
    | none => none
  | _ => none

/-- `obj[k]` read through a heap value (plain containers only; a proxy read
would trap, which the traversal and snapshot code never do on these paths). -/
def plainRead (H : Heap) (v : JSVal) (k : Key) : JSVal :=
  match v with
  | .ref r =>
    match plainAt H r with
    | some d => d.read k
    | none => .prim .undef
  | _ => .prim Prim.undef

/-- `hasOwnProperty(v, k)` on a heap value. -/
def hasOwnAt (H : Heap) (v : JSVal) (k : Key) : Bool :=
  match v with
  | .ref r =>
    match plainAt H r with
    | some d => d.hasOwnKey k
    | none => false
  | _ => false

/-- `v[k] = w` on a heap value holding a plain container. -/
def plainWrite (H : Heap) (v : JSVal) (k : Key) (w : JSVal) : Heap :=
  match v with
  | .ref r =>
    match plainAt H r with
    | some d => H.set r (.plain (d.set k w))
    | none => H
  | _ => H

/-- `delete v[k]` on a heap value holding a plain container (the snapshot
engine only deletes configurable keys, so the failing case is inert). -/
def plainDeleteAt (H : Heap) (v : JSVal) (k : Key) : Heap :=
  match v with
  | .ref r =>
    match plainAt H r with
    | some d =>
      match d.del k with
      | some d' => H.set r (.plain d')
      | none => H
    | none => H
  | _ => H

/-- `baseI?.[k]`: optional chaining returning `undefined` on nullish bases. -/
def optRead (H : Heap) (v : JSVal) (k : Key) : JSVal :=
  match v with
  | .ref _ => plainRead H v k
  | _ => .prim Prim.undef

/-- `shallowClone`: copy the own keys of a plain container into a fresh
container of the same kind; anything else is returned as is. -/
def shallowClone (H : Heap) (v : JSVal) : Heap × JSVal :=
  match v with
  | .ref r =>
    match H.get? r with
    | some (.plain d) =>
      let idxEntries : List (Key × JSVal) :=
        (PlainData.sortNat (d.fields.filterMap (fun e => match e.1 with
          | .i n => some n
          | _ => none))).map
          (fun n => (Key.i n, (PlainData.getEntry d.fields (Key.i n)).getD (.prim .undef)))
      let strEntries : List (Key × JSVal) :=
        d.fields.filter (fun e => match e.1 with | .s _ => true | _ => false)
      let d' : PlainData :=
        if d.isArr then ⟨true, d.len, idxEntries ++ strEntries⟩
        else ⟨false, d.len, d.fields⟩
      match H.alloc (.plain d') with
      | (H1, c) => (H1, .ref c)
    | _ => (H, v)
  | _ => (H, v)

/-- A traversal stack frame: the object, its traversable keys as computed
when the frame was pushed, the current key index, and the key last used to
descend from this frame (the `keyStack` entry at this frame's depth). -/
structure Frame where
  obj : JSVal
  keyList : Option (List Key)
  j : Nat
  childKey : Key
  deriving DecidableEq, Repr

/-- Push a fresh frame for a value. -/
def mkFrame (H : Heap) (v : JSVal) : Frame :=
  ⟨v, traversableOwnKeys H v, 0, .s "undefined"⟩

/-- A visitor: receives the heap, its state, the visited proxy, the stack
depth and the value/key stacks (bottom first); returns the updated heap and
state, and whether it returned the literal `false` (prune). -/
abbrev Visitor (σ : Type) := Heap → σ → JSVal → Nat → List JSVal → List Key → Heap × σ × Bool

/-- The key scan of the proxy branch (lines 367-380): from the current index,
skip keys whose patch is defined but not proxyable; stop at a proxyable patch
or, for unpatched keys, at the cached child façade. -/
def scanProxyKeysAux (H : Heap) (t : ProxyData) : List Key → Nat → Option (Nat × Key × JSVal)
  | [], _ => none
  | k :: rest, j =>
    let patched := match patchData H t with
      | some pd => if pd.hasOwnKey k then some (pd.read k) else none
      | none => none
    match patched with
    | some v =>
      if isProxyable H v then some (j, k, v)
      else scanProxyKeysAux H t rest (j + 1)
    | none => some (j, k, (lookupProxies t.proxies k).elim (.prim .undef) .ref)

/-- The key scan of the plain-container branch (lines 395-409): find the next
proxyable value. -/
def scanPlainKeysAux (H : Heap) (obj : JSVal) : List Key → Nat → Option (Nat × Key × JSVal)
  | [], _ => none
  | k :: rest, j =>
    let v := plainRead H obj k
    if isProxyable H v then some (j, k, v)
    else scanPlainKeysAux H obj rest (j + 1)

/-- The result of one iteration of the traversal loop. -/
inductive StepResult (σ : Type) where
  | more (H : Heap) (st : σ) (frames : List Frame)
  | done (H : Heap) (st : σ)

instance : Inhabited ProxyData := ⟨⟨0, none, [], false⟩⟩

/-- One iteration of the `nextStack` while loop of `traverseProxyable0`
(lines 333-413).  `frames` lists the stack top first. -/
def traverseStep {σ : Type} (vis : Visitor σ) (dfo : Bool) (H : Heap) (st : σ) :
    List Frame → StepResult σ
  | [] => .done H st
  | f :: rest =>
    let i := rest.length + 1
    let objStack := ((f :: rest).map (·.obj)).reverse
    let keyStack := (rest.map (·.childKey)).reverse
    match f.keyList with
    | none =>
      if isProxy H f.obj then
        match vis H st f.obj i objStack keyStack with
        | (H', st', _) => .more H' st' rest
      else .more H st rest
    | some keys =>
      if rest.any (fun g => g.obj = f.obj) then .more H st rest
      else
        match proxyDataOf H f.obj with
        | some _ =>
          let visited :=
            if !dfo && f.j = 0 then vis H st f.obj i objStack keyStack
            else (H, st, false)
          match visited with
          | (H', st', pruned) =>
            if pruned then .more H' st' rest
            else
              let t' := (proxyDataOf H' f.obj).getD default
              match scanProxyKeysAux H' t' (keys.drop f.j) f.j with
              | some (j', k, v) =>
                .more H' st' (mkFrame H' v :: { f with j := j' + 1, childKey := k } :: rest)
              | none =>
                if dfo then
                  match vis H' st' f.obj i objStack keyStack with
                  | (H2, st2, _) => .more H2 st2 rest
                else .more H' st' rest
        | none =>
          match scanPlainKeysAux H f.obj (keys.drop f.j) f.j with
          | some (j', k, v) =>
            .more H st (mkFrame H v :: { f with j := j' + 1, childKey := k } :: rest)
          | none => .more H st rest

/-- Fuel-indexed traversal loop. -/
def traverseLoop {σ : Type} (vis : Visitor σ) (dfo : Bool) :
    Nat → Heap → σ → List Frame → Option (Heap × σ)
  | 0, _, _, _ => none
  | fuel + 1, H, st, frames =>
    match traverseStep vis dfo H st frames with
    | .done H' st' => some (H', st')
    | .more H' st' frames' => traverseLoop vis dfo fuel H' st' frames'

/-- `traverseProxyable0`, fuel-indexed: run the machine from a single root
frame. -/
def traverseProxyable0F {σ : Type} (vis : Visitor σ) (dfo : Bool) (fuel : Nat)
    (H : Heap) (st : σ) (root : JSVal) : Option (Heap × σ) :=
  traverseLoop vis dfo fuel H st [mkFrame H root]


/-- The visitor state of `captureSnapshot`: the working copy root, and a
fuel-exhaustion flag for the nested recursive snapshot. -/
structure SnapState where
  copy : JSVal
  fail : Bool
  deriving DecidableEq, Repr

/-- The downward walk of the change-detection loop (lines 453-478), over the
pairs `(stack[i], keys[i])` for `i < stackDepth - 1`: a non-proxy on the
stack sets `stackPatched`; landing on a non-proxyable copy slot aborts the
visit (`none`). -/
def snapDetectWalk (H : Heap) : List (JSVal × Key) → JSVal → Option (Bool × JSVal)
  | [], copyI => some (false, copyI)
  | (obj, k) :: rest, copyI =>
    if !isProxy H obj then some (true, copyI)
    else
      let copyI' := plainRead H copyI k
      if !isProxyable H copyI' then none
      else snapDetectWalk H rest copyI'

/-- Change detection for the visited proxy: walk the stack to the proxy's
copy slot, then compare each patch entry with that slot — a change is a
differing value or differing own-key presence.  Returns
`(stackPatched, proxyPatched)`, or `none` when the visitor returns `false`
because no base slot exists. -/
def snapDetect (H : Heap) (t : ProxyData) (objStack : List JSVal) (keyStack : List Key)
    (copy : JSVal) : Option (Bool × Bool) :=
  match snapDetectWalk H (objStack.zip keyStack) copy with
  | none => none
  | some (true, _) => some (true, false)
  | some (false, copyI) =>
    let proxyPatched := match patchData H t with
      | some pd => pd.ownKeysP.any (fun k =>
          decide (pd.read k ≠ plainRead H copyI k) || (pd.hasOwnKey k != hasOwnAt H copyI k))
      | none => false
    some (false, proxyPatched)

/-- The clone-and-rewire walk (lines 480-512).  `prevKey` is `keys[i-1]`.
For each step: a plain stack entry replaces the copy slot verbatim; a proxy
whose copy slot still equals the base slot or its own source is (when changes
exist) shallow-cloned and rewired into the parent.  Returns the final heap,
copy root, `copyI` and `parentCopy`. -/
def snapApplyWalk (H : Heap) (proxyPatched : Bool) :
    List JSVal → List Key → Option Key → JSVal → JSVal → JSVal → JSVal →
    Heap × JSVal × JSVal × JSVal
  | [], _, _, copy, _, copyI, parentCopy => (H, copy, copyI, parentCopy)
  | obj :: restObjs, keys, prevKey, copy, baseI, copyI, parentCopy =>
    let stepped : Heap × JSVal × JSVal :=
      if !isProxy H obj then
        match prevKey with
        | none => (H, obj, obj)
        | some pk => (plainWrite H parentCopy pk obj, copy, obj)
      else if copyI = baseI ∨ copyI = toSource H obj then
        let cloned := if proxyPatched then shallowClone H baseI else (H, copyI)
        match cloned, prevKey with
        | (H', c), none => (H', c, c)
        | (H', c), some pk => (plainWrite H' parentCopy pk c, copy, c)
      else (H, copy, copyI)
    match stepped with
    | (H1, copy1, copyI1) =>
      match restObjs, keys with
      | [], _ => (H1, copy1, copyI1, parentCopy)
      | _ :: _, [] => (H1, copy1, copyI1, parentCopy)
      | _ :: _, k :: restKeys =>
        snapApplyWalk H1 proxyPatched restObjs restKeys (some k)
          copy1 (optRead H1 baseI k) (plainRead H1 copyI1 k) copyI1

/-- Apply the patch entries of the visited proxy into its (cloned) copy slot
(lines 518-532): a façade patch writes its source, a tombstone deletes the
key, anything else is written verbatim. -/
def applyPatches (H : Heap) (copyI : JSVal) (pd : PlainData) : Heap :=
  pd.ownKeysP.foldl (fun Hc k =>
    let patch := pd.read k
    match proxyDataOf Hc patch with
    | some pt => plainWrite Hc copyI k (.ref pt.source)
    | none =>
      if patch = .tomb then plainDeleteAt Hc copyI k
      else plainWrite Hc copyI k patch) H

/-- The `captureSnapshot` visitor (lines 445-533), with the recursive
snapshot call abstracted as `recSnap`. -/
def snapVisitorCore (recSnap : Heap → JSVal → Option JSVal → Option (Heap × JSVal))
    (rebasing : Bool) (base : JSVal) : Visitor SnapState :=
  fun H st pxy stackDepth objStack keyStack =>
    if st.fail then (H, st, true)
    else
      match proxyDataOf H pxy with
      | none => (H, st, false)
      | some t =>
        match snapDetect H t objStack keyStack st.copy with
        | none => (H, st, true)
        | some (stackPatched, proxyPatched) =>
          match snapApplyWalk H proxyPatched objStack keyStack none st.copy base st.copy st.copy with
          | (H2, copy2, copyI2, parentCopy2) =>
            if stackPatched || (rebasing && (sourceData H2 t).isArr) then
              match recSnap H2 pxy none with
              | some (H3, snap) =>
                (plainWrite H3 parentCopy2 (keyStack.getD (stackDepth - 2) (.s "undefined")) snap,
                 ⟨copy2, false⟩, true)
              | none => (H2, ⟨copy2, true⟩, true)
            else if proxyPatched then
              match patchData H2 t with
              | some pd => (applyPatches H2 copyI2 pd, ⟨copy2, false⟩, false)
              | none => (H2, ⟨copy2, false⟩, false)
            else (H2, ⟨copy2, false⟩, false)

/-- `captureSnapshot`, fuel-indexed: resolve the base, detect rebasing, and
fold every visited façade onto the working copy. -/
def captureSnapshotF : Nat → Heap → JSVal → Option JSVal → Option (Heap × JSVal)
  | 0, _, _, _ => none
  | fuel + 1, H, value, rebaseOnto? =>
    let source := toSource H value
    let base := rebaseOnto?.getD source
    let rebasing := decide (base ≠ source)
    match traverseLoop (snapVisitorCore (fun H' v r => captureSnapshotF fuel H' v r) rebasing base)
        false (fuel + 1) H ⟨base, false⟩ [mkFrame H value] with
    | some (H', st) => if st.fail then none else some (H', st.copy)
    | none => none

/-! ## Basic heap lemmas -/

theorem Heap.get?_lt_size {H : Heap} {r : Nat} {o : Obj} (h : H.get? r = some o) :
    r < H.size := by
  by_contra hn
  simp only [Heap.get?, List.get?_eq_none.2 (le_of_not_lt hn)] at h
  exact Option.noConfusion h

theorem Heap.get?_alloc_of_lt {H : Heap} {r : Nat} (o : Obj) (h : r < H.size) :
    (H.alloc o).1.get? r = H.get? r := by
  simp only [Heap.alloc, Heap.get?]
  exact List.get?_append h

theorem Heap.get?_alloc_self (H : Heap) (o : Obj) :
    (H.alloc o).1.get? (H.alloc o).2 = some o := by
  simp only [Heap.alloc, Heap.get?]
  exact List.get?_concat_length H.objs o

theorem Heap.get?_set_self {H : Heap} {r : Nat} (o : Obj) (h : r < H.size) :
    (H.set r o).get? r = some o := by
  simp only [Heap.set, Heap.get?]
  exact List.get?_set_eq_of_lt o h

theorem Heap.get?_set_other {H : Heap} {r r' : Nat} (o : Obj) (h : r ≠ r') :
    (H.set r o).get? r' = H.get? r' := by
  simp only [Heap.set, Heap.get?]
  exact List.get?_set_ne o H.objs h

theorem Heap.size_set (H : Heap) (r : Nat) (o : Obj) : (H.set r o).size = H.size := by
  simp [Heap.set, Heap.size]

theorem Heap.size_alloc (H : Heap) (o : Obj) : (H.alloc o).1.size = H.size + 1 := by
  simp [Heap.alloc, Heap.size]

theorem Heap.alloc_snd (H : Heap) (o : Obj) : (H.alloc o).2 = H.size := rfl

theorem Heap.get?_alloc_size (H : Heap) (o : Obj) : (H.alloc o).1.get? H.size = some o :=
  Heap.get?_alloc_self H o

/-! ## C9: forbidden reflective operations -/

/-- A concrete one-field record and its façade, used by counterexamples. -/
def exHeap : Heap :=
  ⟨[.plain ⟨false, 0, [(Key.s "foo", .prim (.num 123))]⟩, .prox ⟨0, none, [], false⟩]⟩

/-- C9 counterexample: reading the backing marker key on a concrete façade
does not raise — the trap returns the backing target (source reference 0,
no patches, no children), contradicting the claim that reading the marker
raises an error.  This matches the repository test `returns underlying
target`. -/
theorem C9_counterexample :
    trapGetMarker exHeap 1 = some ⟨0, none, [], false⟩ := by decide

/-- C9 (amended): changing the prototype, preventing extensions, defining a
property descriptor, and writing or deleting the backing marker key all raise
and leave the heap (hence every patch table) unchanged; reading the backing
marker does not raise and returns the backing target. -/
theorem C9_forbidden_operations (H : Heap) (p : Nat) (v : JSVal) (k : Key) :
    trapSetPrototypeOf H p v = (H, some .unsupportedSetPrototypeOf) ∧
    trapPreventExtensions H p = (H, some .unsupportedPreventExtensions) ∧
    trapDefineProperty H p k = (H, some .unsupportedDefineProperty) ∧
    trapSetMarker H p v = (H, some .targetReadonly) ∧
    trapDeleteMarker H p = (H, some .targetReadonly) ∧
    trapGetMarker H p = proxyDataOf H (.ref p) :=
  ⟨rfl, rfl, rfl, rfl, rfl, rfl⟩

/-! ## Association-list lemmas for plain containers -/

namespace PlainData

theorem getEntry_setEntry (fs : List (Key × JSVal)) (k : Key) (v : JSVal) (k' : Key) :
    getEntry (setEntry fs k v) k' = if k = k' then some v else getEntry fs k' := by
  induction fs with
  | nil =>
    by_cases h : k = k'
    · subst h; simp [setEntry, getEntry]
    · simp [setEntry, getEntry, h, fun hh : k' = k => h hh.symm]
  | cons e rest ih =>
    obtain ⟨k1, v1⟩ := e
    by_cases h1 : k1 = k
    · subst h1
      by_cases h2 : k1 = k'
      · subst h2; simp [setEntry, getEntry]
      · simp [setEntry, getEntry, h2, fun hh : k1 = k' => h2 hh]
    · by_cases h2 : k1 = k'
      · subst h2
        have hk : ¬ k = k1 := fun hh => h1 hh.symm
        simp [setEntry, getEntry, h1, hk]
      · simp [setEntry, getEntry, h1, h2, ih]

theorem getEntry_removeEntry_ne (fs : List (Key × JSVal)) {k k' : Key} (h : k ≠ k') :
    getEntry (removeEntry fs k) k' = getEntry fs k' := by
  induction fs with
  | nil => simp [removeEntry]
  | cons e rest ih =>
    obtain ⟨k1, v1⟩ := e
    by_cases h1 : k1 = k
    · subst h1
      simp [removeEntry, getEntry, fun hh : k1 = k' => h (hh : k1 = k')]
    · by_cases h2 : k1 = k'
      · subst h2; simp [removeEntry, getEntry, h1]
      · simp [removeEntry, getEntry, h1, h2, ih]

theorem getEntry_eq_none_of_not_mem (fs : List (Key × JSVal)) {k : Key}
    (h : k ∉ fs.map Prod.fst) : getEntry fs k = none := by
  induction fs with
  | nil => simp [getEntry]
  | cons e rest ih =>
    obtain ⟨k1, v1⟩ := e
    simp only [List.map_cons, List.mem_cons] at h
    push_neg at h
    have hne : ¬ k1 = k := fun hh => h.1 hh.symm
    simp [getEntry, hne, ih h.2]

theorem getEntry_removeEntry_self (fs : List (Key × JSVal)) (k : Key)
    (h : (fs.map Prod.fst).Nodup) : getEntry (removeEntry fs k) k = none := by
  induction fs with
  | nil => simp [removeEntry, getEntry]
  | cons e rest ih =>
    obtain ⟨k1, v1⟩ := e
    simp only [List.map_cons, List.nodup_cons] at h
    by_cases h1 : k1 = k
    · subst h1
      simp only [removeEntry, if_pos rfl]
      exact getEntry_eq_none_of_not_mem rest h.1
    · simp [removeEntry, getEntry, h1, ih h.2]

theorem getEntry_filterKey (fs : List (Key × JSVal)) (P : Key → Bool) (k' : Key) :
    getEntry (fs.filter (fun e => P e.1)) k' = if P k' then getEntry fs k' else none := by
  induction fs with
  | nil => by_cases h : P k' <;> simp [getEntry, h]
  | cons e rest ih =>
    obtain ⟨k1, v1⟩ := e
    by_cases h1 : k1 = k'
    · subst h1
      by_cases h2 : P k1 <;> simp [getEntry, List.filter_cons, h2, ih]
    · by_cases h2 : P k1 <;> simp [getEntry, List.filter_cons, h1, h2, ih]

theorem mem_keys_setEntry (fs : List (Key × JSVal)) (k : Key) (v : JSVal) (k' : Key) :
    k' ∈ (setEntry fs k v).map Prod.fst ↔ k' = k ∨ k' ∈ fs.map Prod.fst := by
  induction fs with
  | nil => simp [setEntry]
  | cons e rest ih =>
    obtain ⟨k1, v1⟩ := e
    by_cases h1 : k1 = k
    · subst h1
      simp only [setEntry, if_pos]
      simp only [List.map_cons, List.mem_cons]
      tauto
    · simp only [setEntry, if_neg h1, List.map_cons, List.mem_cons, ih]
      tauto

theorem nodup_keys_setEntry (fs : List (Key × JSVal)) (k : Key) (v : JSVal)
    (h : (fs.map Prod.fst).Nodup) : ((setEntry fs k v).map Prod.fst).Nodup := by
  induction fs with
  | nil => simp [setEntry]
  | cons e rest ih =>
    obtain ⟨k1, v1⟩ := e
    simp only [List.map_cons, List.nodup_cons] at h
    by_cases h1 : k1 = k
    · subst h1
      simp only [setEntry, if_pos]
      simp only [List.map_cons, List.nodup_cons]
      exact ⟨h.1, h.2⟩
    · simp only [setEntry, if_neg h1, List.map_cons, List.nodup_cons]
      refine ⟨fun hm => ?_, ih h.2⟩
      rcases (mem_keys_setEntry rest k v k1).1 hm with h2 | h2
      · exact h1 h2
      · exact h.1 h2

theorem keys_removeEntry_sublist (fs : List (Key × JSVal)) (k : Key) :
    ((removeEntry fs k).map Prod.fst).Sublist (fs.map Prod.fst) := by
  induction fs with
  | nil => simp [removeEntry]
  | cons e rest ih =>
    obtain ⟨k1, v1⟩ := e
    by_cases h1 : k1 = k
    · subst h1
      simp only [removeEntry, if_pos rfl, List.map_cons]
      exact List.sublist_cons_self _ _
    · simp only [removeEntry, if_neg h1, List.map_cons]
      exact ih.cons₂ _

theorem nodup_keys_removeEntry (fs : List (Key × JSVal)) (k : Key)
    (h : (fs.map Prod.fst).Nodup) : ((removeEntry fs k).map Prod.fst).Nodup :=
  (keys_removeEntry_sublist fs k).nodup h

theorem nodup_keys_filter (fs : List (Key × JSVal)) (P : Key × JSVal → Bool)
    (h : (fs.map Prod.fst).Nodup) : ((fs.filter P).map Prod.fst).Nodup :=
  ((fs.filter_sublist (p := P)).map Prod.fst).nodup h

end PlainData

namespace PlainData

theorem any_keys_eq_getEntry (fs : List (Key × JSVal)) (k : Key) :
    (fs.any (fun e => e.1 = k)) = (getEntry fs k).isSome := by
  induction fs with
  | nil => simp [getEntry]
  | cons e rest ih =>
    obtain ⟨k1, v1⟩ := e
    by_cases h1 : k1 = k <;> simp [getEntry, h1, ih]

theorem getOwn_isSome_eq_hasOwn (d : PlainData) (k : Key) :
    (d.getOwn k).isSome = d.hasOwnKey k := by
  unfold getOwn hasOwnKey
  by_cases h : d.isArr ∧ k = Key.s "length"
  · simp [h.1, h.2]
  · rw [if_neg h, any_keys_eq_getEntry]
    by_cases ha : d.isArr
    · have hk : ¬ k = Key.s "length" := fun hk => h ⟨ha, hk⟩
      simp [ha, hk]
    · simp [ha]

theorem read_eq_tomb_iff (d : PlainData) (k : Key) :
    d.read k = .tomb ↔ d.getOwn k = some .tomb := by
  unfold read
  cases h : d.getOwn k <;> simp

theorem hasOwn_of_getOwn_some {d : PlainData} {k : Key} {w : JSVal}
    (h : d.getOwn k = some w) : d.hasOwnKey k = true := by
  rw [← getOwn_isSome_eq_hasOwn, h]
  rfl

theorem getOwn_none_of_not_hasOwn {d : PlainData} {k : Key}
    (h : d.hasOwnKey k = false) : d.getOwn k = none := by
  cases hg : d.getOwn k with
  | none => rfl
  | some w => rw [hasOwn_of_getOwn_some hg] at h; exact Bool.noConfusion h

/-- Writing a value that is not the tombstone never creates a tombstone:
a tombstone read off the updated container was already there. -/
theorem getOwn_set_tomb {d : PlainData} {k k' : Key} {v : JSVal}
    (h : (d.set k v).getOwn k' = some .tomb) :
    (k = k' ∧ v = .tomb) ∨ d.getOwn k' = some .tomb := by
  unfold set at h
  by_cases ha : d.isArr
  · rw [if_pos ha] at h
    by_cases hk : k = Key.s "length"
    · rw [if_pos hk] at h
      unfold getOwn at h
      by_cases hk' : k' = Key.s "length"
      · simp [ha, hk'] at h
      · rw [if_neg (by simp [hk'])] at h
        simp only at h
        rw [getEntry_filterKey] at h
        split at h
        · right
          unfold getOwn
          rw [if_neg (by simp [hk'])]
          exact h
        · exact absurd h (by simp)
    · rw [if_neg hk] at h
      cases k with
      | i n =>
        simp only at h
        unfold getOwn at h
        by_cases hk' : k' = Key.s "length"
        · simp [ha, hk'] at h
        · rw [if_neg (by simp [hk'])] at h
          simp only at h
          rw [getEntry_setEntry] at h
          split at h
          · rename_i heq
            exact Or.inl ⟨heq, by injection h⟩
          · right
            unfold getOwn
            rw [if_neg (by simp [hk'])]
            exact h
      | s name =>
        simp only at h
        unfold getOwn at h
        by_cases hk' : k' = Key.s "length"
        · simp [ha, hk'] at h
        · rw [if_neg (by simp [hk'])] at h
          simp only at h
          rw [getEntry_setEntry] at h
          split at h
          · rename_i heq
            exact Or.inl ⟨heq, by injection h⟩
          · right
            unfold getOwn
            rw [if_neg (by simp [hk'])]
            exact h
  · rw [if_neg ha] at h
    unfold getOwn at h ⊢
    rw [if_neg (by simp [ha])] at h
    rw [if_neg (by simp [ha])]
    simp only at h
    rw [getEntry_setEntry] at h
    split at h
    · rename_i heq
      exact Or.inl ⟨heq, by injection h⟩
    · exact Or.inr h

/-- Writing at a key that is not the `length` slot of an array stores the
value verbatim. -/
theorem getOwn_set_self {d : PlainData} {k : Key} (v : JSVal)
    (h : ¬ (d.isArr = true ∧ k = Key.s "length")) :
    (d.set k v).getOwn k = some v := by
  unfold set
  by_cases ha : d.isArr
  · rw [if_pos ha]
    have hk : ¬ k = Key.s "length" := fun hk => h ⟨ha, hk⟩
    rw [if_neg hk]
    cases k with
    | i n =>
      unfold getOwn
      rw [if_neg (by simp [hk])]
      simp only
      rw [getEntry_setEntry, if_pos rfl]
    | s name =>
      unfold getOwn
      rw [if_neg (by simp [hk])]
      simp only
      rw [getEntry_setEntry, if_pos rfl]
  · rw [if_neg ha]
    unfold getOwn
    rw [if_neg (by simp [ha])]
    simp only
    rw [getEntry_setEntry, if_pos rfl]

/-- Writing `length` on an array truncates: no index entry at or past the
written length survives. -/
theorem getOwn_set_length_high {d : PlainData} {v : JSVal} {n : Nat}
    (ha : d.isArr = true) (hn : lenOf v d.len ≤ n) :
    (d.set (Key.s "length") v).getOwn (Key.i n) = none := by
  unfold set
  rw [if_pos ha, if_pos rfl]
  unfold getOwn
  rw [if_neg (by simp)]
  simp only
  rw [getEntry_filterKey]
  rw [if_neg (by simp [keepIdxUnder]; omega)]

theorem isArr_set (d : PlainData) (k : Key) (v : JSVal) : (d.set k v).isArr = d.isArr := by
  unfold set
  split
  · split
    · rfl
    · split <;> rfl
  · rfl

theorem nodup_keys_set {d : PlainData} (k : Key) (v : JSVal)
    (h : (d.fields.map Prod.fst).Nodup) : ((d.set k v).fields.map Prod.fst).Nodup := by
  unfold set
  split
  · split
    · exact nodup_keys_filter _ _ h
    · split <;> exact nodup_keys_setEntry _ _ _ h
  · exact nodup_keys_setEntry _ _ _ h

theorem del_eq_some {d : PlainData} {k : Key}
    (h : ¬ (d.isArr = true ∧ k = Key.s "length")) :
    d.del k = some { d with fields := removeEntry d.fields k } := by
  unfold del
  rw [if_neg (by exact_mod_cast h)]

theorem del_eq_none {d : PlainData} {k : Key}
    (h : d.isArr = true ∧ k = Key.s "length") : d.del k = none := by
  unfold del
  rw [if_pos (by exact_mod_cast h)]

end PlainData

/-! ## Façade operations and invariants -/

/-- A user operation performed through a façade. -/
inductive UserOp where
  | read (k : Key)
  | write (k : Key) (v : JSVal)
  | remove (k : Key)
  deriving DecidableEq, Repr

/-- Users cannot forge the module-private tombstone sentinel: written values
are never the tombstone. -/
def UserOp.noTomb : UserOp → Prop
  | .write _ v => v ≠ .tomb
  | _ => True

/-- Run one user operation through the façade at `p`. -/
def runOp (H : Heap) (p : Nat) : UserOp → Heap
  | .read k => (trapGet H p k).1
  | .write k v => trapSet H p k v
  | .remove k => (trapDelete H p k).1

/-- Run a sequence of user operations through the façade at `p`. -/
def runOps (H : Heap) (p : Nat) : List UserOp → Heap
  | [] => H
  | op :: ops => runOps (runOp H p op) p ops

/-- The façade's pending patch at a key, when the patch table owns the key. -/
def patchAt (H : Heap) (p : Nat) (k : Key) : Option JSVal :=
  match proxyDataOf H (.ref p) with
  | some t =>
    match patchData H t with
    | some pd => if pd.hasOwnKey k then some (pd.read k) else none
    | none => none
  | none => none

/-- Whether the façade's source owns a key. -/
def sourceOwn (H : Heap) (p : Nat) (k : Key) : Bool :=
  match proxyDataOf H (.ref p) with
  | some t => (sourceData H t).hasOwnKey k
  | none => false

/-- Well-formedness of a façade: its slot holds a proxy; the source is a
plain container at a distinct slot; the patch table, when allocated, lives at
a slot distinct from the façade and the source, is plain, matches the
source's kind, and has unique field keys. -/
def FacadeWF (H : Heap) (p : Nat) : Prop :=
  ∃ t sd, H.get? p = some (.prox t) ∧ plainAt H t.source = some sd ∧ t.source ≠ p ∧
    ∀ pr, t.patches = some pr → pr ≠ p ∧ pr ≠ t.source ∧
      ∃ pd, plainAt H pr = some pd ∧ pd.isArr = sd.isArr ∧ (pd.fields.map Prod.fst).Nodup

/-- `createChild` either leaves the heap alone, or (perhaps after one
allocation) rewrites only the façade's `proxies` cache. -/
theorem createChild_shape (H : Heap) (p : Nat) (t : ProxyData) (k : Key) (v : JSVal) :
    (createChild H p t k v).1 = H ∨
    ∃ ps H₀, (H₀ = H ∨ ∃ o, H₀ = (H.alloc o).1) ∧
      (createChild H p t k v).1 = H₀.set p (.prox ⟨t.source, t.patches, ps, t.refCheck⟩) := by
  cases v with
  | prim q => exact Or.inl rfl
  | tomb => exact Or.inl rfl
  | ref r =>
    cases hr : H.get? r with
    | none =>
      simp only [createChild, isProxyable, if_true, createProxy, hr]
      exact Or.inr ⟨_, H, Or.inl rfl, rfl⟩
    | some o =>
      cases o with
      | prox t2 =>
        simp only [createChild, isProxyable, if_true, createProxy, hr]
        exact Or.inr ⟨_, H, Or.inl rfl, rfl⟩
      | plain d2 =>
        simp only [createChild, isProxyable, if_true, createProxy, hr]
        exact Or.inr ⟨_, _, Or.inr ⟨_, rfl⟩, rfl⟩

/-- `trapGetSource` either leaves the heap alone, or (perhaps after one
allocation) rewrites only the façade's `proxies` cache. -/
theorem trapGetSource_shape (H : Heap) (p : Nat) (t : ProxyData) (k : Key) :
    (trapGetSource H p t k).1 = H ∨
    ∃ ps H₀, (H₀ = H ∨ ∃ o, H₀ = (H.alloc o).1) ∧
      (trapGetSource H p t k).1 = H₀.set p (.prox ⟨t.source, t.patches, ps, t.refCheck⟩) := by
  cases hg : (sourceData H t).getOwn k with
  | none =>
    simp only [trapGetSource, hg]
    first | exact Or.inl rfl | exact Or.inl trivial
  | some v =>
    have hcase : truthy v = true ∨ truthy v = false := by cases truthy v <;> simp
    rcases hcase with htr | htr
    · cases hlp : lookupProxies t.proxies k with
      | none =>
        simp only [trapGetSource, hg, hlp, htr, if_true]
        exact createChild_shape H p t k v
      | some c =>
        cases hpc : proxyDataOf H (.ref c) with
        | none =>
          simp only [trapGetSource, hg, hlp, hpc, htr, if_true]
          exact createChild_shape H p t k v
        | some ct =>
          by_cases hvc : v = JSVal.ref ct.source
          · simp only [trapGetSource, hg, hlp, hpc, htr, hvc, if_true, if_pos rfl]
            first | exact Or.inl rfl | exact Or.inl trivial
          · simp only [trapGetSource, hg, hlp, hpc, htr, if_true, if_neg hvc]
            exact createChild_shape H p t k v
    · simp only [trapGetSource, hg, htr, Bool.false_eq_true, if_false]
      first | exact Or.inl rfl | exact Or.inl trivial

/-- `trapGet` either leaves the heap alone, or (perhaps after one allocation)
rewrites only the façade's `proxies` cache. -/
theorem trapGet_shape (H : Heap) (p : Nat) (k : Key) :
    (trapGet H p k).1 = H ∨
    ∃ t ps H₀, H.get? p = some (.prox t) ∧ (H₀ = H ∨ ∃ o, H₀ = (H.alloc o).1) ∧
      (trapGet H p k).1 = H₀.set p (.prox ⟨t.source, t.patches, ps, t.refCheck⟩) := by
  cases hp : H.get? p with
  | none =>
    simp only [trapGet, hp]
    first | exact Or.inl rfl | exact Or.inl trivial
  | some o =>
    cases o with
    | plain d =>
      simp only [trapGet, hp]
      first | exact Or.inl rfl | exact Or.inl trivial
    | prox t =>
      have hsub := trapGetSource_shape H p t k
      cases hpd : patchData H t with
      | none =>
        simp only [trapGet, hp, hpd]
        rcases hsub with h | ⟨ps, H₀, h₀, heq⟩
        · exact Or.inl h
        · exact Or.inr ⟨t, ps, H₀, rfl, h₀, heq⟩
      | some pd =>
        by_cases hown : pd.hasOwnKey k = true
        · simp only [trapGet, hp, hpd, hown, if_true]
          first | exact Or.inl rfl | exact Or.inl trivial
        · simp only [trapGet, hp, hpd, hown, Bool.false_eq_true, if_false]
          rcases hsub with h | ⟨ps, H₀, h₀, heq⟩
          · exact Or.inl h
          · exact Or.inr ⟨t, ps, H₀, rfl, h₀, heq⟩

/-- Reading a slot of a heap extended by an optional allocation. -/
theorem get?_optAlloc {H H₀ : Heap} (h₀ : H₀ = H ∨ ∃ o, H₀ = (H.alloc o).1) {r : Nat}
    (hr : r < H.size) : H₀.get? r = H.get? r := by
  rcases h₀ with rfl | ⟨o, rfl⟩
  · rfl
  · exact Heap.get?_alloc_of_lt o hr

/-- Unfolding `patchAt` at a known proxy. -/
theorem patchAt_eq (H : Heap) (p : Nat) {t : ProxyData} (ht : H.get? p = some (.prox t))
    (k : Key) :
    patchAt H p k = (match patchData H t with
      | some pd => if pd.hasOwnKey k then some (pd.read k) else none
      | none => none) := by
  simp only [patchAt, proxyDataOf, ht]

/-- Unfolding `sourceOwn` at a known proxy. -/
theorem sourceOwn_eq (H : Heap) (p : Nat) {t : ProxyData} (ht : H.get? p = some (.prox t))
    (k : Key) : sourceOwn H p k = (sourceData H t).hasOwnKey k := by
  simp only [sourceOwn, proxyDataOf, ht]

/-- `trapGet` changes no patch data. -/
theorem trapGet_patchAt (H : Heap) (p : Nat) (k k' : Key) (wf : FacadeWF H p) :
    patchAt (trapGet H p k).1 p k' = patchAt H p k' := by
  rcases trapGet_shape H p k with h | ⟨t, ps, H₀, hp, h₀, heq⟩
  · rw [h]
  · obtain ⟨t', sd, ht', hs, hsp, hpt⟩ := wf
    rw [hp] at ht'
    obtain rfl : t = t' := by injection ht' with h1; injection h1
    have hpsize : p < H.size := Heap.get?_lt_size hp
    have hpsize₀ : p < H₀.size := by
      rcases h₀ with rfl | ⟨o, rfl⟩
      · exact hpsize
      · rw [Heap.size_alloc]; omega
    have hget : ((trapGet H p k).1).get? p
        = some (.prox ⟨t.source, t.patches, ps, t.refCheck⟩) := by
      rw [heq]
      exact Heap.get?_set_self _ hpsize₀
    rw [patchAt_eq _ _ hget, patchAt_eq _ _ hp]
    cases hpat : t.patches with
    | none => simp [patchData, hpat]
    | some pr =>
      obtain ⟨hprp, hprs, pd, hpd, hkind, hnd⟩ := hpt pr hpat
      have hprsize : pr < H.size := by
        unfold plainAt at hpd
        cases hgr : H.get? pr with
        | none => rw [hgr] at hpd; exact Option.noConfusion hpd
        | some o => exact Heap.get?_lt_size hgr
      have : ((trapGet H p k).1).get? pr = H.get? pr := by
        rw [heq, Heap.get?_set_other _ (fun hh => hprp hh.symm)]
        exact get?_optAlloc h₀ hprsize
      simp only [patchData, hpat, plainAt, this]

/-- `trapGet` changes no source data. -/
theorem trapGet_sourceOwn (H : Heap) (p : Nat) (k k' : Key) (wf : FacadeWF H p) :
    sourceOwn (trapGet H p k).1 p k' = sourceOwn H p k' := by
  rcases trapGet_shape H p k with h | ⟨t, ps, H₀, hp, h₀, heq⟩
  · rw [h]
  · obtain ⟨t', sd, ht', hs, hsp, hpt⟩ := wf
    rw [hp] at ht'
    obtain rfl : t = t' := by injection ht' with h1; injection h1
    have hpsize : p < H.size := Heap.get?_lt_size hp
    have hpsize₀ : p < H₀.size := by
      rcases h₀ with rfl | ⟨o, rfl⟩
      · exact hpsize
      · rw [Heap.size_alloc]; omega
    have hget : ((trapGet H p k).1).get? p
        = some (.prox ⟨t.source, t.patches, ps, t.refCheck⟩) := by
      rw [heq]
      exact Heap.get?_set_self _ hpsize₀
    rw [sourceOwn_eq _ _ hget, sourceOwn_eq _ _ hp]
    have hssize : t.source < H.size := by
      unfold plainAt at hs
      cases hgr : H.get? t.source with
      | none => rw [hgr] at hs; exact Option.noConfusion hs
      | some o => exact Heap.get?_lt_size hgr
    have : ((trapGet H p k).1).get? t.source = H.get? t.source := by
      rw [heq, Heap.get?_set_other _ (fun hh => hsp hh.symm)]
      exact get?_optAlloc h₀ hssize
    simp only [sourceData, plainAt, this]

/-- `trapGet` preserves façade well-formedness. -/
theorem trapGet_wf (H : Heap) (p : Nat) (k : Key) (wf : FacadeWF H p) :
    FacadeWF (trapGet H p k).1 p := by
  rcases trapGet_shape H p k with h | ⟨t, ps, H₀, hp, h₀, heq⟩
  · rw [h]; exact wf
  · obtain ⟨t', sd, ht', hs, hsp, hpt⟩ := wf
    rw [hp] at ht'
    obtain rfl : t = t' := by injection ht' with h1; injection h1
    have hpsize : p < H.size := Heap.get?_lt_size hp
    have hpsize₀ : p < H₀.size := by
      rcases h₀ with rfl | ⟨o, rfl⟩
      · exact hpsize
      · rw [Heap.size_alloc]; omega
    have hget : ((trapGet H p k).1).get? p
        = some (.prox ⟨t.source, t.patches, ps, t.refCheck⟩) := by
      rw [heq]
      exact Heap.get?_set_self _ hpsize₀
    have hssize : t.source < H.size := by
      unfold plainAt at hs
      cases hgr : H.get? t.source with
      | none => rw [hgr] at hs; exact Option.noConfusion hs
      | some o => exact Heap.get?_lt_size hgr
    have hsrc : ((trapGet H p k).1).get? t.source = H.get? t.source := by
      rw [heq, Heap.get?_set_other _ (fun hh => hsp hh.symm)]
      exact get?_optAlloc h₀ hssize
    refine ⟨⟨t.source, t.patches, ps, t.refCheck⟩, sd, hget, ?_, hsp, ?_⟩
    · unfold plainAt at hs ⊢
      rw [hsrc]
      exact hs
    · intro pr hpr
      obtain ⟨hprp, hprs, pd, hpd, hkind, hnd⟩ := hpt pr hpr
      have hprsize : pr < H.size := by
        unfold plainAt at hpd
        cases hgr : H.get? pr with
        | none => rw [hgr] at hpd; exact Option.noConfusion hpd
        | some o => exact Heap.get?_lt_size hgr
      refine ⟨hprp, hprs, pd, ?_, hkind, hnd⟩
      unfold plainAt at hpd ⊢
      rw [heq, Heap.get?_set_other _ (fun hh => hprp hh.symm), get?_optAlloc h₀ hprsize]
      exact hpd

/-- The size of a heap slot holding something. -/
theorem plainAt_lt_size {H : Heap} {r : Nat} {d : PlainData} (h : plainAt H r = some d) :
    r < H.size := by
  unfold plainAt at h
  cases hgr : H.get? r with
  | none => rw [hgr] at h; exact Option.noConfusion h
  | some o => exact Heap.get?_lt_size hgr

/-- The effect of the patch-assignment tail `ensurePatches(target)[key] = value`:
afterwards the façade owns a patch table that is the previous table (or a
fresh kind-matching empty one) updated at the written key; the façade slot
keeps its source and children; the source slot is untouched. -/
theorem trapSetAssign_spec (H : Heap) (p : Nat) (t : ProxyData) (k : Key) (v : JSVal)
    {sd : PlainData}
    (ht : H.get? p = some (.prox t)) (hs : plainAt H t.source = some sd) (hsp : t.source ≠ p)
    (hpt : ∀ pr, t.patches = some pr → pr ≠ p ∧ pr ≠ t.source ∧
      ∃ pd, plainAt H pr = some pd ∧ pd.isArr = sd.isArr ∧ (pd.fields.map Prod.fst).Nodup) :
    ∃ pr pd0,
      (trapSetAssign H p t k v).get? p
        = some (.prox ⟨t.source, some pr, t.proxies, t.refCheck⟩) ∧
      plainAt (trapSetAssign H p t k v) pr = some (pd0.set k v) ∧
      pr ≠ p ∧ pr ≠ t.source ∧
      (trapSetAssign H p t k v).get? t.source = H.get? t.source ∧
      pd0.isArr = sd.isArr ∧ (pd0.fields.map Prod.fst).Nodup ∧
      (∀ pr', t.patches = some pr' → pr' = pr ∧ patchData H t = some pd0) ∧
      (t.patches = none → pd0.fields = []) := by
  have hpsize : p < H.size := Heap.get?_lt_size ht
  have hssize : t.source < H.size := plainAt_lt_size hs
  have hsd : sourceData H t = sd := by unfold sourceData; rw [hs]; rfl
  obtain ⟨tsrc, tpat, tpx, trc⟩ := t
  simp only at ht hs hsp hpt hsd hssize ⊢
  cases hpat : tpat with
  | some pr =>
    subst hpat
    obtain ⟨hprp, hprs, pd, hpd, hkind, hnd⟩ := hpt pr rfl
    have hprsize : pr < H.size := plainAt_lt_size hpd
    refine ⟨pr, pd, ?_, ?_, hprp, hprs, ?_, hkind, hnd, ?_, ?_⟩
    · simp only [trapSetAssign, ensurePatches, hpd]
      rw [Heap.get?_set_other _ hprp, ht]
    · simp only [trapSetAssign, ensurePatches, hpd]
      unfold plainAt
      rw [Heap.get?_set_self _ hprsize]
    · simp only [trapSetAssign, ensurePatches, hpd]
      rw [Heap.get?_set_other _ hprs]
    · intro pr' hpr'
      refine ⟨by injection hpr' with h; exact h.symm, ?_⟩
      simp only [patchData, hpd]
    · intro hnone
      exact Option.noConfusion hnone
  | none =>
    subst hpat
    refine ⟨H.size, if sd.isArr then ⟨true, sd.len, []⟩ else ⟨false, 0, []⟩, ?_, ?_, ?_, ?_, ?_, ?_, ?_, ?_, ?_⟩
    · simp only [trapSetAssign, ensurePatches, hsd, Heap.alloc_snd]
      have h1 : plainAt ((H.alloc (.plain (if sd.isArr then ⟨true, sd.len, []⟩ else ⟨false, 0, []⟩))).1.set p
          (.prox ⟨tsrc, some H.size, tpx, trc⟩)) H.size
          = some (if sd.isArr then ⟨true, sd.len, []⟩ else ⟨false, 0, []⟩) := by
        unfold plainAt
        rw [Heap.get?_set_other _ (fun hh : p = H.size => by omega), Heap.get?_alloc_size]
      cases hb : sd.isArr with
      | true =>
        simp only [hb, if_true] at h1 ⊢
        rw [h1]
        simp only
        rw [Heap.get?_set_other _ (fun hh : H.size = p => by omega)]
        rw [Heap.get?_set_self _ (by rw [Heap.size_alloc]; omega)]
      | false =>
        simp only [hb, Bool.false_eq_true, if_false] at h1 ⊢
        rw [h1]
        simp only
        rw [Heap.get?_set_other _ (fun hh : H.size = p => by omega)]
        rw [Heap.get?_set_self _ (by rw [Heap.size_alloc]; omega)]
    · simp only [trapSetAssign, ensurePatches, hsd, Heap.alloc_snd]
      have h1 : plainAt ((H.alloc (.plain (if sd.isArr then ⟨true, sd.len, []⟩ else ⟨false, 0, []⟩))).1.set p
          (.prox ⟨tsrc, some H.size, tpx, trc⟩)) H.size
          = some (if sd.isArr then ⟨true, sd.len, []⟩ else ⟨false, 0, []⟩) := by
        unfold plainAt
        rw [Heap.get?_set_other _ (fun hh : p = H.size => by omega), Heap.get?_alloc_size]
      cases hb : sd.isArr with
      | true =>
        simp only [hb, if_true] at h1 ⊢
        rw [h1]
        simp only
        unfold plainAt
        rw [Heap.get?_set_self _ (by rw [Heap.size_set, Heap.size_alloc]; omega)]
      | false =>
        simp only [hb, Bool.false_eq_true, if_false] at h1 ⊢
        rw [h1]
        simp only
        unfold plainAt
        rw [Heap.get?_set_self _ (by rw [Heap.size_set, Heap.size_alloc]; omega)]
    · omega
    · omega
    · simp only [trapSetAssign, ensurePatches, hsd, Heap.alloc_snd]
      have h1 : plainAt ((H.alloc (.plain (if sd.isArr then ⟨true, sd.len, []⟩ else ⟨false, 0, []⟩))).1.set p
          (.prox ⟨tsrc, some H.size, tpx, trc⟩)) H.size
          = some (if sd.isArr then ⟨true, sd.len, []⟩ else ⟨false, 0, []⟩) := by
        unfold plainAt
        rw [Heap.get?_set_other _ (fun hh : p = H.size => by omega), Heap.get?_alloc_size]
      cases hb : sd.isArr with
      | true =>
        simp only [hb, if_true] at h1 ⊢
        rw [h1]
        simp only
        rw [Heap.get?_set_other _ (fun hh : H.size = tsrc => by omega)]
        rw [Heap.get?_set_other _ (fun hh : p = tsrc => hsp hh.symm)]
        exact Heap.get?_alloc_of_lt _ hssize
      | false =>
        simp only [hb, Bool.false_eq_true, if_false] at h1 ⊢
        rw [h1]
        simp only
        rw [Heap.get?_set_other _ (fun hh : H.size = tsrc => by omega)]
        rw [Heap.get?_set_other _ (fun hh : p = tsrc => hsp hh.symm)]
        exact Heap.get?_alloc_of_lt _ hssize
    · cases hb : sd.isArr <;> simp [hb]
    · cases hb : sd.isArr <;> simp [hb]
    · intro pr' hpr'
      exact Option.noConfusion hpr'
    · intro hnone
      cases hb : sd.isArr <;> simp [hb]

/-- A patch entry is the tombstone exactly when the table's own slot holds
the tombstone. -/
theorem patchAt_tomb_iff {H : Heap} {p : Nat} {t : ProxyData} {pd : PlainData}
    (ht : H.get? p = some (.prox t)) (hpd : patchData H t = some pd) (k : Key) :
    patchAt H p k = some .tomb ↔ pd.getOwn k = some .tomb := by
  rw [patchAt_eq H p ht k]
  simp only [hpd]
  constructor
  · intro h
    split at h
    · rw [← PlainData.read_eq_tomb_iff]
      injection h
    · exact Option.noConfusion h
  · intro h
    rw [if_pos (PlainData.hasOwn_of_getOwn_some h)]
    rw [(PlainData.read_eq_tomb_iff pd k).2 h]

/-- `trapSet` takes one of three actions: nothing (round trip with no own
patch entry at the key), dropping a configurable patch on a round-trip
write, or recording the patch (no round trip, or the entry at the key is
not configurable). -/
theorem trapSet_cases (H : Heap) (p : Nat) (k : Key) (v : JSVal) {t : ProxyData}
    (ht : H.get? p = some (.prox t)) :
    (trapSet H p k v = H ∧ writeNoChange H t k v = true ∧
      (∀ pd, patchData H t = some pd → pd.hasOwnKey k = false)) ∨
    (∃ pr pd, t.patches = some pr ∧ patchData H t = some pd ∧ pd.hasOwnKey k = true ∧
      pd.configurable k = true ∧ writeNoChange H t k v = true ∧
      trapSet H p k v = H.set pr (.plain { pd with fields := PlainData.removeEntry pd.fields k })) ∨
    (trapSet H p k v = trapSetAssign H p t k v ∧
      (writeNoChange H t k v = false ∨
        ∃ pd, patchData H t = some pd ∧ pd.hasOwnKey k = true ∧ pd.configurable k = false)) := by
  cases hnc : writeNoChange H t k v with
  | false =>
    have heq : trapSet H p k v = trapSetAssign H p t k v := by
      simp only [trapSet, ht, hnc, Bool.false_eq_true, if_false]
    exact Or.inr (Or.inr ⟨heq, Or.inl rfl⟩)
  | true =>
    cases hpd : patchData H t with
    | none =>
      have heq : trapSet H p k v = H := by
        simp only [trapSet, ht, hnc, if_true, hpd]
      exact Or.inl ⟨heq, rfl, fun pd hx => Option.noConfusion hx⟩
    | some pd =>
      cases hown : pd.hasOwnKey k with
      | false =>
        have heq : trapSet H p k v = H := by
          simp only [trapSet, ht, hnc, if_true, hpd, hown, Bool.not_false, if_true]
        refine Or.inl ⟨heq, rfl, fun pd' hx => ?_⟩
        obtain rfl : pd = pd' := by injection hx
        exact hown
      | true =>
        cases hcfg : pd.configurable k with
        | false =>
          have heq : trapSet H p k v = trapSetAssign H p t k v := by
            simp only [trapSet, ht, hnc, if_true, hpd, hown, Bool.not_true, Bool.false_eq_true,
              if_false, hcfg]
          exact Or.inr (Or.inr ⟨heq, Or.inr ⟨pd, rfl, hown, hcfg⟩⟩)
        | true =>
          have hpat : ∃ pr, t.patches = some pr := by
            unfold patchData at hpd
            cases hp2 : t.patches with
            | none => rw [hp2] at hpd; exact Option.noConfusion hpd
            | some pr => exact ⟨pr, rfl⟩
          obtain ⟨pr, hpat⟩ := hpat
          have heq : trapSet H p k v
              = H.set pr (.plain { pd with fields := PlainData.removeEntry pd.fields k }) := by
            simp only [trapSet, ht, hnc, if_true, hpd, hown, Bool.not_true, Bool.false_eq_true,
              if_false, hcfg, hpat]
          exact Or.inr (Or.inl ⟨pr, pd, hpat, rfl, hown, hcfg, rfl, heq⟩)

theorem plainAt_set_other {H : Heap} {r r' : Nat} (o : Obj) (h : r ≠ r') :
    plainAt (H.set r o) r' = plainAt H r' := by
  unfold plainAt
  rw [Heap.get?_set_other _ h]

theorem plainAt_set_self {H : Heap} {r : Nat} (d : PlainData) (h : r < H.size) :
    plainAt (H.set r (.plain d)) r = some d := by
  unfold plainAt
  rw [Heap.get?_set_self _ h]

theorem PlainData.getOwn_removeField_tomb {pd : PlainData} {k k' : Key}
    (hnd : (pd.fields.map Prod.fst).Nodup)
    (h : PlainData.getOwn { pd with fields := PlainData.removeEntry pd.fields k } k'
      = some .tomb) :
    pd.getOwn k' = some .tomb := by
  unfold PlainData.getOwn at h ⊢
  by_cases hl : pd.isArr = true ∧ k' = Key.s "length"
  · rw [if_pos (by exact_mod_cast hl)] at h ⊢
    exact h
  · rw [if_neg (by exact_mod_cast hl)] at h ⊢
    by_cases hk : k = k'
    · subst hk
      rw [PlainData.getEntry_removeEntry_self _ _ hnd] at h
      exact Option.noConfusion h
    · rw [PlainData.getEntry_removeEntry_ne _ hk] at h
      exact h

theorem PlainData.getOwn_emptyFields_ne_tomb {pd0 : PlainData} {k' : Key}
    (hf : pd0.fields = []) : pd0.getOwn k' ≠ some .tomb := by
  unfold PlainData.getOwn
  intro h
  split at h
  · simp at h
  · rw [hf] at h
    simp [PlainData.getEntry] at h

/-- `trapSet` preserves façade well-formedness. -/
theorem trapSet_wf (H : Heap) (p : Nat) (k : Key) (v : JSVal) (wf : FacadeWF H p) :
    FacadeWF (trapSet H p k v) p := by
  obtain ⟨t, sd, ht, hs, hsp, hpt⟩ := wf
  rcases trapSet_cases H p k v ht with ⟨h, _, _⟩ | ⟨pr, pd, hpat, hpd, hown, hcfg, hnc, heq⟩ | ⟨h, _⟩
  · rw [h]
    exact ⟨t, sd, ht, hs, hsp, hpt⟩
  · obtain ⟨hprp, hprs, pd2, hpd2, hkind, hnd⟩ := hpt pr hpat
    have hpdc : plainAt H pr = some pd := by
      unfold patchData at hpd
      rw [hpat] at hpd
      exact hpd
    obtain rfl : pd2 = pd := by
      rw [hpdc] at hpd2
      injection hpd2 with hh
      exact hh.symm
    have hprsize : pr < H.size := plainAt_lt_size hpdc
    rw [heq]
    refine ⟨t, sd, ?_, ?_, hsp, ?_⟩
    · rw [Heap.get?_set_other _ hprp]
      exact ht
    · rw [plainAt_set_other _ hprs]
      exact hs
    · intro pr' hpr'
      rw [hpat] at hpr'
      obtain rfl : pr' = pr := by
        injection hpr' with hh
        exact hh.symm
      exact ⟨hprp, hprs, _, plainAt_set_self _ hprsize, hkind, PlainData.nodup_keys_removeEntry _ _ hnd⟩
  · obtain ⟨pr, pd0, hgp, hppr, hprp, hprs, hsrc, hkind0, hnd0, hsome, hnone⟩ :=
      trapSetAssign_spec H p t k v ht hs hsp hpt
    rw [h]
    refine ⟨⟨t.source, some pr, t.proxies, t.refCheck⟩, sd, hgp, ?_, hsp, ?_⟩
    · unfold plainAt
      rw [hsrc]
      unfold plainAt at hs
      exact hs
    · intro pr' hpr'
      obtain rfl : pr' = pr := by
        injection hpr' with hh
        exact hh.symm
      refine ⟨hprp, hprs, pd0.set k v, hppr, ?_, PlainData.nodup_keys_set _ _ hnd0⟩
      rw [PlainData.isArr_set]
      exact hkind0

/-- `trapSet` does not change the source's own keys. -/
theorem trapSet_sourceOwn (H : Heap) (p : Nat) (k : Key) (v : JSVal) (k' : Key)
    (wf : FacadeWF H p) : sourceOwn (trapSet H p k v) p k' = sourceOwn H p k' := by
  obtain ⟨t, sd, ht, hs, hsp, hpt⟩ := wf
  rcases trapSet_cases H p k v ht with ⟨h, _, _⟩ | ⟨pr, pd, hpat, hpd, hown, hcfg, hnc, heq⟩ | ⟨h, _⟩
  · rw [h]
  · obtain ⟨hprp, hprs, pd2, hpd2, hkind, hnd⟩ := hpt pr hpat
    rw [heq]
    have hget : (H.set pr (.plain { pd with fields := PlainData.removeEntry pd.fields k })).get? p
        = some (.prox t) := by
      rw [Heap.get?_set_other _ hprp]
      exact ht
    rw [sourceOwn_eq _ _ hget k', sourceOwn_eq _ _ ht k']
    unfold sourceData
    rw [plainAt_set_other _ hprs]
  · obtain ⟨pr, pd0, hgp, hppr, hprp, hprs, hsrc, hkind0, hnd0, hsome, hnone⟩ :=
      trapSetAssign_spec H p t k v ht hs hsp hpt
    rw [h]
    rw [sourceOwn_eq _ _ hgp k', sourceOwn_eq _ _ ht k']
    unfold sourceData plainAt
    rw [hsrc]

/-- A write of a non-tombstone value never creates a tombstone patch. -/
theorem trapSet_tomb (H : Heap) (p : Nat) (k : Key) (v : JSVal) (k' : Key)
    (wf : FacadeWF H p) (hv : v ≠ .tomb)
    (h : patchAt (trapSet H p k v) p k' = some .tomb) : patchAt H p k' = some .tomb := by
  obtain ⟨t, sd, ht, hs, hsp, hpt⟩ := wf
  rcases trapSet_cases H p k v ht with ⟨heq, _, _⟩ | ⟨pr, pd, hpat, hpd, hown, hcfg, hnc, heq⟩ | ⟨heq, _⟩
  · rw [heq] at h
    exact h
  · obtain ⟨hprp, hprs, pd2, hpd2, hkind, hnd⟩ := hpt pr hpat
    have hpdc : plainAt H pr = some pd := by
      unfold patchData at hpd
      rw [hpat] at hpd
      exact hpd
    rw [hpdc] at hpd2
    injection hpd2 with hh
    subst hh
    have hprsize : pr < H.size := plainAt_lt_size hpdc
    rw [heq] at h
    have hget : (H.set pr (.plain { pd with fields := PlainData.removeEntry pd.fields k })).get? p
        = some (.prox t) := by
      rw [Heap.get?_set_other _ hprp]
      exact ht
    have hpd' : patchData (H.set pr (.plain { pd with fields := PlainData.removeEntry pd.fields k })) t
        = some { pd with fields := PlainData.removeEntry pd.fields k } := by
      simp only [patchData, hpat]
      rw [plainAt_set_self _ hprsize]
    rw [patchAt_tomb_iff hget hpd' k'] at h
    rw [patchAt_tomb_iff ht hpd k']
    exact PlainData.getOwn_removeField_tomb hnd h
  · obtain ⟨pr, pd0, hgp, hppr, hprp, hprs, hsrc, hkind0, hnd0, hsome, hnone⟩ :=
      trapSetAssign_spec H p t k v ht hs hsp hpt
    rw [heq] at h
    have hpd' : patchData (trapSetAssign H p t k v) ⟨t.source, some pr, t.proxies, t.refCheck⟩
        = some (pd0.set k v) := by
      unfold patchData
      exact hppr
    rw [patchAt_tomb_iff hgp hpd' k'] at h
    rcases PlainData.getOwn_set_tomb h with ⟨hkk, hvt⟩ | hr
    · exact absurd hvt hv
    · cases hpat : t.patches with
      | none => exact absurd hr (PlainData.getOwn_emptyFields_ne_tomb (hnone hpat))
      | some pr0 =>
        obtain ⟨hpr0, hpdt⟩ := hsome pr0 hpat
        rw [patchAt_tomb_iff ht hpdt k']
        exact hr

/-- The effect of `ensurePatches`: afterwards the façade owns a patch table
(a fresh kind-matching empty one if none existed); the façade keeps its
source and children; the source slot is untouched. -/
theorem ensurePatches_spec (H : Heap) (p : Nat) (t : ProxyData) {sd : PlainData}
    (ht : H.get? p = some (.prox t)) (hs : plainAt H t.source = some sd) (hsp : t.source ≠ p)
    (hpt : ∀ pr, t.patches = some pr → pr ≠ p ∧ pr ≠ t.source ∧
      ∃ pd, plainAt H pr = some pd ∧ pd.isArr = sd.isArr ∧ (pd.fields.map Prod.fst).Nodup) :
    ∃ H1 pr pd0,
      ensurePatches H p t = (H1, pr, ⟨t.source, some pr, t.proxies, t.refCheck⟩) ∧
      H1.get? p = some (.prox ⟨t.source, some pr, t.proxies, t.refCheck⟩) ∧
      plainAt H1 pr = some pd0 ∧
      pr ≠ p ∧ pr ≠ t.source ∧
      H1.get? t.source = H.get? t.source ∧
      pd0.isArr = sd.isArr ∧ (pd0.fields.map Prod.fst).Nodup ∧
      (t.patches = none → pd0.fields = []) ∧
      (∀ pr', t.patches = some pr' → pr' = pr ∧ patchData H t = some pd0 ∧ H1 = H) := by
  have hpsize : p < H.size := Heap.get?_lt_size ht
  have hssize : t.source < H.size := plainAt_lt_size hs
  have hsd : sourceData H t = sd := by unfold sourceData; rw [hs]; rfl
  obtain ⟨tsrc, tpat, tpx, trc⟩ := t
  simp only at ht hs hsp hpt hsd hssize ⊢
  cases hpat : tpat with
  | some pr =>
    subst hpat
    obtain ⟨hprp, hprs, pd, hpd, hkind, hnd⟩ := hpt pr rfl
    refine ⟨H, pr, pd, rfl, ht, hpd, hprp, hprs, rfl, hkind, hnd, ?_, ?_⟩
    · intro hnone
      exact Option.noConfusion hnone
    · intro pr' hpr'
      refine ⟨by injection hpr' with hh; exact hh.symm, ?_, rfl⟩
      simp only [patchData, hpd]
  | none =>
    subst hpat
    refine ⟨(H.alloc (.plain (if sd.isArr then ⟨true, sd.len, []⟩ else ⟨false, 0, []⟩))).1.set p
        (.prox ⟨tsrc, some H.size, tpx, trc⟩),
      H.size, if sd.isArr then ⟨true, sd.len, []⟩ else ⟨false, 0, []⟩,
      ?_, ?_, ?_, by omega, by omega, ?_, ?_, ?_, ?_, ?_⟩
    · unfold ensurePatches
      simp only [hsd, Heap.alloc_snd]
    · rw [Heap.get?_set_self _ (by rw [Heap.size_alloc]; omega)]
    · unfold plainAt
      rw [Heap.get?_set_other _ (fun hh : p = H.size => by omega), Heap.get?_alloc_size]
    · rw [Heap.get?_set_other _ (fun hh : p = tsrc => hsp hh.symm)]
      exact Heap.get?_alloc_of_lt _ hssize
    · cases hb : sd.isArr <;> simp [hb]
    · cases hb : sd.isArr <;> simp [hb]
    · intro hnone
      cases hb : sd.isArr <;> simp [hb]
    · intro pr' hpr'
      exact Option.noConfusion hpr'

theorem PlainData.isArr_del_set_tomb {pd0 : PlainData} {k : Key} {pd0' : PlainData}
    (h : pd0.del k = some pd0') : pd0'.isArr = pd0.isArr := by
  unfold PlainData.del at h
  split at h
  · exact Option.noConfusion h
  · injection h with hh
    rw [← hh]

theorem PlainData.fields_del {pd0 : PlainData} {k : Key} {pd0' : PlainData}
    (h : pd0.del k = some pd0') : pd0' = { pd0 with fields := PlainData.removeEntry pd0.fields k } := by
  unfold PlainData.del at h
  split at h
  · exact Option.noConfusion h
  · injection h with hh
    rw [← hh]

/-- The complete effect of `trapDeleteProperty` on the façade bookkeeping:
well-formedness and the source are preserved; a tombstone after the call was
either already present or is at the deleted source-own key; deleting a
deletable source-own key records the tombstone; deleting a key the source
does not own clears the patch and records nothing; deleting the `length`
slot of a sequence fails. -/
theorem trapDelete_master (H : Heap) (p : Nat) (k : Key) {t : ProxyData} {sd : PlainData}
    (ht : H.get? p = some (.prox t)) (hs : plainAt H t.source = some sd) (hsp : t.source ≠ p)
    (hpt : ∀ pr, t.patches = some pr → pr ≠ p ∧ pr ≠ t.source ∧
      ∃ pd, plainAt H pr = some pd ∧ pd.isArr = sd.isArr ∧ (pd.fields.map Prod.fst).Nodup) :
    FacadeWF (trapDelete H p k).1 p ∧
    (∀ k', sourceOwn (trapDelete H p k).1 p k' = sourceOwn H p k') ∧
    (∀ k', patchAt (trapDelete H p k).1 p k' = some .tomb →
      patchAt H p k' = some .tomb ∨ (k' = k ∧ sd.hasOwnKey k = true)) ∧
    (sd.hasOwnKey k = true → ¬(sd.isArr = true ∧ k = Key.s "length") →
      patchAt (trapDelete H p k).1 p k = some .tomb ∧ (trapDelete H p k).2 = none) ∧
    (sd.hasOwnKey k = false →
      patchAt (trapDelete H p k).1 p k = none ∧ (trapDelete H p k).2 = none) ∧
    (sd.isArr = true → k = Key.s "length" →
      (trapDelete H p k).2 = some .deleteNonConfigurable) := by
  have hsd : sourceData H t = sd := by unfold sourceData; rw [hs]; rfl
  cases hown : sd.hasOwnKey k with
  | true =>
    obtain ⟨H1, pr, pd0, hens, hgp1, hpd1, hprp, hprs, hsrc1, hkind, hnd, hfresh, hexist⟩ :=
      ensurePatches_spec H p t ht hs hsp hpt
    have hprsize : pr < H1.size := plainAt_lt_size hpd1
    have hres : trapDelete H p k
        = (match pd0.del k with
           | none => (H1, some .deleteNonConfigurable)
           | some pd0' => (H1.set pr (.plain (pd0'.set k .tomb)), none)) := by
      simp only [trapDelete, ht, hsd, hown, if_true, hens, hpd1]
    have hpdat1 : patchData H1 ⟨t.source, some pr, t.proxies, t.refCheck⟩ = some pd0 := by
      simp only [patchData, hpd1]
    have hsplain : plainAt H1 t.source = some sd := by
      unfold plainAt
      rw [hsrc1]
      unfold plainAt at hs
      exact hs
    have htomb_pre : ∀ k', PlainData.getOwn pd0 k' = some .tomb →
        patchAt H p k' = some .tomb := by
      intro k' hk'
      cases hpat : t.patches with
      | none => exact absurd hk' (PlainData.getOwn_emptyFields_ne_tomb (hfresh hpat))
      | some pr0 =>
        obtain ⟨hpr0, hpdt, hH1⟩ := hexist pr0 hpat
        rw [patchAt_tomb_iff ht hpdt k']
        exact hk'
    cases hdel : pd0.del k with
    | none =>
      have hcond : pd0.isArr = true ∧ k = Key.s "length" := by
        unfold PlainData.del at hdel
        by_cases hc : pd0.isArr = true ∧ k = Key.s "length"
        · exact hc
        · rw [if_neg (by exact_mod_cast hc)] at hdel
          exact Option.noConfusion hdel
      have hwf1 : FacadeWF H1 p :=
        ⟨⟨t.source, some pr, t.proxies, t.refCheck⟩, sd, hgp1, hsplain, hsp,
          fun pr' hpr' => by
            obtain rfl : pr' = pr := by injection hpr' with hh; exact hh.symm
            exact ⟨hprp, hprs, pd0, hpd1, hkind, hnd⟩⟩
      rw [hres, hdel]
      refine ⟨hwf1, ?_, ?_, ?_, ?_, ?_⟩
      · intro k'
        rw [sourceOwn_eq _ _ hgp1 k', sourceOwn_eq _ _ ht k']
        unfold sourceData plainAt
        rw [hsrc1]
      · intro k' hk'
        rw [patchAt_tomb_iff hgp1 hpdat1 k'] at hk'
        exact Or.inl (htomb_pre k' hk')
      · intro _ hnl
        exact absurd ⟨hkind ▸ hcond.1, hcond.2⟩ hnl
      · intro hf
        exact Bool.noConfusion hf
      · intro _ _
        rfl
    | some pd0' =>
      have hpd0' : pd0' = { pd0 with fields := PlainData.removeEntry pd0.fields k } :=
        PlainData.fields_del hdel
      have hncond : ¬ (pd0.isArr = true ∧ k = Key.s "length") := by
        intro hc
        rw [PlainData.del_eq_none hc] at hdel
        exact Option.noConfusion hdel
      rw [hres, hdel]
      have hgp2 : ((H1.set pr (.plain (pd0'.set k .tomb)))).get? p
          = some (.prox ⟨t.source, some pr, t.proxies, t.refCheck⟩) := by
        rw [Heap.get?_set_other _ hprp]
        exact hgp1
      have hpd2 : patchData (H1.set pr (.plain (pd0'.set k .tomb)))
          ⟨t.source, some pr, t.proxies, t.refCheck⟩ = some (pd0'.set k .tomb) := by
        simp only [patchData]
        rw [plainAt_set_self _ hprsize]
      refine ⟨?_, ?_, ?_, ?_, ?_, ?_⟩
      · refine ⟨⟨t.source, some pr, t.proxies, t.refCheck⟩, sd, hgp2, ?_, hsp, ?_⟩
        · rw [plainAt_set_other _ hprs]
          exact hsplain
        · intro pr' hpr'
          obtain rfl : pr' = pr := by injection hpr' with hh; exact hh.symm
          refine ⟨hprp, hprs, pd0'.set k .tomb, plainAt_set_self _ hprsize, ?_, ?_⟩
          · rw [PlainData.isArr_set, PlainData.isArr_del_set_tomb hdel]
            exact hkind
          · refine PlainData.nodup_keys_set _ _ ?_
            rw [hpd0']
            exact PlainData.nodup_keys_removeEntry _ _ hnd
      · intro k'
        rw [sourceOwn_eq _ _ hgp2 k', sourceOwn_eq _ _ ht k']
        unfold sourceData
        rw [plainAt_set_other _ hprs]
        unfold plainAt
        rw [hsrc1]
      · intro k' hk'
        rw [patchAt_tomb_iff hgp2 hpd2 k'] at hk'
        rcases PlainData.getOwn_set_tomb hk' with ⟨hkk, _⟩ | hr
        · exact Or.inr ⟨hkk.symm, rfl⟩
        · rw [hpd0'] at hr
          have hnd' : (pd0.fields.map Prod.fst).Nodup := hnd
          exact Or.inl (htomb_pre k' (PlainData.getOwn_removeField_tomb hnd' hr))
      · intro _ hnl
        refine ⟨?_, rfl⟩
        rw [patchAt_tomb_iff hgp2 hpd2 k]
        refine PlainData.getOwn_set_self _ ?_
        rw [PlainData.isArr_del_set_tomb hdel]
        exact hncond
      · intro hf
        exact Bool.noConfusion hf
      · intro ha hl
        exact absurd ⟨hkind ▸ ha, hl⟩ hncond
  | false =>
    cases hpd : patchData H t with
    | none =>
      have hres : trapDelete H p k = (H, none) := by
        simp only [trapDelete, ht, hsd, hown, Bool.false_eq_true, if_false, hpd]
      rw [hres]
      refine ⟨⟨t, sd, ht, hs, hsp, hpt⟩, fun k' => rfl, fun k' hk' => Or.inl hk', ?_, ?_, ?_⟩
      · intro hf
        exact Bool.noConfusion hf
      · intro _
        refine ⟨?_, rfl⟩
        rw [patchAt_eq H p ht k]
        simp only [hpd]
      · intro ha hl
        exfalso
        unfold PlainData.hasOwnKey at hown
        rw [hl, ha] at hown
        simp at hown
    | some pd =>
      cases hpown : pd.hasOwnKey k with
      | false =>
        have hres : trapDelete H p k = (H, none) := by
          simp only [trapDelete, ht, hsd, hown, Bool.false_eq_true, if_false, hpd, hpown]
        rw [hres]
        refine ⟨⟨t, sd, ht, hs, hsp, hpt⟩, fun k' => rfl, fun k' hk' => Or.inl hk', ?_, ?_, ?_⟩
        · intro hf
          exact Bool.noConfusion hf
        · intro _
          refine ⟨?_, rfl⟩
          rw [patchAt_eq H p ht k]
          simp only [hpd, hpown, Bool.false_eq_true, if_false]
        · intro ha hl
          exfalso
          unfold PlainData.hasOwnKey at hown
          rw [hl, ha] at hown
          simp at hown
      | true =>
        have hpatx : ∃ pr, t.patches = some pr := by
          unfold patchData at hpd
          cases hp2 : t.patches with
          | none => rw [hp2] at hpd; exact Option.noConfusion hpd
          | some pr => exact ⟨pr, rfl⟩
        obtain ⟨pr, hpat⟩ := hpatx
        obtain ⟨hprp, hprs, pd2, hpd2, hkind, hnd⟩ := hpt pr hpat
        have hpdc : plainAt H pr = some pd := by
          unfold patchData at hpd
          rw [hpat] at hpd
          exact hpd
        rw [hpdc] at hpd2
        injection hpd2 with hh
        subst hh
        have hprsize : pr < H.size := plainAt_lt_size hpdc
        have hncond : ¬ (pd.isArr = true ∧ k = Key.s "length") := by
          rintro ⟨hc1, hc2⟩
          have hsda : sd.isArr = true := by rw [← hkind]; exact hc1
          unfold PlainData.hasOwnKey at hown
          rw [hc2, hsda] at hown
          simp at hown
        have hdel : pd.del k = some { pd with fields := PlainData.removeEntry pd.fields k } :=
          PlainData.del_eq_some hncond
        have hres : trapDelete H p k
            = (H.set pr (.plain { pd with fields := PlainData.removeEntry pd.fields k }), none) := by
          simp only [trapDelete, ht, hsd, hown, Bool.false_eq_true, if_false, hpd, hpown,
            if_true, hdel, hpat]
        rw [hres]
        have hgp2 : (H.set pr (.plain { pd with fields := PlainData.removeEntry pd.fields k })).get? p
            = some (.prox t) := by
          rw [Heap.get?_set_other _ hprp]
          exact ht
        have hpd2 : patchData (H.set pr (.plain { pd with fields := PlainData.removeEntry pd.fields k })) t
            = some { pd with fields := PlainData.removeEntry pd.fields k } := by
          simp only [patchData, hpat]
          rw [plainAt_set_self _ hprsize]
        refine ⟨?_, ?_, ?_, ?_, ?_, ?_⟩
        · refine ⟨t, sd, hgp2, ?_, hsp, ?_⟩
          · rw [plainAt_set_other _ hprs]
            exact hs
          · intro pr' hpr'
            rw [hpat] at hpr'
            obtain rfl : pr' = pr := by injection hpr' with hh2; exact hh2.symm
            exact ⟨hprp, hprs, _, plainAt_set_self _ hprsize, hkind,
              PlainData.nodup_keys_removeEntry _ _ hnd⟩
        · intro k'
          rw [sourceOwn_eq _ _ hgp2 k', sourceOwn_eq _ _ ht k']
          unfold sourceData
          rw [plainAt_set_other _ hprs]
        · intro k' hk'
          rw [patchAt_tomb_iff hgp2 hpd2 k'] at hk'
          rw [patchAt_tomb_iff ht hpd k']
          exact Or.inl (PlainData.getOwn_removeField_tomb hnd hk')
        · intro hf
          exact Bool.noConfusion hf
        · intro _
          refine ⟨?_, rfl⟩
          rw [patchAt_eq _ p hgp2 k]
          simp only [hpd2]
          have hgone : PlainData.getOwn { pd with fields := PlainData.removeEntry pd.fields k } k
              = none := by
            unfold PlainData.getOwn
            rw [if_neg (by exact_mod_cast hncond)]
            exact PlainData.getEntry_removeEntry_self _ _ hnd
          have hho : PlainData.hasOwnKey { pd with fields := PlainData.removeEntry pd.fields k } k
              = false := by
            rw [← PlainData.getOwn_isSome_eq_hasOwn, hgone]
            rfl
          rw [hho]
          simp
        · intro ha hl
          exfalso
          unfold PlainData.hasOwnKey at hown
          rw [hl, ha] at hown
          simp at hown

/-- The façade's source data, when the slot is a proxy. -/
def sourceDataAt (H : Heap) (p : Nat) : Option PlainData :=
  match proxyDataOf H (.ref p) with
  | some t => some (sourceData H t)
  | none => none

theorem sourceDataAt_eq (H : Heap) (p : Nat) {t : ProxyData}
    (ht : H.get? p = some (.prox t)) : sourceDataAt H p = some (sourceData H t) := by
  simp only [sourceDataAt, proxyDataOf, ht]

theorem sourceOwn_from_data (H : Heap) (p : Nat) {t : ProxyData}
    (ht : H.get? p = some (.prox t)) (k : Key) :
    sourceOwn H p k = ((sourceDataAt H p).getD ⟨false, 0, []⟩).hasOwnKey k := by
  rw [sourceOwn_eq H p ht k, sourceDataAt_eq H p ht]
  rfl

/-- `trapGet` does not change the façade's source data. -/
theorem trapGet_sourceData (H : Heap) (p : Nat) (k : Key) (wf : FacadeWF H p) :
    sourceDataAt (trapGet H p k).1 p = sourceDataAt H p := by
  rcases trapGet_shape H p k with h | ⟨t, ps, H₀, hp, h₀, heq⟩
  · rw [h]
  · obtain ⟨t', sd, ht', hs, hsp, hpt⟩ := wf
    rw [hp] at ht'
    obtain rfl : t = t' := by injection ht' with h1; injection h1
    have hpsize : p < H.size := Heap.get?_lt_size hp
    have hpsize₀ : p < H₀.size := by
      rcases h₀ with rfl | ⟨o, rfl⟩
      · exact hpsize
      · rw [Heap.size_alloc]; omega
    have hget : ((trapGet H p k).1).get? p
        = some (.prox ⟨t.source, t.patches, ps, t.refCheck⟩) := by
      rw [heq]
      exact Heap.get?_set_self _ hpsize₀
    have hssize : t.source < H.size := plainAt_lt_size hs
    have hsrc : ((trapGet H p k).1).get? t.source = H.get? t.source := by
      rw [heq, Heap.get?_set_other _ (fun hh => hsp hh.symm)]
      exact get?_optAlloc h₀ hssize
    rw [sourceDataAt_eq _ _ hget, sourceDataAt_eq _ _ hp]
    unfold sourceData plainAt
    rw [hsrc]

/-- `trapSet` does not change the façade's source data. -/
theorem trapSet_sourceData (H : Heap) (p : Nat) (k : Key) (v : JSVal) (wf : FacadeWF H p) :
    sourceDataAt (trapSet H p k v) p = sourceDataAt H p := by
  obtain ⟨t, sd, ht, hs, hsp, hpt⟩ := wf
  rcases trapSet_cases H p k v ht with ⟨h, _, _⟩ | ⟨pr, pd, hpat, hpd, hown, hcfg, hnc, heq⟩ | ⟨h, _⟩
  · rw [h]
  · obtain ⟨hprp, hprs, pd2, hpd2, hkind, hnd⟩ := hpt pr hpat
    rw [heq]
    have hget : (H.set pr (.plain { pd with fields := PlainData.removeEntry pd.fields k })).get? p
        = some (.prox t) := by
      rw [Heap.get?_set_other _ hprp]
      exact ht
    rw [sourceDataAt_eq _ _ hget, sourceDataAt_eq _ _ ht]
    unfold sourceData
    rw [plainAt_set_other _ hprs]
  · obtain ⟨pr, pd0, hgp, hppr, hprp, hprs, hsrc, hkind0, hnd0, hsome, hnone⟩ :=
      trapSetAssign_spec H p t k v ht hs hsp hpt
    rw [h]
    rw [sourceDataAt_eq _ _ hgp, sourceDataAt_eq _ _ ht]
    unfold sourceData plainAt
    rw [hsrc]

/-- `trapDeleteProperty` does not change the façade's source data. -/
theorem trapDelete_sourceData (H : Heap) (p : Nat) (k : Key) (wf : FacadeWF H p) :
    sourceDataAt (trapDelete H p k).1 p = sourceDataAt H p := by
  obtain ⟨t, sd, ht, hs, hsp, hpt⟩ := wf
  have hsd : sourceData H t = sd := by unfold sourceData; rw [hs]; rfl
  cases hown : sd.hasOwnKey k with
  | true =>
    obtain ⟨H1, pr, pd0, hens, hgp1, hpd1, hprp, hprs, hsrc1, hkind, hnd, hfresh, hexist⟩ :=
      ensurePatches_spec H p t ht hs hsp hpt
    have hprsize : pr < H1.size := plainAt_lt_size hpd1
    have hres : trapDelete H p k
        = (match pd0.del k with
           | none => (H1, some .deleteNonConfigurable)
           | some pd0' => (H1.set pr (.plain (pd0'.set k .tomb)), none)) := by
      simp only [trapDelete, ht, hsd, hown, if_true, hens, hpd1]
    cases hdel : pd0.del k with
    | none =>
      rw [hres, hdel]
      rw [sourceDataAt_eq _ _ hgp1, sourceDataAt_eq _ _ ht]
      unfold sourceData plainAt
      rw [hsrc1]
    | some pd0' =>
      rw [hres, hdel]
      have hgp2 : ((H1.set pr (.plain (pd0'.set k .tomb)))).get? p
          = some (.prox ⟨t.source, some pr, t.proxies, t.refCheck⟩) := by
        rw [Heap.get?_set_other _ hprp]
        exact hgp1
      rw [sourceDataAt_eq _ _ hgp2, sourceDataAt_eq _ _ ht]
      unfold sourceData
      rw [plainAt_set_other _ hprs]
      unfold plainAt
      rw [hsrc1]
  | false =>
    cases hpd : patchData H t with
    | none =>
      have hres : trapDelete H p k = (H, none) := by
        simp only [trapDelete, ht, hsd, hown, Bool.false_eq_true, if_false, hpd]
      rw [hres]
    | some pd =>
      cases hpown : pd.hasOwnKey k with
      | false =>
        have hres : trapDelete H p k = (H, none) := by
          simp only [trapDelete, ht, hsd, hown, Bool.false_eq_true, if_false, hpd, hpown]
        rw [hres]
      | true =>
        have hpatx : ∃ pr, t.patches = some pr := by
          unfold patchData at hpd
          cases hp2 : t.patches with
          | none => rw [hp2] at hpd; exact Option.noConfusion hpd
          | some pr => exact ⟨pr, rfl⟩
        obtain ⟨pr, hpat⟩ := hpatx
        obtain ⟨hprp, hprs, pd2, hpd2, hkind, hnd⟩ := hpt pr hpat
        have hpdc : plainAt H pr = some pd := by
          unfold patchData at hpd
          rw [hpat] at hpd
          exact hpd
        rw [hpdc] at hpd2
        injection hpd2 with hh
        subst hh
        have hncond : ¬ (pd.isArr = true ∧ k = Key.s "length") := by
          rintro ⟨hc1, hc2⟩
          have hsda : sd.isArr = true := by rw [← hkind]; exact hc1
          unfold PlainData.hasOwnKey at hown
          rw [hc2, hsda] at hown
          simp at hown
        have hdel : pd.del k = some { pd with fields := PlainData.removeEntry pd.fields k } :=
          PlainData.del_eq_some hncond
        have hres : trapDelete H p k
            = (H.set pr (.plain { pd with fields := PlainData.removeEntry pd.fields k }), none) := by
          simp only [trapDelete, ht, hsd, hown, Bool.false_eq_true, if_false, hpd, hpown,
            if_true, hdel, hpat]
        rw [hres]
        have hgp2 : (H.set pr (.plain { pd with fields := PlainData.removeEntry pd.fields k })).get? p
            = some (.prox t) := by
          rw [Heap.get?_set_other _ hprp]
          exact ht
        rw [sourceDataAt_eq _ _ hgp2, sourceDataAt_eq _ _ ht]
        unfold sourceData
        rw [plainAt_set_other _ hprs]

/-- One user operation through a well-formed façade preserves well-formedness
and the source data, and never forges a tombstone: a tombstone after the
operation was already present, or the operation deleted that very key and the
source owns it. -/
theorem runOp_spec (H : Heap) (p : Nat) (op : UserOp) (k' : Key)
    (wf : FacadeWF H p) (hnt : op.noTomb) :
    FacadeWF (runOp H p op) p ∧
    sourceDataAt (runOp H p op) p = sourceDataAt H p ∧
    (patchAt (runOp H p op) p k' = some .tomb →
      patchAt H p k' = some .tomb ∨ (op = .remove k' ∧ sourceOwn H p k' = true)) := by
  cases op with
  | read k =>
    exact ⟨trapGet_wf H p k wf, trapGet_sourceData H p k wf,
      fun h => Or.inl ((trapGet_patchAt H p k k' wf) ▸ h)⟩
  | write k v =>
    exact ⟨trapSet_wf H p k v wf, trapSet_sourceData H p k v wf,
      fun h => Or.inl (trapSet_tomb H p k v k' wf hnt h)⟩
  | remove k =>
    have hsda := trapDelete_sourceData H p k wf
    obtain ⟨t, sd, ht, hs, hsp, hpt⟩ := wf
    obtain ⟨h1, h2, h3, _, _, _⟩ := trapDelete_master H p k ht hs hsp hpt
    refine ⟨h1, hsda, fun h => ?_⟩
    rcases h3 k' h with h | ⟨rfl, hoo⟩
    · exact Or.inl h
    · right
      refine ⟨rfl, ?_⟩
      rw [sourceOwn_eq H p ht k']
      have : sourceData H t = sd := by unfold sourceData; rw [hs]; rfl
      rw [this]
      exact hoo

/-- A sequence of user operations preserves well-formedness and the source
data; a tombstone at the end means some operation in the sequence deleted
that key while the source owned it. -/
theorem runOps_spec (ops : List UserOp) (H : Heap) (p : Nat) (k' : Key)
    (wf : FacadeWF H p) (hops : ∀ op ∈ ops, op.noTomb) :
    FacadeWF (runOps H p ops) p ∧
    sourceDataAt (runOps H p ops) p = sourceDataAt H p ∧
    (patchAt (runOps H p ops) p k' = some .tomb →
      patchAt H p k' = some .tomb ∨ (UserOp.remove k' ∈ ops ∧ sourceOwn H p k' = true)) := by
  induction ops generalizing H with
  | nil => exact ⟨wf, rfl, fun h => Or.inl h⟩
  | cons op ops ih =>
    obtain ⟨w1, s1, t1⟩ := runOp_spec H p op k' wf (hops op (List.mem_cons_self _ _))
    obtain ⟨w2, s2, t2⟩ := ih (runOp H p op) w1 (fun o ho => hops o (List.mem_cons_of_mem _ ho))
    refine ⟨w2, s2.trans s1, fun h => ?_⟩
    rcases t2 h with h2 | ⟨hmem, hso⟩
    · rcases t1 h2 with h3 | ⟨heq, hso⟩
      · exact Or.inl h3
      · exact Or.inr ⟨by rw [← heq]; exact List.mem_cons_self _ _, hso⟩
    · refine Or.inr ⟨List.mem_cons_of_mem _ hmem, ?_⟩
      obtain ⟨t0, sd0, ht0, hs0, _, _⟩ := w1
      obtain ⟨t1', sd1, ht1, hs1, _, _⟩ := wf
      rw [sourceOwn_from_data _ _ ht0 k'] at hso
      rw [sourceOwn_from_data _ _ ht1 k', ← s1]
      exact hso

/-- Wrapping a plain container yields a well-formed, patch-free façade whose
source data is the wrapped container. -/
theorem createProxy_fresh (H : Heap) (r : Nat) (d : PlainData) (rc : Bool)
    (hr : plainAt H r = some d) :
    createProxy H (.ref r) rc = ((H.alloc (.prox ⟨r, none, [], rc⟩)).1, .ref H.size) ∧
    FacadeWF (H.alloc (.prox ⟨r, none, [], rc⟩)).1 H.size ∧
    (∀ k, patchAt (H.alloc (.prox ⟨r, none, [], rc⟩)).1 H.size k = none) ∧
    sourceDataAt (H.alloc (.prox ⟨r, none, [], rc⟩)).1 H.size = some d := by
  have hrsize : r < H.size := plainAt_lt_size hr
  have hget : H.get? r = some (.plain d) := by
    unfold plainAt at hr
    cases hx : H.get? r with
    | none => rw [hx] at hr; exact Option.noConfusion hr
    | some o =>
      cases o with
      | plain dd =>
        rw [hx] at hr
        injection hr with hh
        rw [hh]
      | prox tt => rw [hx] at hr; exact Option.noConfusion hr
  have hgp : (H.alloc (.prox ⟨r, none, [], rc⟩)).1.get? H.size
      = some (.prox ⟨r, none, [], rc⟩) := Heap.get?_alloc_size H _
  have hsr : plainAt (H.alloc (.prox ⟨r, none, [], rc⟩)).1 r = some d := by
    unfold plainAt
    rw [Heap.get?_alloc_of_lt _ hrsize]
    unfold plainAt at hr
    exact hr
  refine ⟨?_, ?_, ?_, ?_⟩
  · simp only [createProxy, hget, Heap.alloc_snd]
  · exact ⟨⟨r, none, [], rc⟩, d, hgp, hsr, by show r ≠ H.size; omega,
      fun pr hpr => Option.noConfusion hpr⟩
  · intro k
    rw [patchAt_eq _ _ hgp k]
    simp [patchData]
  · rw [sourceDataAt_eq _ _ hgp]
    unfold sourceData
    rw [hsr]
    rfl

/-! ## C5: the tombstone discipline -/

/-- C5: for every façade obtained by wrapping a plain container and every
sequence of read/write/delete operations through it, the patch table holds
the tombstone at a key only if the user deleted that key and it is an own
property of the source; deleting a deletable source-own key records the
tombstone; deleting a key absent from the source only clears any existing
patch and records no tombstone and no error; and deleting the intrinsic
non-configurable `length` slot of a sequence fails with an error. -/
theorem C5_tombstone_discipline (H : Heap) (r : Nat) (d : PlainData) (rc : Bool)
    (ops : List UserOp) (k : Key)
    (hr : plainAt H r = some d) (hops : ∀ op ∈ ops, op.noTomb) :
    (createProxy H (.ref r) rc).2 = .ref H.size ∧
    ((patchAt (runOps (createProxy H (.ref r) rc).1 H.size ops) H.size k = some .tomb →
        d.hasOwnKey k = true ∧ UserOp.remove k ∈ ops) ∧
      (d.hasOwnKey k = true → ¬(d.isArr = true ∧ k = Key.s "length") →
        patchAt (trapDelete (runOps (createProxy H (.ref r) rc).1 H.size ops) H.size k).1
            H.size k = some .tomb ∧
        (trapDelete (runOps (createProxy H (.ref r) rc).1 H.size ops) H.size k).2 = none) ∧
      (d.hasOwnKey k = false →
        patchAt (trapDelete (runOps (createProxy H (.ref r) rc).1 H.size ops) H.size k).1
            H.size k = none ∧
        (trapDelete (runOps (createProxy H (.ref r) rc).1 H.size ops) H.size k).2 = none) ∧
      (d.isArr = true →
        (trapDelete (runOps (createProxy H (.ref r) rc).1 H.size ops) H.size
            (Key.s "length")).2 = some .deleteNonConfigurable)) := by
  obtain ⟨heq, wf0, hpat0, hsda0⟩ := createProxy_fresh H r d rc hr
  have hH0 : (createProxy H (.ref r) rc).1 = (H.alloc (.prox ⟨r, none, [], rc⟩)).1 := by
    rw [heq]
  refine ⟨by rw [heq], ?_⟩
  rw [hH0]
  obtain ⟨wf1, hsda1, htomb1⟩ :=
    runOps_spec ops (H.alloc (.prox ⟨r, none, [], rc⟩)).1 H.size k wf0 hops
  obtain ⟨t, sd, ht, hs, hsp, hpt⟩ := wf1
  have hsdd : sd = d := by
    rw [sourceDataAt_eq _ _ ht, hsda0] at hsda1
    have h2 : sourceData (runOps (H.alloc (.prox ⟨r, none, [], rc⟩)).1 H.size ops) t = sd := by
      unfold sourceData
      rw [hs]
      rfl
    rw [h2] at hsda1
    injection hsda1
  obtain ⟨_, _, _, hcomp, hclear, hlen⟩ := trapDelete_master _ H.size k ht hs hsp hpt
  subst hsdd
  refine ⟨?_, ?_, ?_, ?_⟩
  · intro h
    rcases htomb1 h with h0 | ⟨hmem, hso⟩
    · rw [hpat0 k] at h0
      exact Option.noConfusion h0
    · refine ⟨?_, hmem⟩
      obtain ⟨t0, sd0, ht0, hs0, _, _⟩ := wf0
      rw [sourceOwn_from_data _ _ ht0 k, hsda0] at hso
      exact hso
  · exact hcomp
  · exact hclear
  · intro ha
    obtain ⟨_, _, _, _, _, hlen'⟩ := trapDelete_master _ H.size (Key.s "length") ht hs hsp hpt
    exact hlen' ha rfl

/-- A concrete one-field record heap for the C5 witness. -/
def exHeapC5 : Heap := ⟨[.plain ⟨false, 0, [(Key.s "foo", .prim (.num 1))]⟩]⟩

/-- Its plain data. -/
def exDC5 : PlainData := ⟨false, 0, [(Key.s "foo", .prim (.num 1))]⟩

/-- A concrete operation sequence deleting the record's key. -/
def exOpsC5 : List UserOp := [UserOp.remove (Key.s "foo")]

/-- Witness for C5 at a concrete record, wrap, and delete sequence. -/
theorem C5_tombstone_discipline_witness :
    plainAt exHeapC5 0 = some exDC5 ∧
    (∀ op ∈ exOpsC5, op.noTomb) ∧
    (createProxy exHeapC5 (.ref 0) false).2 = .ref exHeapC5.size :=
  ⟨by decide,
    fun op hop => by
      simp only [exOpsC5, List.mem_singleton] at hop
      subst hop
      trivial,
    (C5_tombstone_discipline exHeapC5 0 exDC5 false exOpsC5 (Key.s "foo") (by decide)
      (fun op hop => by
        simp only [exOpsC5, List.mem_singleton] at hop
        subst hop
        trivial)).1⟩

/-! ## C4: round-trip writes -/

/-- The heap for the C4 counterexample: a one-element array. -/
def exHeapC4 : Heap := ⟨[.plain ⟨true, 1, [(Key.i 0, .prim (.num 1))]⟩]⟩

/-- The C4 counterexample state: wrap `[1]` with `referenceCheck`, write
index 1, then write `length = 1` (identical to the source's length). -/
def exC4state : Heap :=
  trapSet (trapSet (createProxy exHeapC4 (.ref 0) true).1 1 (.i 1) (.prim (.num 9)))
    1 (Key.s "length") (.prim (.num 1))

/-- C4 counterexample: on a sequence façade over `[1]` with `referenceCheck`,
after recording a patch at index 1, the write `length = 1` satisfies the
claim's case (2) — `referenceCheck` enabled, the value not a façade, and the
source slot identically this value — yet afterwards the patch table still
has an own entry at `length`, contradicting the claim that in both cases
`F.patches` has no own entry at the written key. -/
theorem C4_counterexample :
    ((proxyDataOf (trapSet (createProxy exHeapC4 (.ref 0) true).1 1 (.i 1) (.prim (.num 9)))
        (.ref 1)).map (fun t =>
          writeNoChange (trapSet (createProxy exHeapC4 (.ref 0) true).1 1 (.i 1) (.prim (.num 9)))
            t (Key.s "length") (.prim (.num 1)))) = some true ∧
    patchAt exC4state 1 (Key.s "length") = some (.prim (.num 1)) := by decide

/-- C4 (amended): a write `F[k] = v` records no patch exactly when the
round-trip condition of lines 162-167 holds: the child cache is allocated
and its slot at `k` — the cached child façade, or `undefined` when the
cache has no entry there — is identically `v`, or `referenceCheck` is
enabled, `v` is not a façade, and `F.source[k]` is identically `v` (each
under a source-own key).  When it holds and the existing patch entry at `k`
(if any) is configurable, the entry is removed and `F.patches` has no own
entry at `k` afterwards; when it fails, a patch entry is recorded at `k`;
and when it holds but the existing entry is the non-configurable `length`
slot of a sequence patch table, the write falls through to the table
assignment and an own entry remains. -/
theorem C4_roundtrip_write (H : Heap) (p : Nat) (k : Key) (v : JSVal)
    {t : ProxyData} {sd : PlainData}
    (ht : H.get? p = some (.prox t)) (hs : plainAt H t.source = some sd) (hsp : t.source ≠ p)
    (hpt : ∀ pr, t.patches = some pr → pr ≠ p ∧ pr ≠ t.source ∧
      ∃ pd, plainAt H pr = some pd ∧ pd.isArr = sd.isArr ∧ (pd.fields.map Prod.fst).Nodup) :
    (writeNoChange H t k v = true →
      (∀ pd, patchData H t = some pd → pd.hasOwnKey k = false ∨ pd.configurable k = true) →
      patchAt (trapSet H p k v) p k = none) ∧
    (writeNoChange H t k v = false →
      patchAt (trapSet H p k v) p k ≠ none ∧
      (¬ (sd.isArr = true ∧ k = Key.s "length") →
        patchAt (trapSet H p k v) p k = some v)) ∧
    (writeNoChange H t k v = true →
      ∀ pd, patchData H t = some pd → pd.hasOwnKey k = true → pd.configurable k = false →
      patchAt (trapSet H p k v) p k ≠ none) := by
  have hassign : trapSet H p k v = trapSetAssign H p t k v →
      patchAt (trapSet H p k v) p k ≠ none ∧
      (¬ (sd.isArr = true ∧ k = Key.s "length") →
        patchAt (trapSet H p k v) p k = some v) := by
    intro heq
    obtain ⟨pr, pd0, hgp, hppr, hprp, hprs, hsrc, hkind0, hnd0, hsome, hnone⟩ :=
      trapSetAssign_spec H p t k v ht hs hsp hpt
    have hpd2 : patchData (trapSetAssign H p t k v) ⟨t.source, some pr, t.proxies, t.refCheck⟩
        = some (pd0.set k v) := by
      simp only [patchData]
      exact hppr
    rw [heq, patchAt_eq _ _ hgp k]
    simp only [hpd2]
    constructor
    · intro hcontra
      by_cases hL : pd0.isArr = true ∧ k = Key.s "length"
      · have hA : (pd0.set k v).isArr = true := by
          rw [PlainData.isArr_set]
          exact hL.1
        have hho : (pd0.set k v).hasOwnKey k = true := by
          unfold PlainData.hasOwnKey
          rw [hA, hL.2]
          simp
        rw [if_pos hho] at hcontra
        exact Option.noConfusion hcontra
      · have hself : (pd0.set k v).getOwn k = some v := PlainData.getOwn_set_self _ hL
        rw [if_pos (PlainData.hasOwn_of_getOwn_some hself)] at hcontra
        exact Option.noConfusion hcontra
    · intro hnl
      have hself : (pd0.set k v).getOwn k = some v :=
        PlainData.getOwn_set_self _ (fun hc => hnl ⟨by rw [← hkind0]; exact hc.1, hc.2⟩)
      rw [if_pos (PlainData.hasOwn_of_getOwn_some hself)]
      unfold PlainData.read
      rw [hself]
      rfl
  refine ⟨?_, ?_, ?_⟩
  · intro hnc hcfg
    rcases trapSet_cases H p k v ht with ⟨heq, _, hno⟩ | ⟨pr, pd, hpat, hpd, hown, hcfg2, hnc2, heq⟩
        | ⟨heq, hwhy⟩
    · rw [heq, patchAt_eq _ _ ht k]
      cases hpdx : patchData H t with
      | none => rfl
      | some pd =>
        simp only [hno pd hpdx]
        simp
    · obtain ⟨hprp, hprs, pd2, hpd2, hkind, hnd⟩ := hpt pr hpat
      have hpdc : plainAt H pr = some pd := by
        unfold patchData at hpd
        rw [hpat] at hpd
        exact hpd
      rw [hpdc] at hpd2
      injection hpd2 with hh
      subst hh
      have hprsize : pr < H.size := plainAt_lt_size hpdc
      rw [heq]
      have hgp2 : (H.set pr (.plain { pd with fields := PlainData.removeEntry pd.fields k })).get? p
          = some (.prox t) := by
        rw [Heap.get?_set_other _ hprp]
        exact ht
      have hpdX : patchData (H.set pr (.plain { pd with fields := PlainData.removeEntry pd.fields k })) t
          = some { pd with fields := PlainData.removeEntry pd.fields k } := by
        simp only [patchData, hpat]
        rw [plainAt_set_self _ hprsize]
      rw [patchAt_eq _ _ hgp2 k]
      simp only [hpdX]
      have hncfg : ¬ (pd.isArr = true ∧ k = Key.s "length") := by
        intro hc
        unfold PlainData.configurable at hcfg2
        rw [hc.1, hc.2] at hcfg2
        simp at hcfg2
      have hgone : PlainData.getOwn { pd with fields := PlainData.removeEntry pd.fields k } k
          = none := by
        unfold PlainData.getOwn
        rw [if_neg (by exact_mod_cast hncfg)]
        exact PlainData.getEntry_removeEntry_self _ _ hnd
      have hho : PlainData.hasOwnKey { pd with fields := PlainData.removeEntry pd.fields k } k
          = false := by
        rw [← PlainData.getOwn_isSome_eq_hasOwn, hgone]
        rfl
      rw [hho]
      simp
    · rcases hwhy with hfalse | ⟨pd, hpd, hown, hcfg2⟩
      · rw [hnc] at hfalse
        exact Bool.noConfusion hfalse
      · rcases hcfg pd hpd with h1 | h1
        · rw [hown] at h1
          exact Bool.noConfusion h1
        · rw [hcfg2] at h1
          exact Bool.noConfusion h1
  · intro hnc
    rcases trapSet_cases H p k v ht with ⟨heq, hnc2, _⟩ | ⟨pr, pd, hpat, hpd, hown, hcfg2, hnc2, heq⟩
        | ⟨heq, hwhy⟩
    · rw [hnc] at hnc2
      exact Bool.noConfusion hnc2
    · rw [hnc] at hnc2
      exact Bool.noConfusion hnc2
    · exact hassign heq
  · intro hnc pd hpd hown hcfg
    rcases trapSet_cases H p k v ht with ⟨heq, _, hno⟩ | ⟨pr, pd2, hpat, hpd2, hown2, hcfg2, hnc2, heq⟩
        | ⟨heq, hwhy⟩
    · rw [hno pd hpd] at hown
      exact Bool.noConfusion hown
    · obtain rfl : pd2 = pd := by
        rw [hpd] at hpd2
        injection hpd2 with hh
        exact hh.symm
      rw [hcfg] at hcfg2
      exact Bool.noConfusion hcfg2
    · exact (hassign heq).1

/-- The heap for the C4 undefined-write corner: `{foo: {}, bar: 1}` with the
empty record at slot 1. -/
def exHeapC4B : Heap :=
  ⟨[.plain ⟨false, 0, [(Key.s "foo", .ref 1), (Key.s "bar", .prim (.num 1))]⟩,
    .plain ⟨false, 0, []⟩]⟩

/-- The C4 corner state: wrap `{foo: {}, bar: 1}` (façade 2) and read
`p.foo`, materializing the child cache (child façade 3). -/
def exC4cache : Heap :=
  (trapGet (createProxy exHeapC4B (.ref 0) false).1 2 (Key.s "foo")).1

/-- Witness for the amended C4 theorem: on the array façade over `[1]`, the
write `F[0] = 5` fails the round-trip condition and records the patch `5`;
and once the child cache is materialized by reading `p.foo`, the write
`p.bar = undefined` to a source-own key satisfies the condition through the
cache's absent slot and records no patch. -/
theorem C4_roundtrip_write_witness :
    patchAt (trapSet (createProxy exHeapC4 (.ref 0) true).1 1 (.i 0) (.prim (.num 5)))
      1 (.i 0) = some (.prim (.num 5)) ∧
    patchAt (trapSet exC4cache 2 (Key.s "bar") (.prim .undef)) 2 (Key.s "bar") = none := by
  have h := @C4_roundtrip_write (createProxy exHeapC4 (.ref 0) true).1 1 (.i 0)
    (.prim (.num 5)) ⟨0, none, [], true⟩ ⟨true, 1, [(Key.i 0, .prim (.num 1))]⟩
    (by decide) (by decide) (by decide) (fun pr hpr => Option.noConfusion hpr)
  have h2 := @C4_roundtrip_write exC4cache 2 (Key.s "bar") (.prim .undef)
    ⟨0, none, [(Key.s "foo", 3)], false⟩
    ⟨false, 0, [(Key.s "foo", .ref 1), (Key.s "bar", .prim (.num 1))]⟩
    (by decide) (by decide) (by decide) (fun pr hpr => Option.noConfusion hpr)
  exact ⟨(h.2.1 (by decide)).2 (by decide),
    h2.1 (by decide) (fun pd hpd => Option.noConfusion hpd)⟩

/-! ## C3: length truncation and push/pop -/

/-- `Array.prototype.push(x)` performed through a façade: read `length`,
set the element at that index, then set `length` one higher (the ECMAScript
algorithm restricted to a single argument, each step going through the
proxy traps). -/
def arrPush (H : Heap) (p : Nat) (x : JSVal) : Heap :=
  let g := trapGet H p (Key.s "length")
  let L := PlainData.lenOf g.2 0
  trapSet (trapSet g.1 p (Key.i L) x) p (Key.s "length") (.prim (.num ((L : Int) + 1)))

/-- `Array.prototype.pop()` performed through a façade: read `length`; on an
empty sequence write `length = 0` and return `undefined`; otherwise read the
last element, delete its slot, and write the decremented `length` (the
ECMAScript algorithm, each step going through the proxy traps). -/
def arrPop (H : Heap) (p : Nat) : Heap × JSVal :=
  let g := trapGet H p (Key.s "length")
  let L := PlainData.lenOf g.2 0
  if L = 0 then (trapSet g.1 p (Key.s "length") (.prim (.num 0)), .prim .undef)
  else
    let g2 := trapGet g.1 p (Key.i (L - 1))
    let d := trapDelete g2.1 p (Key.i (L - 1))
    (trapSet d.1 p (Key.s "length") (.prim (.num ((L : Int) - 1))), g2.2)

/-- C3: on a sequence façade with an allocated patch table, writing `length`
truncates the table — no patch entry survives at an index at or past the
written length; and the sequence `push(x); pop()` performed through a fresh
façade over an array leaves the patch table with no own index entries. -/
theorem C3_length_truncation (H : Heap) (p : Nat) :
    (∀ (t : ProxyData) (pr : Nat) (pd : PlainData) (v : JSVal) (n : Nat),
      H.get? p = some (.prox t) → t.patches = some pr → pr ≠ p →
      plainAt H pr = some pd → pd.isArr = true →
      PlainData.lenOf v pd.len < pd.len → PlainData.lenOf v pd.len ≤ n →
      patchAt (trapSet H p (Key.s "length") v) p (.i n) = none) ∧
    (∀ (t : ProxyData) (sd : PlainData) (x : JSVal) (n : Nat),
      H.get? p = some (.prox t) → plainAt H t.source = some sd → t.source ≠ p →
      t.patches = none → t.proxies = [] → sd.isArr = true →
      sd.getOwn (.i sd.len) = none →
      patchAt (arrPop (arrPush H p x) p).1 p (.i n) = none) := by
  constructor
  · intro t pr pd v n ht hpat hprp hpd ha hsmall hn
    have hpdata : patchData H t = some pd := by
      simp only [patchData, hpat]
      exact hpd
    have hassign : trapSetAssign H p t (Key.s "length") v
        = H.set pr (.plain (pd.set (Key.s "length") v)) := by
      simp only [trapSetAssign, ensurePatches, hpat, hpd]
    have hown : pd.hasOwnKey (Key.s "length") = true := by
      unfold PlainData.hasOwnKey
      rw [ha]
      simp
    have hcfg : pd.configurable (Key.s "length") = false := by
      unfold PlainData.configurable
      rw [ha]
      simp
    have heq : trapSet H p (Key.s "length") v
        = H.set pr (.plain (pd.set (Key.s "length") v)) := by
      rcases trapSet_cases H p (Key.s "length") v ht with ⟨_, _, hno⟩ |
          ⟨pr2, pd2, _, hpd2, _, hcfg2, _, _⟩ | ⟨heq, _⟩
      · rw [hno pd hpdata] at hown
        exact Bool.noConfusion hown
      · rw [hpdata] at hpd2
        injection hpd2 with hh
        rw [hh, hcfg2] at hcfg
        exact Bool.noConfusion hcfg
      · rw [heq, hassign]
    rw [heq]
    have hgp : (H.set pr (.plain (pd.set (Key.s "length") v))).get? p = some (.prox t) := by
      rw [Heap.get?_set_other _ hprp]
      exact ht
    rw [patchAt_eq _ _ hgp]
    have hprsize : pr < H.size := plainAt_lt_size hpd
    have hpdset : patchData (H.set pr (.plain (pd.set (Key.s "length") v))) t
        = some (pd.set (Key.s "length") v) := by
      simp only [patchData, hpat]
      exact plainAt_set_self _ hprsize
    simp only [hpdset]
    have hnone : (pd.set (Key.s "length") v).hasOwnKey (Key.i n) = false := by
      rw [← PlainData.getOwn_isSome_eq_hasOwn, PlainData.getOwn_set_length_high ha hn]
      rfl
    rw [hnone]
    simp
  · intro t sd x n ht hs hsp hnp hpr0 ha hx0
    obtain ⟨src, pat, prox, rc⟩ := t
    obtain rfl : pat = none := hnp
    obtain rfl : prox = ([] : List (Key × Nat)) := hpr0
    replace hs : plainAt H src = some sd := hs
    replace hsp : src ≠ p := hsp
    have hpsize : p < H.size := Heap.get?_lt_size ht
    have hssize : src < H.size := plainAt_lt_size hs
    have hgsrc : H.get? src = some (.plain sd) := by
      unfold plainAt at hs
      cases hg : H.get? src with
      | none => rw [hg] at hs; exact Option.noConfusion hs
      | some o =>
        cases o with
        | plain d => rw [hg] at hs; injection hs with h2; rw [h2]
        | prox t2 => rw [hg] at hs; exact Option.noConfusion hs
    have hsd : sourceData H ⟨src, none, [], rc⟩ = sd := by
      simp only [sourceData, hs, Option.getD]
    have hglen : sd.getOwn (Key.s "length") = some (.prim (.num sd.len)) := by
      unfold PlainData.getOwn
      rw [if_pos ⟨ha, rfl⟩]
    have hread : sd.read (Key.s "length") = .prim (.num sd.len) := by
      unfold PlainData.read
      rw [hglen]
      rfl
    have hG1 : trapGet H p (Key.s "length") = (H, .prim (.num sd.len)) := by
      simp only [trapGet, ht, patchData, trapGetSource, hsd, hglen]
      by_cases htr : truthy (.prim (.num sd.len)) = true
      · rw [if_pos htr]
        simp only [lookupProxies, createChild, isProxyable, Bool.false_eq_true, if_false,
          hsd, hread]
      · rw [if_neg htr]
        simp only [hread]
    have hL : PlainData.lenOf (JSVal.prim (.num sd.len)) 0 = sd.len := by
      simp only [PlainData.lenOf]
      omega
    set K : PlainData → Heap := fun q =>
      ((H.alloc (.plain ⟨true, sd.len, []⟩)).1.set p
        (.prox ⟨src, some H.size, [], rc⟩)).set H.size (.plain q) with hK
    have hKp : ∀ q : PlainData, (K q).get? p = some (.prox ⟨src, some H.size, [], rc⟩) := by
      intro q
      rw [hK]
      show ((((H.alloc (.plain ⟨true, sd.len, []⟩)).1.set p
        (.prox ⟨src, some H.size, [], rc⟩)).set H.size (.plain q)).get? p) = _
      rw [Heap.get?_set_other _ (ne_of_gt hpsize)]
      rw [Heap.get?_set_self _ (by rw [Heap.size_alloc]; omega)]
    have hKa : ∀ q : PlainData, plainAt (K q) H.size = some q := by
      intro q
      rw [hK]
      unfold plainAt
      rw [Heap.get?_set_self _ (by rw [Heap.size_set, Heap.size_alloc]; omega)]
    have hKs : ∀ q : PlainData, plainAt (K q) src = some sd := by
      intro q
      rw [hK]
      unfold plainAt
      rw [Heap.get?_set_other _ (by omega : H.size ≠ src),
          Heap.get?_set_other _ (fun h => hsp h.symm),
          Heap.get?_alloc_of_lt _ hssize, hgsrc]
    have hKset : ∀ q q' : PlainData, (K q).set H.size (.plain q') = K q' := by
      intro q q'
      rw [hK]
      simp only [Heap.set, List.set_set]
    have hsdK : ∀ q : PlainData, sourceData (K q) ⟨src, some H.size, [], rc⟩ = sd := by
      intro q
      simp only [sourceData, hKs q, Option.getD]
    have hpdK : ∀ q : PlainData, patchData (K q) ⟨src, some H.size, [], rc⟩ = some q := by
      intro q
      simp only [patchData]
      exact hKa q
    have hw2 : writeNoChange H ⟨src, none, [], rc⟩ (Key.i sd.len) x = false := by
      simp only [writeNoChange, hsd, hx0, Option.isSome_none, Bool.false_and]
    have hset0 : (⟨true, sd.len, []⟩ : PlainData).set (Key.i sd.len) x
        = ⟨true, sd.len + 1, [(Key.i sd.len, x)]⟩ := by
      simp [PlainData.set, PlainData.setEntry, Nat.max_eq_right (Nat.le_succ sd.len)]
    have hX : plainAt ((H.alloc (.plain ⟨true, sd.len, []⟩)).1.set p
        (.prox ⟨src, some H.size, [], rc⟩)) H.size = some ⟨true, sd.len, []⟩ := by
      unfold plainAt
      rw [Heap.get?_set_other _ (ne_of_lt hpsize), Heap.get?_alloc_size]
    have hS2 : trapSet H p (Key.i sd.len) x = K ⟨true, sd.len + 1, [(Key.i sd.len, x)]⟩ := by
      simp only [trapSet, ht, hw2, Bool.false_eq_true, if_false]
      simp only [trapSetAssign, ensurePatches, hsd, ha, if_true, Heap.alloc_snd, hX, hset0]
    have hsetlen : ∀ (q : PlainData) (v : JSVal), q.isArr = true →
        trapSet (K q) p (Key.s "length") v = K (q.set (Key.s "length") v) := by
      intro q v hqa
      have hqown : q.hasOwnKey (Key.s "length") = true := by
        unfold PlainData.hasOwnKey
        rw [hqa]
        simp
      have hqcfg : q.configurable (Key.s "length") = false := by
        unfold PlainData.configurable
        rw [hqa]
        simp
      have hassign : trapSetAssign (K q) p ⟨src, some H.size, [], rc⟩ (Key.s "length") v
          = K (q.set (Key.s "length") v) := by
        simp only [trapSetAssign, ensurePatches, hKa q]
        exact hKset q _
      rcases trapSet_cases (K q) p (Key.s "length") v (hKp q) with ⟨_, _, hno⟩ |
          ⟨pr2, pd2, _, hpd2, _, hcfg2, _, _⟩ | ⟨heq, _⟩
      · rw [hno q (hpdK q)] at hqown
        exact Bool.noConfusion hqown
      · rw [hpdK q] at hpd2
        injection hpd2 with hh
        rw [hh, hcfg2] at hqcfg
        exact Bool.noConfusion hqcfg
      · rw [heq, hassign]
    have hgetK : ∀ (q : PlainData) (k : Key), q.hasOwnKey k = true →
        trapGet (K q) p k = (K q, if q.read k = .tomb then .prim .undef else q.read k) := by
      intro q k hk
      simp only [trapGet, hKp q, hpdK q, hk, if_true]
    have hpd2 : (⟨true, sd.len + 1, [(Key.i sd.len, x)]⟩ : PlainData).set (Key.s "length")
        (.prim (.num ((sd.len : Int) + 1))) = ⟨true, sd.len + 1, [(Key.i sd.len, x)]⟩ := by
      unfold PlainData.set
      rw [if_pos rfl, if_pos rfl]
      have h1 : PlainData.lenOf (JSVal.prim (.num ((sd.len : Int) + 1))) (sd.len + 1)
          = sd.len + 1 := by
        simp only [PlainData.lenOf]
        omega
      rw [h1]
      simp [PlainData.keepIdxUnder, List.filter, Nat.lt_succ_self]
    have hrd1 : (⟨true, sd.len + 1, [(Key.i sd.len, x)]⟩ : PlainData).read (Key.s "length")
        = .prim (.num ((sd.len + 1 : Nat) : Int)) := by
      unfold PlainData.read PlainData.getOwn
      rw [if_pos ⟨rfl, rfl⟩]
      rfl
    have h5own : (⟨true, sd.len + 1, [(Key.i sd.len, x)]⟩ : PlainData).hasOwnKey
        (Key.i sd.len) = true := by
      simp [PlainData.hasOwnKey]
    have hget4 : trapGet (K ⟨true, sd.len + 1, [(Key.i sd.len, x)]⟩) p (Key.s "length")
        = (K ⟨true, sd.len + 1, [(Key.i sd.len, x)]⟩,
            .prim (.num ((sd.len + 1 : Nat) : Int))) := by
      rw [hgetK _ _ (by simp [PlainData.hasOwnKey]), hrd1]
      simp
    have hL2 : PlainData.lenOf (JSVal.prim (.num ((sd.len + 1 : Nat) : Int))) 0
        = sd.len + 1 := by
      simp only [PlainData.lenOf]
      omega
    have hstep5 : (trapGet (K ⟨true, sd.len + 1, [(Key.i sd.len, x)]⟩) p (Key.i sd.len)).1
        = K ⟨true, sd.len + 1, [(Key.i sd.len, x)]⟩ := by
      rw [hgetK _ _ h5own]
    have hobs : sd.hasOwnKey (Key.i sd.len) = false := by
      rw [← PlainData.getOwn_isSome_eq_hasOwn, hx0]
      rfl
    have hdel1 : (⟨true, sd.len + 1, [(Key.i sd.len, x)]⟩ : PlainData).del (Key.i sd.len)
        = some ⟨true, sd.len + 1, []⟩ := by
      simp [PlainData.del, PlainData.removeEntry]
    have hdel : trapDelete (K ⟨true, sd.len + 1, [(Key.i sd.len, x)]⟩) p (Key.i sd.len)
        = (K ⟨true, sd.len + 1, []⟩, none) := by
      simp only [trapDelete, hKp _, hsdK _, hobs, Bool.false_eq_true, if_false,
        hpdK _, h5own, if_true, hdel1]
      rw [hKset]
    have hFf : ((⟨true, sd.len + 1, []⟩ : PlainData).set (Key.s "length")
        (.prim (.num (((sd.len + 1 : Nat) : Int) - 1)))).hasOwnKey (Key.i n) = false := by
      simp [PlainData.set, PlainData.hasOwnKey]
    show patchAt (arrPop (arrPush H p x) p).1 p (Key.i n) = none
    have hfinal := hsetlen ⟨true, sd.len + 1, []⟩
      (.prim (.num (((sd.len + 1 : Nat) : Int) - 1))) rfl
    simp only [arrPush, hG1, hL, hS2]
    rw [hsetlen _ _ rfl, hpd2]
    simp only [arrPop, hget4, hL2]
    rw [if_neg (Nat.succ_ne_zero sd.len)]
    simp only [Nat.add_sub_cancel, hstep5, hdel, hfinal]
    rw [patchAt_eq _ _ (hKp _)]
    simp only [hpdK _, hFf, Bool.false_eq_true, if_false]

/-- Witness heap for the first part of C3: an array façade at slot 2 over the
array at slot 0, with a patch table at slot 1 holding an entry at index 2. -/
def exHeapC3A : Heap :=
  ⟨[.plain ⟨true, 3, [(Key.i 0, .prim (.num 7))]⟩,
    .plain ⟨true, 3, [(Key.i 2, .prim (.num 9))]⟩,
    .prox ⟨0, some 1, [], false⟩]⟩

/-- Witness heap for the second part of C3: a fresh façade at slot 1 over the
one-element array `[5]` at slot 0. -/
def exHeapC3B : Heap :=
  ⟨[.plain ⟨true, 1, [(Key.i 0, .prim (.num 5))]⟩, .prox ⟨0, none, [], true⟩]⟩

/-- Witness for C3: writing `length = 1` purges the patch at index 2, and
`push(9); pop()` through a fresh array façade leaves no patch at index 0. -/
theorem C3_length_truncation_witness :
    patchAt (trapSet exHeapC3A 2 (Key.s "length") (.prim (.num 1))) 2 (.i 2) = none ∧
    patchAt (arrPop (arrPush exHeapC3B 1 (.prim (.num 9))) 1).1 1 (.i 0) = none := by
  constructor
  · exact (C3_length_truncation exHeapC3A 2).1 ⟨0, some 1, [], false⟩ 1
      ⟨true, 3, [(Key.i 2, .prim (.num 9))]⟩ (.prim (.num 1)) 2
      (by decide) (by decide) (by decide) (by decide) (by decide) (by decide) (by decide)
  · exact (C3_length_truncation exHeapC3B 1).2 ⟨0, none, [], true⟩
      ⟨true, 1, [(Key.i 0, .prim (.num 5))]⟩ (.prim (.num 9)) 0
      (by decide) (by decide) (by decide) (by decide) (by decide) (by decide) (by decide)

/-! ## C1: snapshot identity without writes -/

theorem list_set_self {α : Type} : ∀ (l : List α) (n : Nat) (o : α),
    l.get? n = some o → l.set n o = l
  | [], _, _, h => by exact Option.noConfusion h
  | a :: tl, 0, o, h => by
    injection h with h
    rw [← h]
    rfl
  | a :: tl, n + 1, o, h => by
    show a :: tl.set n o = a :: tl
    rw [list_set_self tl n o h]

theorem Heap.set_self_eq {H : Heap} {r : Nat} {o : Obj} (h : H.get? r = some o) :
    H.set r o = H := by
  cases H with
  | mk l => exact congrArg Heap.mk (list_set_self l r o h)

theorem plainAt_inv {H : Heap} {r : Nat} {d : PlainData} (h : plainAt H r = some d) :
    H.get? r = some (.plain d) := by
  unfold plainAt at h
  cases hg : H.get? r with
  | none => rw [hg] at h; exact Option.noConfusion h
  | some o =>
    cases o with
    | plain d2 => rw [hg] at h; injection h with h2; rw [h2]
    | prox t2 => rw [hg] at h; exact Option.noConfusion h

theorem PlainData.setEntry_self : ∀ (fs : List (Key × JSVal)) (k : Key) (v : JSVal),
    PlainData.getEntry fs k = some v → PlainData.setEntry fs k v = fs
  | [], _, _, h => by exact Option.noConfusion h
  | (k', v') :: rest, k, v, h => by
    unfold getEntry at h
    unfold setEntry
    by_cases hk : k' = k
    · rw [if_pos hk] at h
      injection h with h
      rw [if_pos hk, hk, h]
    · rw [if_neg hk] at h
      rw [if_neg hk, setEntry_self rest k v h]

/-- Index entries of an array lie below its `length`. -/
def IdxBound (d : PlainData) : Prop :=
  d.isArr = true → ∀ n w, PlainData.getEntry d.fields (Key.i n) = some w → n < d.len

theorem PlainData.set_getOwn_self {d : PlainData} {k : Key} {v : JSVal}
    (hv : d.getOwn k = some v) (hb : IdxBound d) : d.set k v = d := by
  by_cases ha : d.isArr = true
  · by_cases hk : k = Key.s "length"
    · subst hk
      unfold getOwn at hv
      rw [if_pos ⟨ha, rfl⟩] at hv
      injection hv with hv
      unfold set
      rw [if_pos ha, if_pos rfl]
      have hl : PlainData.lenOf v d.len = d.len := by
        rw [← hv]
        simp only [PlainData.lenOf]
        omega
      rw [hl]
      have hf : d.fields.filter (fun e => keepIdxUnder d.len e.1) = d.fields := by
        apply List.filter_eq_self.mpr
        intro e he
        cases hke : e.1 with
        | s name => simp [keepIdxUnder]
        | i n =>
          have hmem : (PlainData.getEntry d.fields (Key.i n)).isSome = true := by
            rw [← any_keys_eq_getEntry]
            exact List.any_eq_true.mpr ⟨e, he, by simp [hke]⟩
          obtain ⟨w, hw⟩ := Option.isSome_iff_exists.mp hmem
          have := hb ha n w hw
          simp [keepIdxUnder]
          omega
      rw [hf]
    · unfold getOwn at hv
      rw [if_neg (fun hc => hk hc.2)] at hv
      unfold set
      rw [if_pos ha, if_neg hk]
      cases k with
      | s name =>
        dsimp only
        rw [setEntry_self _ _ _ hv]
      | i n =>
        have hn : n < d.len := hb ha n v hv
        dsimp only
        rw [setEntry_self _ _ _ hv]
        have hmx : max d.len (n + 1) = d.len := by omega
        rw [hmx]
  · unfold getOwn at hv
    rw [if_neg (fun hc => ha hc.1)] at hv
    unfold set
    rw [if_neg ha, setEntry_self _ _ _ hv]

theorem plainWrite_self {H : Heap} {r : Nat} {d : PlainData} {k : Key} {v : JSVal}
    (hd : plainAt H r = some d) (hv : d.getOwn k = some v) (hb : IdxBound d) :
    plainWrite H (.ref r) k v = H := by
  simp only [plainWrite, hd]
  rw [PlainData.set_getOwn_self hv hb]
  exact Heap.set_self_eq (plainAt_inv hd)

theorem lookupProxies_of_mem {ps : List (Key × Nat)} {k : Key}
    (h : k ∈ ps.map Prod.fst) : ∃ c, lookupProxies ps k = some c := by
  induction ps with
  | nil => simp at h
  | cons e rest ih =>
    by_cases hk : e.1 = k
    · exact ⟨e.2, by unfold lookupProxies; rw [if_pos hk]⟩
    · have : k ∈ rest.map Prod.fst := by
        simp only [List.map_cons, List.mem_cons] at h
        rcases h with h | h
        · exact absurd h.symm hk
        · exact h
      obtain ⟨c, hc⟩ := ih this
      exact ⟨c, by unfold lookupProxies; rw [if_neg hk]; exact hc⟩

/-- The patch-free façade invariant of a heap on which only reads were ever
performed: every proxy has no patch table, a plain source, and a coherent
child cache; every plain container has bounded index entries and its
reference slots point at plain containers. -/
def GoodHeap (H : Heap) : Prop :=
  (∀ r t, H.get? r = some (.prox t) →
    t.patches = none ∧
    (∃ sd, plainAt H t.source = some sd) ∧
    (∀ k c, lookupProxies t.proxies k = some c →
      ∃ ct sd, H.get? c = some (.prox ct) ∧ plainAt H t.source = some sd ∧
        sd.getOwn k = some (.ref ct.source))) ∧
  (∀ r d, plainAt H r = some d →
    IdxBound d ∧ (∀ k r', d.getOwn k = some (.ref r') → ∃ d', plainAt H r' = some d'))

/-- The slice of the traversal stack seen by the snapshot visitor: a
bottom-first chain of proxies in which each key step reads, in the source
tree, the next façade's source. -/
inductive Descend (H : Heap) : Nat → List JSVal → List Key → Nat → Prop where
  | single : ∀ s q t, H.get? q = some (.prox t) → t.source = s →
      Descend H s [.ref q] [] s
  | cons : ∀ s q t k s2 objs ks sTop,
      H.get? q = some (.prox t) → t.source = s →
      plainRead H (.ref s) k = .ref s2 →
      Descend H s2 objs ks sTop →
      Descend H s (.ref q :: objs) (k :: ks) sTop

/-- A traversal frame holds a façade and the key list computed for it. -/
def FrameOK (H : Heap) (f : Frame) : Prop :=
  ∃ q t, f.obj = .ref q ∧ H.get? q = some (.prox t) ∧
    f.keyList = traversableOwnKeys H f.obj

/-- The child frame `g` was pushed from `f` through `f`'s recorded child key. -/
def ChildLink (H : Heap) (f g : Frame) : Prop :=
  ∃ q t c, f.obj = .ref q ∧ H.get? q = some (.prox t) ∧
    lookupProxies t.proxies f.childKey = some c ∧ g.obj = .ref c

/-- Well-formedness of the traversal stack (top first) rooted at a façade
whose source is `s`. -/
inductive StackWF (H : Heap) (s : Nat) : List Frame → Prop where
  | nil : StackWF H s []
  | root {f : Frame} {q : Nat} {t : ProxyData} : f.obj = .ref q →
      H.get? q = some (.prox t) → t.source = s →
      f.keyList = traversableOwnKeys H f.obj → StackWF H s [f]
  | push {g f : Frame} {rest : List Frame} : FrameOK H g → ChildLink H f g →
      StackWF H s (f :: rest) → StackWF H s (g :: f :: rest)

theorem read_ref_getOwn {d : PlainData} {k : Key} {r : Nat}
    (h : d.read k = .ref r) : d.getOwn k = some (.ref r) := by
  unfold PlainData.read at h
  cases hg : d.getOwn k with
  | none =>
    rw [hg] at h
    exact JSVal.noConfusion h
  | some w =>
    rw [hg, Option.getD_some] at h
    rw [h]

theorem snapDetectWalk_clean {H : Heap} : ∀ {s : Nat} {objs : List JSVal} {ks : List Key}
    {sTop : Nat}, Descend H s objs ks sTop →
    snapDetectWalk H (objs.zip ks) (.ref s) = some (false, .ref sTop) := by
  intro s objs ks sTop h
  induction h with
  | single s q t hq hs =>
    simp [snapDetectWalk]
  | cons s q t k s2 objs ks sTop hq hs hr hd ih =>
    show snapDetectWalk H ((JSVal.ref q, k) :: objs.zip ks) (.ref s) = some (false, .ref sTop)
    unfold snapDetectWalk
    have hpx : isProxy H (.ref q) = true := by simp [isProxy, hq]
    simp only [hpx, Bool.not_true, Bool.false_eq_true, if_false, hr, isProxyable]
    exact ih

theorem snapApplyWalk_clean {H : Heap} (hg : GoodHeap H) :
    ∀ {s : Nat} {objs : List JSVal} {ks : List Key} {sTop : Nat},
    Descend H s objs ks sTop →
    ∀ (C : JSVal) (pk : Option Key) (pc : JSVal),
    (pk = none → C = .ref s) →
    (∀ k0, pk = some k0 → plainWrite H pc k0 (.ref s) = H) →
    ∃ u w, snapApplyWalk H false objs ks pk C (.ref s) (.ref s) pc = (H, C, u, w) := by
  intro s objs ks sTop h
  induction h with
  | single s q t hq hs =>
    intro C pk pc hC hw
    unfold snapApplyWalk
    have hpx : isProxy H (.ref q) = true := by simp [isProxy, hq]
    simp only [hpx, Bool.not_true, Bool.false_eq_true, if_false, true_or, if_true]
    cases pk with
    | none =>
      dsimp only
      rw [hC rfl]
      exact ⟨.ref s, pc, rfl⟩
    | some k0 =>
      dsimp only
      rw [hw k0 rfl]
      exact ⟨.ref s, pc, rfl⟩
  | cons s q t k s2 objs ks sTop hq hs hr hd ih =>
    intro C pk pc hC hw
    obtain ⟨o2, objs2, rfl⟩ : ∃ o2 objs2, objs = o2 :: objs2 := by
      cases hd with
      | single s q t hq hs => exact ⟨_, _, rfl⟩
      | cons s q t k s2 objs ks sTop hq hs hr hd => exact ⟨_, _, rfl⟩
    have hwrite : ∀ k0, some k = some k0 → plainWrite H (.ref s) k0 (.ref s2) = H := by
      intro k0 hk0
      injection hk0 with hk0
      subst hk0
      obtain ⟨sd, hsd⟩ := (hg.1 q t hq).2.1
      rw [hs] at hsd
      have hrd : sd.read k = .ref s2 := by
        have hr2 := hr
        simp only [plainRead, hsd] at hr2
        exact hr2
      exact plainWrite_self hsd (read_ref_getOwn hrd) ((hg.2 s sd hsd).1)
    obtain ⟨u, w, heq⟩ := ih C (some k) (.ref s) (fun hc => Option.noConfusion hc) hwrite
    refine ⟨u, w, ?_⟩
    show snapApplyWalk H false (JSVal.ref q :: o2 :: objs2) (k :: ks) pk C (.ref s) (.ref s) pc
      = (H, C, u, w)
    unfold snapApplyWalk
    have hpx : isProxy H (.ref q) = true := by simp [isProxy, hq]
    simp only [hpx, Bool.not_true, Bool.false_eq_true, if_false, true_or, if_true]
    have hopt : optRead H (.ref s) k = .ref s2 := by
      simp only [optRead]
      exact hr
    cases pk with
    | none =>
      obtain rfl : C = JSVal.ref s := hC rfl
      dsimp only
      simp only [hopt, hr]
      exact heq
    | some k0 =>
      dsimp only
      rw [hw k0 rfl]
      simp only [hopt, hr]
      exact heq

theorem descend_snoc {H : Heap} :
    ∀ {s : Nat} {objs : List JSVal} {ks : List Key} {sTop : Nat},
    Descend H s objs ks sTop →
    ∀ (k : Key) (c : Nat) (ct : ProxyData),
    H.get? c = some (.prox ct) →
    plainRead H (.ref sTop) k = .ref ct.source →
    Descend H s (objs ++ [.ref c]) (ks ++ [k]) ct.source := by
  intro s objs ks sTop h
  induction h with
  | single s q t hq hs =>
    intro k c ct hc hr
    exact Descend.cons s q t k ct.source [.ref c] [] ct.source hq hs hr
      (Descend.single ct.source c ct hc rfl)
  | cons s q t k s2 objs ks sTop hq hs hr hd ih =>
    intro k2 c ct hc hr2
    exact Descend.cons s q t k s2 (objs ++ [.ref c]) (ks ++ [k2]) ct.source hq hs hr
      (ih k2 c ct hc hr2)

theorem stackWF_descend {H : Heap} (hg : GoodHeap H) {s : Nat} :
    ∀ {fs : List Frame} {f : Frame}, StackWF H s (f :: fs) →
    ∃ q t, f.obj = .ref q ∧ H.get? q = some (.prox t) ∧
      Descend H s (((f :: fs).map Frame.obj).reverse)
        ((fs.map Frame.childKey).reverse) t.source := by
  intro fs
  induction fs with
  | nil =>
    intro f hwf
    cases hwf with
    | root hobj hq hsrc hkl =>
      rename_i q t
      refine ⟨q, t, hobj, hq, ?_⟩
      simp only [List.map_cons, List.map_nil, List.reverse_cons, List.reverse_nil,
        List.nil_append]
      rw [hobj, hsrc]
      exact Descend.single s q t hq hsrc
  | cons f₁ fs' ih =>
    intro f hwf
    cases hwf with
    | push hfok hlink hrest =>
      obtain ⟨q₁, t₁, hobj₁, hq₁, hD⟩ := ih hrest
      obtain ⟨q₂, t₂, c, hobj₂, hq₂, hlk, hobjf⟩ := hlink
      rw [hobj₁] at hobj₂
      injection hobj₂ with he
      subst he
      rw [hq₁] at hq₂
      injection hq₂ with he2
      injection he2 with he2
      subst he2
      obtain ⟨ct, sd, hct, hsd, hown⟩ := (hg.1 q₁ t₁ hq₁).2.2 f₁.childKey c hlk
      refine ⟨c, ct, hobjf, hct, ?_⟩
      have hread : plainRead H (.ref t₁.source) f₁.childKey = .ref ct.source := by
        simp only [plainRead, hsd]
        unfold PlainData.read
        rw [hown]
        rfl
      have hl1 : ((f :: f₁ :: fs').map Frame.obj).reverse
          = (((f₁ :: fs').map Frame.obj).reverse) ++ [f.obj] := by
        simp
      have hl2 : ((f₁ :: fs').map Frame.childKey).reverse
          = ((fs'.map Frame.childKey).reverse) ++ [f₁.childKey] := by
        simp
      rw [hl1, hl2, hobjf]
      exact descend_snoc hD f₁.childKey c ct hct hread

theorem snapVisitor_noop (recSnap : Heap → JSVal → Option JSVal → Option (Heap × JSVal))
    {H : Heap} (hg : GoodHeap H) {s : Nat} {q : Nat} {tq : ProxyData}
    (hq : H.get? q = some (.prox tq))
    {objs : List JSVal} {ks : List Key} {sTop : Nat}
    (hD : Descend H s objs ks sTop) (i : Nat) :
    snapVisitorCore recSnap false (.ref s) H ⟨.ref s, false⟩ (.ref q) i objs ks
      = (H, ⟨.ref s, false⟩, false) := by
  unfold snapVisitorCore
  simp only [proxyDataOf, hq, Bool.false_eq_true, if_false]
  unfold snapDetect
  rw [snapDetectWalk_clean hD]
  have hpat : patchData H tq = none := by
    simp only [patchData, (hg.1 q tq hq).1]
  simp only [hpat]
  obtain ⟨u, w, heq⟩ := snapApplyWalk_clean hg hD (.ref s) none (.ref s)
    (fun _ => rfl) (fun k0 hk0 => Option.noConfusion hk0)
  rw [heq]
  simp

theorem stackWF_pop {H : Heap} {s : Nat} : ∀ {f : Frame} {fs : List Frame},
    StackWF H s (f :: fs) → StackWF H s fs := by
  intro f fs h
  cases h with
  | root _ _ _ _ => exact StackWF.nil
  | push _ _ hrest => exact hrest

theorem stackWF_replace {H : Heap} {s : Nat} : ∀ {f f' : Frame} {fs : List Frame},
    StackWF H s (f :: fs) → f'.obj = f.obj → f'.keyList = f.keyList →
    StackWF H s (f' :: fs) := by
  intro f f' fs h hobj hkl
  cases h with
  | root hobj2 hq hsrc hkl2 =>
    exact StackWF.root (by rw [hobj]; exact hobj2) hq hsrc
      (by rw [hkl, hobj]; exact hkl2)
  | push hfok hlink hrest =>
    obtain ⟨q, t, ho, hq, hk⟩ := hfok
    obtain ⟨q2, t2, c2, ho2, hq2, hlk2, hgobj⟩ := hlink
    refine StackWF.push ?_ ?_ hrest
    · exact ⟨q, t, by rw [hobj]; exact ho, hq, by rw [hkl, hobj]; exact hk⟩
    · exact ⟨q2, t2, c2, ho2, hq2, hlk2, by rw [hobj]; exact hgobj⟩

theorem stackWF_keyList {H : Heap} {s : Nat} : ∀ {f : Frame} {fs : List Frame},
    StackWF H s (f :: fs) → f.keyList = traversableOwnKeys H f.obj := by
  intro f fs h
  cases h with
  | root _ _ _ hkl => exact hkl
  | push hfok _ _ =>
    obtain ⟨q, t, _, _, hk⟩ := hfok
    exact hk

theorem travKeys_prox {H : Heap} {q : Nat} {t : ProxyData} (hq : H.get? q = some (.prox t))
    (hpat : t.patches = none) {keys : List Key}
    (hk : traversableOwnKeys H (.ref q) = some keys) :
    keys = t.proxies.map Prod.fst := by
  have hpd : patchData H t = none := by simp only [patchData, hpat]
  simp only [traversableOwnKeys, hq, hpd, Option.map_none'] at hk
  by_cases he : t.proxies.isEmpty
  · rw [if_pos he] at hk
    exact Option.noConfusion hk
  · rw [if_neg he] at hk
    injection hk with hk
    exact hk.symm

theorem traverseStep_noop
    (recSnap : Heap → JSVal → Option JSVal → Option (Heap × JSVal))
    {H : Heap} {s : Nat} (hg : GoodHeap H) :
    ∀ {fs : List Frame}, StackWF H s fs →
    traverseStep (snapVisitorCore recSnap false (.ref s)) false H ⟨.ref s, false⟩ fs
        = .done H ⟨.ref s, false⟩ ∨
    ∃ fs', traverseStep (snapVisitorCore recSnap false (.ref s)) false H ⟨.ref s, false⟩ fs
        = .more H ⟨.ref s, false⟩ fs' ∧ StackWF H s fs' := by
  intro fs hwf
  cases fs with
  | nil => exact Or.inl rfl
  | cons f rest =>
    obtain ⟨q, t, hobj, hq, hD⟩ := stackWF_descend hg hwf
    have hvis := snapVisitor_noop recSnap hg hq hD (rest.length + 1)
    right
    obtain ⟨fobj, fkl, fj, fck⟩ := f
    obtain rfl : fobj = JSVal.ref q := hobj
    unfold traverseStep
    cases fkl with
    | none =>
      have hpx : isProxy H (.ref q) = true := by simp [isProxy, hq]
      refine ⟨rest, ?_, stackWF_pop hwf⟩
      dsimp only
      simp only [hpx, if_true]
      rw [hvis]
    | some keys =>
      cases hanc : rest.any (fun g => g.obj = JSVal.ref q) with
      | true =>
        refine ⟨rest, ?_, stackWF_pop hwf⟩
        dsimp only
        simp only [hanc, if_true]
      | false =>
        have hpdof2 : proxyDataOf H (JSVal.ref q) = some t := by
          simp [proxyDataOf, hq]
        have hpd : patchData H t = none := by
          simp only [patchData, (hg.1 q t hq).1]
        dsimp only
        simp only [hanc, Bool.false_eq_true, if_false, hpdof2, Option.getD_some]
        rw [hvis]
        simp only [ite_self, Bool.false_eq_true, if_false, hpdof2, Option.getD_some]
        cases hdrop : keys.drop fj with
        | nil =>
          refine ⟨rest, ?_, stackWF_pop hwf⟩
          rfl
        | cons k ks2 =>
          have hkeys : keys = t.proxies.map Prod.fst := by
            apply travKeys_prox hq (hg.1 q t hq).1
            exact (stackWF_keyList hwf).symm
          have hkmem : k ∈ t.proxies.map Prod.fst := by
            rw [← hkeys]
            exact List.drop_subset _ _ (hdrop ▸ List.mem_cons_self k ks2)
          obtain ⟨c, hc⟩ := lookupProxies_of_mem hkmem
          have hscan : scanProxyKeysAux H t (k :: ks2) fj = some (fj, k, .ref c) := by
            unfold scanProxyKeysAux
            simp only [hpd, hc]
            rfl
          obtain ⟨ct, sd, hct, hsd2, hown⟩ := (hg.1 q t hq).2.2 k c hc
          refine ⟨mkFrame H (.ref c) :: (⟨JSVal.ref q, some keys, fj + 1, k⟩ : Frame)
            :: rest, ?_, ?_⟩
          · rw [hscan]
          · refine StackWF.push ⟨c, ct, rfl, hct, rfl⟩ ⟨q, t, c, rfl, hq, hc, rfl⟩
              (stackWF_replace hwf rfl rfl)

theorem traverseLoop_noop
    (recSnap : Heap → JSVal → Option JSVal → Option (Heap × JSVal))
    {H : Heap} {s : Nat} (hg : GoodHeap H) :
    ∀ (fuel : Nat) (fs : List Frame), StackWF H s fs →
    ∀ {H' : Heap} {st' : SnapState},
    traverseLoop (snapVisitorCore recSnap false (.ref s)) false fuel H ⟨.ref s, false⟩ fs
      = some (H', st') →
    H' = H ∧ st' = ⟨.ref s, false⟩ := by
  intro fuel
  induction fuel with
  | zero =>
    intro fs hwf H' st' h
    exact Option.noConfusion h
  | succ n ih =>
    intro fs hwf H' st' h
    unfold traverseLoop at h
    rcases traverseStep_noop recSnap hg hwf with hstep | ⟨fs', hstep, hwf'⟩
    · rw [hstep] at h
      injection h with h
      injection h with h1 h2
      exact ⟨h1.symm, h2.symm⟩
    · rw [hstep] at h
      exact ih fs' hwf' h

/-- C1: over a heap satisfying the patch-free façade invariant `GoodHeap`
(no write or delete was ever performed through any façade; reads, which only
materialize cached child façades, preserve it), whenever `captureSnapshot`
of a façade completes under any fuel, it returns the façade's source itself,
identical by reference, and the heap — in particular every container of the
wrapped value — is left untouched. -/
theorem C1_snapshot_identity (H : Heap) (p : Nat) (t : ProxyData) (fuel : Nat)
    (H' : Heap) (v : JSVal) (hg : GoodHeap H) (ht : H.get? p = some (.prox t))
    (hrun : captureSnapshotF fuel H (.ref p) none = some (H', v)) :
    H' = H ∧ v = .ref t.source := by
  cases fuel with
  | zero => exact Option.noConfusion hrun
  | succ n =>
    have hsrc : toSource H (.ref p) = .ref t.source := by
      simp [toSource, proxyDataOf, ht]
    have hwf : StackWF H t.source [mkFrame H (.ref p)] :=
      StackWF.root (q := p) (t := t) rfl ht rfl rfl
    unfold captureSnapshotF at hrun
    have hreb : (decide (JSVal.ref t.source ≠ JSVal.ref t.source)) = false := by simp
    simp only [hsrc, Option.getD_none, hreb] at hrun
    cases hloop : traverseLoop (snapVisitorCore
        (fun H2 v2 r2 => captureSnapshotF n H2 v2 r2) false (.ref t.source))
        false (n + 1) H ⟨.ref t.source, false⟩ [mkFrame H (.ref p)] with
    | none =>
      rw [hloop] at hrun
      exact Option.noConfusion hrun
    | some pr =>
      obtain ⟨H2, st2⟩ := pr
      rw [hloop] at hrun
      obtain ⟨h1, h2⟩ := traverseLoop_noop
        (fun H2 v2 r2 => captureSnapshotF n H2 v2 r2) hg (n + 1)
        [mkFrame H (.ref p)] hwf hloop
      subst h1
      subst h2
      simp only [Bool.false_eq_true, if_false] at hrun
      injection hrun with hrun
      injection hrun with ha hb
      exact ⟨ha.symm, hb.symm⟩

/-- Witness heap for C1: the record `{bar: 123}` at slot 0 with its fresh
façade at slot 1. -/
def exHeapC1 : Heap :=
  ⟨[.plain ⟨false, 0, [(Key.s "bar", .prim (.num 123))]⟩, .prox ⟨0, none, [], false⟩]⟩

/-- Witness for C1: snapshotting the untouched façade over `{bar: 123}`
returns slot 0 itself and leaves the heap unchanged. -/
theorem C1_snapshot_identity_witness :
    ∃ H' v, captureSnapshotF 5 exHeapC1 (.ref 1) none = some (H', v) ∧
      H' = exHeapC1 ∧ v = .ref 0 := by
  have hg : GoodHeap exHeapC1 := by
    constructor
    · intro r t h
      match r with
      | 0 => exact Obj.noConfusion (Option.some.inj h)
      | 1 =>
        have h2 : Obj.prox ⟨0, none, [], false⟩ = Obj.prox t := Option.some.inj h
        obtain rfl : (⟨0, none, [], false⟩ : ProxyData) = t := by injection h2
        exact ⟨rfl, ⟨⟨false, 0, [(Key.s "bar", .prim (.num 123))]⟩, rfl⟩,
          fun k c hl => Option.noConfusion hl⟩
      | n + 2 => exact Option.noConfusion h
    · intro r d hpl
      match r with
      | 0 =>
        obtain rfl : (⟨false, 0, [(Key.s "bar", .prim (.num 123))]⟩ : PlainData) = d :=
          Option.some.inj hpl
        constructor
        · intro ha
          exact absurd ha (by decide)
        · intro k r' hko
          unfold PlainData.getOwn at hko
          rw [if_neg (fun hc => Bool.noConfusion hc.1)] at hko
          unfold PlainData.getEntry at hko
          by_cases hk : Key.s "bar" = k
          · rw [if_pos hk] at hko
            exact JSVal.noConfusion (Option.some.inj hko)
          · rw [if_neg hk] at hko
            exact Option.noConfusion hko
      | 1 => exact Option.noConfusion hpl
      | n + 2 => exact Option.noConfusion hpl
  refine ⟨exHeapC1, .ref 0, by decide, ?_⟩
  exact C1_snapshot_identity exHeapC1 1 ⟨0, none, [], false⟩ 5 exHeapC1 (.ref 0) hg
    (by decide) (by decide)

/-! ## C2: structural sharing -/

namespace PlainData

theorem getEntry_append_some {a : List (Key × JSVal)} {k : Key} {v : JSVal}
    (b : List (Key × JSVal)) (h : getEntry a k = some v) :
    getEntry (a ++ b) k = some v := by
  induction a with
  | nil => exact Option.noConfusion h
  | cons e rest ih =>
    obtain ⟨k1, v1⟩ := e
    have h2 : (if k1 = k then some v1 else getEntry rest k) = some v := h
    show (if k1 = k then some v1 else getEntry (rest ++ b) k) = some v
    by_cases h1 : k1 = k
    · rw [if_pos h1] at h2 ⊢
      exact h2
    · rw [if_neg h1] at h2 ⊢
      exact ih h2

theorem getEntry_append_none {a : List (Key × JSVal)} {k : Key}
    (b : List (Key × JSVal)) (h : getEntry a k = none) :
    getEntry (a ++ b) k = getEntry b k := by
  induction a with
  | nil => rfl
  | cons e rest ih =>
    obtain ⟨k1, v1⟩ := e
    have h2 : (if k1 = k then some v1 else getEntry rest k) = none := h
    show (if k1 = k then some v1 else getEntry (rest ++ b) k) = getEntry b k
    by_cases h1 : k1 = k
    · rw [if_pos h1] at h2
      exact Option.noConfusion h2
    · rw [if_neg h1] at h2 ⊢
      exact ih h2

theorem mem_insertSorted (n a : Nat) : ∀ (L : List Nat),
    a ∈ insertSorted n L ↔ a = n ∨ a ∈ L := by
  intro L
  induction L with
  | nil => simp [insertSorted]
  | cons m rest ih =>
    unfold insertSorted
    by_cases h : n ≤ m
    · rw [if_pos h]
      simp [List.mem_cons]
    · rw [if_neg h]
      simp only [List.mem_cons, ih]
      tauto

theorem mem_sortNat (a : Nat) : ∀ (L : List Nat), a ∈ sortNat L ↔ a ∈ L := by
  intro L
  induction L with
  | nil => exact Iff.rfl
  | cons n rest ih =>
    unfold sortNat
    rw [mem_insertSorted]
    simp only [List.mem_cons, ih]

theorem getEntry_map_idx (f : Nat → JSVal) (n : Nat) : ∀ (L : List Nat),
    getEntry (L.map (fun m => (Key.i m, f m))) (Key.i n)
      = if n ∈ L then some (f n) else none := by
  intro L
  induction L with
  | nil => simp [getEntry]
  | cons m rest ih =>
    show getEntry ((Key.i m, f m) :: rest.map (fun m => (Key.i m, f m))) (Key.i n) = _
    unfold getEntry
    by_cases hm : m = n
    · subst hm
      rw [if_pos rfl, if_pos (List.mem_cons_self m rest)]
    · rw [if_neg (by intro hc; injection hc with hc; exact hm hc)]
      rw [ih]
      by_cases hn : n ∈ rest
      · rw [if_pos hn, if_pos (List.mem_cons_of_mem m hn)]
      · rw [if_neg hn, if_neg (by
          intro hc
          rcases List.mem_cons.mp hc with h2 | h2
          · exact hm h2.symm
          · exact hn h2)]

theorem getEntry_map_idx_str (f : Nat → JSVal) (name : String) : ∀ (L : List Nat),
    getEntry (L.map (fun m => (Key.i m, f m))) (Key.s name) = none := by
  intro L
  induction L with
  | nil => rfl
  | cons m rest ih =>
    show getEntry ((Key.i m, f m) :: rest.map (fun m => (Key.i m, f m))) (Key.s name)
      = none
    unfold getEntry
    rw [if_neg (fun hc => Key.noConfusion hc)]
    exact ih

theorem mem_filterMap_idx (n : Nat) : ∀ (fs : List (Key × JSVal)),
    (n ∈ fs.filterMap (fun e => match e.1 with | Key.i m => some m | _ => none))
      ↔ (getEntry fs (Key.i n)).isSome := by
  intro fs
  induction fs with
  | nil => simp [getEntry]
  | cons e rest ih =>
    obtain ⟨k1, v1⟩ := e
    cases k1 with
    | s name =>
      rw [List.filterMap_cons]
      dsimp only
      unfold getEntry
      rw [if_neg (fun hc => Key.noConfusion hc)]
      exact ih
    | i m =>
      rw [List.filterMap_cons]
      dsimp only
      unfold getEntry
      by_cases hm : m = n
      · subst hm
        rw [if_pos rfl]
        simp [List.mem_cons]
      · rw [if_neg (by intro hc; injection hc with hc; exact hm hc)]
        simp only [List.mem_cons]
        constructor
        · intro h
          rcases h with h2 | h2
          · exact absurd h2.symm hm
          · exact ih.mp h2
        · intro h
          exact Or.inr (ih.mpr h)

theorem getEntry_filter_str_s (name : String) : ∀ (fs : List (Key × JSVal)),
    getEntry (fs.filter (fun e => match e.1 with | Key.s _ => true | _ => false))
        (Key.s name)
      = getEntry fs (Key.s name) := by
  intro fs
  induction fs with
  | nil => rfl
  | cons e rest ih =>
    obtain ⟨k1, v1⟩ := e
    rw [List.filter_cons]
    cases k1 with
    | s nm =>
      dsimp only
      rw [if_pos rfl]
      show (if Key.s nm = Key.s name then some v1 else getEntry (rest.filter _) (Key.s name))
        = if Key.s nm = Key.s name then some v1 else getEntry rest (Key.s name)
      by_cases h1 : Key.s nm = Key.s name
      · rw [if_pos h1, if_pos h1]
      · rw [if_neg h1, if_neg h1]
        exact ih
    | i m =>
      dsimp only
      rw [if_neg (fun hc => Bool.noConfusion hc)]
      show getEntry (rest.filter _) (Key.s name)
        = if Key.i m = Key.s name then some v1 else getEntry rest (Key.s name)
      rw [if_neg (fun hc => Key.noConfusion hc)]
      exact ih

theorem getEntry_filter_str_i (n : Nat) : ∀ (fs : List (Key × JSVal)),
    getEntry (fs.filter (fun e => match e.1 with | Key.s _ => true | _ => false))
        (Key.i n)
      = none := by
  intro fs
  induction fs with
  | nil => rfl
  | cons e rest ih =>
    obtain ⟨k1, v1⟩ := e
    rw [List.filter_cons]
    cases k1 with
    | s nm =>
      dsimp only
      rw [if_pos rfl]
      show (if Key.s nm = Key.i n then some v1 else getEntry (rest.filter _) (Key.i n))
        = none
      rw [if_neg (fun hc => Key.noConfusion hc)]
      exact ih
    | i m =>
      dsimp only
      rw [if_neg (fun hc => Bool.noConfusion hc)]
      exact ih

end PlainData

/-- The container built by `shallowClone` for a plain container: same kind
and length; for a sequence the index entries in ascending order followed by
the string-keyed entries, for a record the field list itself — in both cases
the slot values are the source's values, copied by reference. -/
def shallowCloneData (d : PlainData) : PlainData :=
  if d.isArr then
    ⟨true, d.len,
      (PlainData.sortNat (d.fields.filterMap (fun e => match e.1 with
        | .i n => some n
        | _ => none))).map
        (fun n => (Key.i n, (PlainData.getEntry d.fields (Key.i n)).getD (.prim .undef)))
      ++ d.fields.filter (fun e => match e.1 with | .s _ => true | _ => false)⟩
  else ⟨false, d.len, d.fields⟩

theorem shallowClone_eq (H : Heap) (r : Nat) (d : PlainData)
    (hg : H.get? r = some (.plain d)) :
    shallowClone H (.ref r) = ((H.alloc (.plain (shallowCloneData d))).1, .ref H.size) := by
  unfold shallowClone
  dsimp only
  rw [hg]
  rfl

theorem shallowCloneData_isArr (d : PlainData) : (shallowCloneData d).isArr = d.isArr := by
  obtain ⟨a, L0, fs⟩ := d
  cases a <;> rfl

theorem shallowCloneData_len (d : PlainData) : (shallowCloneData d).len = d.len := by
  obtain ⟨a, L0, fs⟩ := d
  cases a <;> rfl

theorem shallowCloneData_getOwn (d : PlainData) (k : Key) :
    (shallowCloneData d).getOwn k = d.getOwn k := by
  obtain ⟨a, L0, fs⟩ := d
  cases a with
  | false => rfl
  | true =>
    by_cases hlen : k = Key.s "length"
    · subst hlen
      rfl
    · have hL : ∀ (gs : List (Key × JSVal)),
          PlainData.getOwn ⟨true, L0, gs⟩ k = PlainData.getEntry gs k := by
        intro gs
        unfold PlainData.getOwn
        exact if_neg (fun hc => hlen hc.2)
      show PlainData.getOwn ⟨true, L0,
        (PlainData.sortNat (fs.filterMap (fun e => match e.1 with
          | Key.i n => some n
          | _ => none))).map
          (fun n => (Key.i n, (PlainData.getEntry fs (Key.i n)).getD (.prim .undef)))
        ++ fs.filter (fun e => match e.1 with | Key.s _ => true | _ => false)⟩ k
        = PlainData.getOwn ⟨true, L0, fs⟩ k
      rw [hL, hL]
      cases k with
      | i n =>
        cases hE : PlainData.getEntry fs (Key.i n) with
        | some v =>
          have hmem : n ∈ PlainData.sortNat (fs.filterMap (fun e => match e.1 with
              | Key.i m => some m | _ => none)) := by
            rw [PlainData.mem_sortNat]
            exact (PlainData.mem_filterMap_idx n fs).mpr (by rw [hE]; rfl)
          refine PlainData.getEntry_append_some _ ?_
          rw [PlainData.getEntry_map_idx, if_pos hmem, hE]
          rfl
        | none =>
          have hnmem : ¬ n ∈ PlainData.sortNat (fs.filterMap (fun e => match e.1 with
              | Key.i m => some m | _ => none)) := by
            rw [PlainData.mem_sortNat]
            intro hm
            have hx := (PlainData.mem_filterMap_idx n fs).mp hm
            rw [hE] at hx
            exact Bool.noConfusion hx
          refine Eq.trans (PlainData.getEntry_append_none _ ?_) ?_
          · rw [PlainData.getEntry_map_idx, if_neg hnmem]
          · exact PlainData.getEntry_filter_str_i n fs
      | s name =>
        exact Eq.trans
          (PlainData.getEntry_append_none _ (PlainData.getEntry_map_idx_str _ name _))
          (PlainData.getEntry_filter_str_s name fs)

/-- A clean copy chain on an arbitrary heap: the stack entries are façades,
and below each recorded key the current copy container is a plain container
whose slot at that key already holds the next copy value.  This is the state
the snapshot traversal presents when it descends into a subtree no write
ever touched — regardless of patches elsewhere in the heap. -/
inductive CleanChain (H : Heap) : Nat → List JSVal → List Key → Prop where
  | last : ∀ r q t, H.get? q = some (.prox t) →
      CleanChain H r [.ref q] []
  | step : ∀ r d q t k r2 objs ks,
      H.get? q = some (.prox t) →
      plainAt H r = some d → IdxBound d →
      d.getOwn k = some (.ref r2) →
      CleanChain H r2 objs ks →
      CleanChain H r (.ref q :: objs) (k :: ks)

theorem snapDetectWalk_chain {H : Heap} : ∀ {r : Nat} {objs : List JSVal} {ks : List Key},
    CleanChain H r objs ks →
    ∃ rTop, snapDetectWalk H (objs.zip ks) (.ref r) = some (false, .ref rTop) := by
  intro r objs ks h
  induction h with
  | last r q t hq => exact ⟨r, rfl⟩
  | step r d q t k r2 objs ks hq hd hb hown hrest ih =>
    obtain ⟨rTop, hTop⟩ := ih
    refine ⟨rTop, ?_⟩
    show snapDetectWalk H ((JSVal.ref q, k) :: objs.zip ks) (.ref r) = _
    unfold snapDetectWalk
    have hpx : isProxy H (.ref q) = true := by simp [isProxy, hq]
    have hr2 : plainRead H (.ref r) k = .ref r2 := by
      simp only [plainRead, hd]
      unfold PlainData.read
      rw [hown]
      rfl
    simp only [hpx, Bool.not_true, Bool.false_eq_true, if_false, hr2, isProxyable]
    exact hTop

theorem snapApplyWalk_chain {H : Heap} : ∀ {r : Nat} {objs : List JSVal} {ks : List Key},
    CleanChain H r objs ks →
    ∀ (C base : JSVal) (pk : Option Key) (pc : JSVal),
    (pk = none → C = .ref r) →
    (∀ k0, pk = some k0 → plainWrite H pc k0 (.ref r) = H) →
    ∃ u w, snapApplyWalk H false objs ks pk C base (.ref r) pc = (H, C, u, w) := by
  intro r objs ks h
  induction h with
  | last r q t hq =>
    intro C base pk pc hC hw
    unfold snapApplyWalk
    have hpx : isProxy H (.ref q) = true := by simp [isProxy, hq]
    simp only [hpx, Bool.not_true, Bool.false_eq_true, if_false]
    by_cases hg : (JSVal.ref r) = base ∨ (JSVal.ref r) = toSource H (.ref q)
    · rw [if_pos hg]
      cases pk with
      | none =>
        obtain rfl : C = JSVal.ref r := hC rfl
        exact ⟨.ref r, pc, rfl⟩
      | some k0 =>
        dsimp only
        rw [hw k0 rfl]
        exact ⟨.ref r, pc, rfl⟩
    · rw [if_neg hg]
      exact ⟨.ref r, pc, rfl⟩
  | step r d q t k r2 objs ks hq hd hb hown hrest ih =>
    intro C base pk pc hC hw
    obtain ⟨o2, objs2, rfl⟩ : ∃ o2 objs2, objs = o2 :: objs2 := by
      cases hrest <;> exact ⟨_, _, rfl⟩
    have hwrite : ∀ k0, some k = some k0 → plainWrite H (.ref r) k0 (.ref r2) = H := by
      intro k0 hk0
      injection hk0 with hk0
      subst hk0
      exact plainWrite_self hd hown hb
    obtain ⟨u, w, heq⟩ := ih C (optRead H base k) (some k) (.ref r)
      (fun hc => Option.noConfusion hc) hwrite
    refine ⟨u, w, ?_⟩
    show snapApplyWalk H false (JSVal.ref q :: o2 :: objs2) (k :: ks) pk C base (.ref r) pc
      = (H, C, u, w)
    unfold snapApplyWalk
    have hpx : isProxy H (.ref q) = true := by simp [isProxy, hq]
    simp only [hpx, Bool.not_true, Bool.false_eq_true, if_false]
    have hrd : plainRead H (.ref r) k = .ref r2 := by
      simp only [plainRead, hd]
      unfold PlainData.read
      rw [hown]
      rfl
    by_cases hg : (JSVal.ref r) = base ∨ (JSVal.ref r) = toSource H (.ref q)
    · rw [if_pos hg]
      cases pk with
      | none =>
        obtain rfl : C = JSVal.ref r := hC rfl
        dsimp only
        simp only [hrd]
        exact heq
      | some k0 =>
        dsimp only
        rw [hw k0 rfl]
        simp only [hrd]
        exact heq
    · rw [if_neg hg]
      dsimp only
      simp only [hrd]
      exact heq

theorem snapVisitor_chain_noop
    (recSnap : Heap → JSVal → Option JSVal → Option (Heap × JSVal))
    {H : Heap} {r0 : Nat} {pxy : JSVal} {tq : ProxyData}
    (hpx : proxyDataOf H pxy = some tq) (hpat : patchData H tq = none)
    {objs : List JSVal} {ks : List Key} (hch : CleanChain H r0 objs ks)
    (base : JSVal) (i : Nat) :
    snapVisitorCore recSnap false base H ⟨.ref r0, false⟩ pxy i objs ks
      = (H, ⟨.ref r0, false⟩, false) := by
  unfold snapVisitorCore
  dsimp only
  simp only [Bool.false_eq_true, if_false, hpx]
  unfold snapDetect
  obtain ⟨rTop, hTop⟩ := snapDetectWalk_chain hch
  rw [hTop]
  simp only [hpat]
  obtain ⟨u, w, heq⟩ := snapApplyWalk_chain hch (.ref r0) base none (.ref r0)
    (fun _ => rfl) (fun k0 hk0 => Option.noConfusion hk0)
  rw [heq]
  simp

/-- The C2 heap: `v = {foo: {bar: 123}, zzz: {www: "abc"}}` with `v.foo` at
slot 0, `v.zzz` at slot 1 and `v` at slot 2. -/
def exHeapC2 : Heap :=
  ⟨[.plain ⟨false, 0, [(Key.s "bar", .prim (.num 123))]⟩,
    .plain ⟨false, 0, [(Key.s "www", .prim (.str "abc"))]⟩,
    .plain ⟨false, 0, [(Key.s "foo", .ref 0), (Key.s "zzz", .ref 1)]⟩]⟩

/-- The C2 mutation run: wrap `v` (façade at 3), read `p.foo` (child façade
at 4), `delete p.foo.bar`, then `p.foo.qux = 456`. -/
def exC2run : Heap :=
  trapSet (trapDelete (trapGet (createProxy exHeapC2 (.ref 2) false).1 3 (.s "foo")).1
    4 (.s "bar")).1 4 (.s "qux") (.prim (.num 456))

/-- The C2 snapshot result. -/
def exC2snap : Heap × JSVal :=
  (captureSnapshotF 20 exC2run (.ref 3) none).getD (⟨[]⟩, .prim Prim.undef)

/-- The C2 witness instance: the record `{bar: 123}` at slot 0 with a fresh
façade over it at slot 1. -/
def exHeapC2W : Heap :=
  ⟨[.plain ⟨false, 0, [(Key.s "bar", .prim (.num 123))]⟩, .prox ⟨0, none, [], false⟩]⟩

/-- C2: the structural-sharing mechanisms in general, and the claim's
scenario.  (1) Off-path no-op: on an arbitrary heap — patches elsewhere
allowed — visiting a patch-free façade through a clean copy chain leaves
heap and state untouched, for every recursive-snapshot function and every
base, so a snapshot writes nothing under any container off the mutated path
and the base's slots stay shared by reference.  (2) Clone-once: once a copy
slot no longer equals the base slot or the façade's own source — i.e. it
was already rewired to a fresh clone — the walk entry leaves the heap, the
copy root and the slot untouched: nothing is ever cloned twice.  (3) Fresh
shallow clones: cloning a plain container allocates exactly one fresh slot
at the end of the heap, leaves every existing object (all of `v`) untouched,
and the clone agrees with its source on kind, length and every own slot —
values copied by reference.  Scenario: after mutations confined to the leaf
`v.foo`, the snapshot is `{foo: {qux: 456}, zzz: {www: "abc"}}`; the
off-path container `v.zzz` is shared by reference (the snapshot's `zzz` slot
holds slot 1, the very container of `v`, unchanged), the root and `v.foo` —
the containers on the mutated path — are fresh clones, allocated exactly
once each (exactly two new objects), and `v` itself is left untouched. -/
theorem C2_structural_sharing :
    (∀ (recSnap : Heap → JSVal → Option JSVal → Option (Heap × JSVal))
       (base : JSVal) (H : Heap) (r0 : Nat) (pxy : JSVal) (tq : ProxyData)
       (i : Nat) (objs : List JSVal) (ks : List Key),
       proxyDataOf H pxy = some tq →
       patchData H tq = none →
       CleanChain H r0 objs ks →
       snapVisitorCore recSnap false base H ⟨.ref r0, false⟩ pxy i objs ks
         = (H, ⟨.ref r0, false⟩, false)) ∧
    (∀ (H : Heap) (pp : Bool) (obj : JSVal) (ks : List Key) (pk : Option Key)
       (C baseI copyI pc : JSVal),
       isProxy H obj = true → copyI ≠ baseI → copyI ≠ toSource H obj →
       (snapApplyWalk H pp [obj] ks pk C baseI copyI pc = (H, C, copyI, pc)) ∧
       (∀ o2 r2, snapApplyWalk H pp (obj :: o2 :: r2) [] pk C baseI copyI pc
          = (H, C, copyI, pc)) ∧
       (∀ o2 r2 k rk, snapApplyWalk H pp (obj :: o2 :: r2) (k :: rk) pk C baseI copyI pc
          = snapApplyWalk H pp (o2 :: r2) rk (some k) C (optRead H baseI k)
              (plainRead H copyI k) copyI)) ∧
    (∀ (H : Heap) (r : Nat) (d : PlainData), H.get? r = some (.plain d) →
       shallowClone H (.ref r)
         = ((H.alloc (.plain (shallowCloneData d))).1, .ref H.size) ∧
       (shallowCloneData d).isArr = d.isArr ∧
       (shallowCloneData d).len = d.len ∧
       (∀ k, (shallowCloneData d).getOwn k = d.getOwn k) ∧
       (∀ r', r' < H.size → (H.alloc (.plain (shallowCloneData d))).1.get? r'
          = H.get? r')) ∧
    (captureSnapshotF 20 exC2run (.ref 3) none = some exC2snap ∧
     exC2snap.2 = .ref 6 ∧ (6 : Nat) = exC2run.size ∧
     exC2snap.1.size = exC2run.size + 2 ∧
     plainAt exC2snap.1 6
       = some ⟨false, 0, [(Key.s "foo", .ref 7), (Key.s "zzz", .ref 1)]⟩ ∧
     (7 : Nat) = exC2run.size + 1 ∧
     plainAt exC2snap.1 7 = some ⟨false, 0, [(Key.s "qux", .prim (.num 456))]⟩ ∧
     plainAt exC2snap.1 1 = some ⟨false, 0, [(Key.s "www", .prim (.str "abc"))]⟩ ∧
     plainAt exHeapC2 2
       = some ⟨false, 0, [(Key.s "foo", .ref 0), (Key.s "zzz", .ref 1)]⟩ ∧
     plainAt exC2snap.1 2 = plainAt exHeapC2 2 ∧
     plainAt exC2snap.1 0 = plainAt exHeapC2 0) := by
  refine ⟨?_, ?_, ?_, by decide⟩
  · intro recSnap base H r0 pxy tq i objs ks hpx hpat hch
    exact snapVisitor_chain_noop recSnap hpx hpat hch base i
  · intro H pp obj ks pk C baseI copyI pc hpx hne1 hne2
    have hg : ¬ (copyI = baseI ∨ copyI = toSource H obj) := fun hc => hc.elim hne1 hne2
    refine ⟨?_, ?_, ?_⟩
    · unfold snapApplyWalk
      simp only [hpx, Bool.not_true, Bool.false_eq_true, if_false]
      rw [if_neg hg]
    · intro o2 r2
      unfold snapApplyWalk
      simp only [hpx, Bool.not_true, Bool.false_eq_true, if_false]
      rw [if_neg hg]
    · intro o2 r2 k rk
      unfold snapApplyWalk
      simp only [hpx, Bool.not_true, Bool.false_eq_true, if_false]
      rw [if_neg hg]
      rfl
  · intro H r d hgd
    exact ⟨shallowClone_eq H r d hgd, shallowCloneData_isArr d, shallowCloneData_len d,
      shallowCloneData_getOwn d,
      fun r' hr' => Heap.get?_alloc_of_lt _ hr'⟩

/-- C2 witness: the off-path no-op applied at a concrete patch-free façade
visit (with an unrelated base and an arbitrary recursive-snapshot function),
the clone-once rule applied at a concrete already-rewired slot, and the
fresh-clone characterization applied at the concrete container `{bar: 123}`. -/
theorem C2_structural_sharing_witness :
    snapVisitorCore (fun _ _ _ => none) false (.prim .null) exHeapC2W
        ⟨.ref 0, false⟩ (.ref 1) 1 [.ref 1] []
      = (exHeapC2W, ⟨.ref 0, false⟩, false) ∧
    snapApplyWalk exHeapC2W false [.ref 1] [] none (.prim .null) (.ref 9) (.ref 5)
        (.prim .null)
      = (exHeapC2W, .prim .null, .ref 5, .prim .null) ∧
    shallowClone exHeapC2W (.ref 0)
      = ((exHeapC2W.alloc (.plain (shallowCloneData
          ⟨false, 0, [(Key.s "bar", .prim (.num 123))]⟩))).1, .ref 2) :=
  ⟨C2_structural_sharing.1 (fun _ _ _ => none) (.prim .null) exHeapC2W 0 (.ref 1)
      ⟨0, none, [], false⟩ 1 [.ref 1] [] (by decide) rfl
      (CleanChain.last 0 1 ⟨0, none, [], false⟩ (by decide)),
   (C2_structural_sharing.2.1 exHeapC2W false (.ref 1) [] none (.prim .null) (.ref 9)
      (.ref 5) (.prim .null) (by decide) (by decide) (by decide)).1,
   (C2_structural_sharing.2.2.1 exHeapC2W 0 ⟨false, 0, [(Key.s "bar", .prim (.num 123))]⟩
      (by decide)).1⟩

/-! ## C7: sequence rebase as whole replacement -/

/-- Kind preservation between heaps: every plain container of the first heap
still exists in the second with the same kind (record or sequence). -/
def KindPres (H H' : Heap) : Prop :=
  ∀ r d, plainAt H r = some d → ∃ d', plainAt H' r = some d' ∧ d'.isArr = d.isArr

theorem kindPres_refl (H : Heap) : KindPres H H := fun _ d h => ⟨d, h, rfl⟩

theorem kindPres_trans {H1 H2 H3 : Heap} (a : KindPres H1 H2) (b : KindPres H2 H3) :
    KindPres H1 H3 := by
  intro r d h
  obtain ⟨d2, h2, e2⟩ := a r d h
  obtain ⟨d3, h3, e3⟩ := b r d2 h2
  exact ⟨d3, h3, by rw [e3, e2]⟩

theorem plainAt_alloc {H : Heap} {r : Nat} (o : Obj) (h : r < H.size) :
    plainAt (H.alloc o).1 r = plainAt H r := by
  unfold plainAt
  rw [Heap.get?_alloc_of_lt o h]

theorem kindPres_alloc (H : Heap) (o : Obj) : KindPres H (H.alloc o).1 :=
  fun r d h => ⟨d, by rw [plainAt_alloc o (plainAt_lt_size h)]; exact h, rfl⟩

theorem kindPres_plainWrite (H : Heap) (v : JSVal) (k : Key) (w : JSVal) :
    KindPres H (plainWrite H v k w) := by
  intro r d h
  cases v with
  | prim q => exact ⟨d, h, rfl⟩
  | tomb => exact ⟨d, h, rfl⟩
  | ref r0 =>
    show ∃ d', plainAt (plainWrite H (.ref r0) k w) r = some d' ∧ d'.isArr = d.isArr
    unfold plainWrite
    dsimp only
    cases hp : plainAt H r0 with
    | none => exact ⟨d, h, rfl⟩
    | some d0 =>
      by_cases hr : r0 = r
      · subst hr
        rw [h] at hp
        injection hp with hp
        subst hp
        exact ⟨d.set k w, plainAt_set_self _ (plainAt_lt_size h),
          PlainData.isArr_set d k w⟩
      · exact ⟨d, by rw [plainAt_set_other _ hr]; exact h, rfl⟩

theorem shallowClone_cases (H : Heap) (v : JSVal) :
    (shallowClone H v).1 = H ∨ ∃ o, (shallowClone H v).1 = (H.alloc o).1 := by
  cases v with
  | prim q => exact Or.inl rfl
  | tomb => exact Or.inl rfl
  | ref r0 =>
    show (shallowClone H (.ref r0)).1 = H ∨ _
    unfold shallowClone
    dsimp only
    cases hg : H.get? r0 with
    | none => exact Or.inl rfl
    | some o =>
      cases o with
      | prox t => exact Or.inl rfl
      | plain d0 => exact Or.inr ⟨_, rfl⟩

theorem kindPres_shallowClone (H : Heap) (v : JSVal) :
    KindPres H (shallowClone H v).1 := by
  rcases shallowClone_cases H v with he | ⟨o, he⟩
  · rw [he]; exact kindPres_refl H
  · rw [he]; exact kindPres_alloc H o

theorem snapApplyWalk_kindPres (pp : Bool) :
    ∀ (objs : List JSVal) (ks : List Key) (pk : Option Key) (C baseI copyI pc : JSVal)
      (H : Heap), KindPres H (snapApplyWalk H pp objs ks pk C baseI copyI pc).1 := by
  intro objs
  induction objs with
  | nil =>
    intro ks pk C baseI copyI pc H
    exact kindPres_refl H
  | cons obj restObjs ih =>
    intro ks pk C baseI copyI pc H
    unfold snapApplyWalk
    by_cases hpx : isProxy H obj = true
    · simp only [hpx, Bool.not_true, Bool.false_eq_true, if_false]
      by_cases hg : copyI = baseI ∨ copyI = toSource H obj
      · rw [if_pos hg]
        cases pp with
        | false =>
          simp only [Bool.false_eq_true, if_false]
          cases pk with
          | none =>
            dsimp only
            cases restObjs with
            | nil => exact kindPres_refl H
            | cons o2 r2 =>
              cases ks with
              | nil => exact kindPres_refl H
              | cons k rk => exact ih rk (some k) copyI (optRead H baseI k) (plainRead H copyI k) copyI H
          | some pk0 =>
            dsimp only
            cases restObjs with
            | nil => exact kindPres_plainWrite H pc pk0 copyI
            | cons o2 r2 =>
              cases ks with
              | nil => exact kindPres_plainWrite H pc pk0 copyI
              | cons k rk =>
                exact kindPres_trans (kindPres_plainWrite H pc pk0 copyI)
                  (ih rk (some k) C (optRead _ baseI k) (plainRead _ copyI k) copyI _)
        | true =>
          simp only [if_true]
          cases hsc : shallowClone H baseI with
          | mk Hc c =>
            have hkc : KindPres H Hc := by
              have hx := kindPres_shallowClone H baseI
              rw [hsc] at hx
              exact hx
            cases pk with
            | none =>
              dsimp only
              cases restObjs with
              | nil => exact hkc
              | cons o2 r2 =>
                cases ks with
                | nil => exact hkc
                | cons k rk =>
                  exact kindPres_trans hkc
                    (ih rk (some k) c (optRead _ baseI k) (plainRead _ c k) c _)
            | some pk0 =>
              dsimp only
              cases restObjs with
              | nil => exact kindPres_trans hkc (kindPres_plainWrite Hc pc pk0 c)
              | cons o2 r2 =>
                cases ks with
                | nil => exact kindPres_trans hkc (kindPres_plainWrite Hc pc pk0 c)
                | cons k rk =>
                  exact kindPres_trans
                    (kindPres_trans hkc (kindPres_plainWrite Hc pc pk0 c))
                    (ih rk (some k) C (optRead _ baseI k) (plainRead _ c k) c _)
      · rw [if_neg hg]
        cases restObjs with
        | nil => exact kindPres_refl H
        | cons o2 r2 =>
          cases ks with
          | nil => exact kindPres_refl H
          | cons k rk => exact ih rk (some k) C (optRead H baseI k) (plainRead H copyI k) copyI H
    · simp only [Bool.not_eq_true] at hpx
      simp only [hpx, Bool.not_false, if_true]
      cases pk with
      | none =>
        dsimp only
        cases restObjs with
        | nil => exact kindPres_refl H
        | cons o2 r2 =>
          cases ks with
          | nil => exact kindPres_refl H
          | cons k rk => exact ih rk (some k) obj (optRead H baseI k) (plainRead H obj k) obj H
      | some pk0 =>
        dsimp only
        cases restObjs with
        | nil => exact kindPres_plainWrite H pc pk0 obj
        | cons o2 r2 =>
          cases ks with
          | nil => exact kindPres_plainWrite H pc pk0 obj
          | cons k rk =>
            exact kindPres_trans (kindPres_plainWrite H pc pk0 obj)
              (ih rk (some k) C (optRead _ baseI k) (plainRead _ obj k) obj _)

theorem kindPres_sourceArr {H H' : Heap} (kp : KindPres H H') (t : ProxyData)
    {sd : PlainData} (hsd : plainAt H t.source = some sd) (ha : sd.isArr = true) :
    (sourceData H' t).isArr = true := by
  obtain ⟨sd', hsd', he⟩ := kp t.source sd hsd
  unfold sourceData
  rw [hsd', Option.getD_some, he]
  exact ha

/-- The C7 heap: `v = {foo: [{bar: 123}]}` (slots 0-2) and the rebase base
`{foo: [{www: 456}]}` (slots 3-5). -/
def exHeapC7 : Heap :=
  ⟨[.plain ⟨false, 0, [(Key.s "bar", .prim (.num 123))]⟩,
    .plain ⟨true, 1, [(Key.i 0, .ref 0)]⟩,
    .plain ⟨false, 0, [(Key.s "foo", .ref 1)]⟩,
    .plain ⟨false, 0, [(Key.s "www", .prim (.num 456))]⟩,
    .plain ⟨true, 1, [(Key.i 0, .ref 3)]⟩,
    .plain ⟨false, 0, [(Key.s "foo", .ref 4)]⟩]⟩

/-- The C7 run: wrap `v` (façade 6), read `p.foo` (sequence façade 7), read
`p.foo[0]` (façade 8), then `p.foo[0].qux = "abc"`. -/
def exC7run : Heap :=
  trapSet (trapGet (trapGet (createProxy exHeapC7 (.ref 2) false).1 6 (.s "foo")).1
    7 (.i 0)).1 8 (.s "qux") (.prim (.str "abc"))

/-- The C7 snapshot, rebased onto the distinct base at slot 5. -/
def exC7snap : Heap × JSVal :=
  (captureSnapshotF 20 exC7run (.ref 6) (some (.ref 5))).getD (⟨[]⟩, .prim Prim.undef)

/-- The C7 witness instance: an empty sequence (slot 0) behind a façade
(slot 1) and an unrelated record (slot 2) serving as the rebase base. -/
def exHeapC7W : Heap :=
  ⟨[.plain ⟨true, 0, []⟩, .prox ⟨0, none, [], false⟩, .plain ⟨false, 0, []⟩]⟩

/-- C7: the whole-replacement rule of line 514 in general, and the claim's
scenario.  General rule: for every recursive-snapshot function, base, heap,
copy state and stack, whenever the snapshot is rebasing and the visited
façade's source is a sequence, the visitor writes the façade's own recursive
snapshot (taken with no rebase base) into the parent copy slot as a whole
replacement and prunes the traversal — regardless of whether the façade or
the stack carries changes, so the base's sequence is never merged entry by
entry.  Scenario: rebasing onto a base distinct from the root's source, the
sequence façade `p.foo` is written into the output as a whole replacement:
the base's `foo` slot is rewired to a freshly allocated sequence (slot 10,
the first slot allocated by the snapshot) whose single element is the fully
snapshotted `{bar: 123, qux: "abc"}` from the façade's own view; the base's
own sequence (slot 4, `[{www: 456}]`) is left intact and none of its
elements is interleaved into the output. -/
theorem C7_sequence_rebase :
    (∀ (recSnap : Heap → JSVal → Option JSVal → Option (Heap × JSVal))
       (base : JSVal) (H : Heap) (copy pxy : JSVal) (t : ProxyData) (sd : PlainData)
       (stackDepth : Nat) (objStack : List JSVal) (keyStack : List Key)
       (sp pp : Bool) (H2 : Heap) (copy2 copyI2 pc2 : JSVal) (H3 : Heap) (snap : JSVal),
       proxyDataOf H pxy = some t →
       plainAt H t.source = some sd → sd.isArr = true →
       snapDetect H t objStack keyStack copy = some (sp, pp) →
       snapApplyWalk H pp objStack keyStack none copy base copy copy
         = (H2, copy2, copyI2, pc2) →
       recSnap H2 pxy none = some (H3, snap) →
       snapVisitorCore recSnap true base H ⟨copy, false⟩ pxy stackDepth objStack keyStack
         = (plainWrite H3 pc2 (keyStack.getD (stackDepth - 2) (.s "undefined")) snap,
            ⟨copy2, false⟩, true)) ∧
    (captureSnapshotF 20 exC7run (.ref 6) (some (.ref 5)) = some exC7snap ∧
     exC7snap.2 = .ref 5 ∧
     plainAt exC7snap.1 5 = some ⟨false, 0, [(Key.s "foo", .ref 10)]⟩ ∧
     (10 : Nat) = exC7run.size ∧
     plainAt exC7snap.1 10 = some ⟨true, 1, [(Key.i 0, .ref 11)]⟩ ∧
     plainAt exC7snap.1 11 = some ⟨false, 0, [(Key.s "bar", .prim (.num 123)),
       (Key.s "qux", .prim (.str "abc"))]⟩ ∧
     plainAt exC7snap.1 4 = some ⟨true, 1, [(Key.i 0, .ref 3)]⟩) := by
  refine ⟨?_, by decide⟩
  intro recSnap base H copy pxy t sd stackDepth objStack keyStack sp pp H2 copy2 copyI2
    pc2 H3 snap hpx hsd ha hdet hwalk hrec
  have harr : (sourceData H2 t).isArr = true := by
    have kp := snapApplyWalk_kindPres pp objStack keyStack none copy base copy copy H
    rw [hwalk] at kp
    exact kindPres_sourceArr kp t hsd ha
  unfold snapVisitorCore
  dsimp only
  simp only [Bool.false_eq_true, if_false, hpx, hdet, hwalk, harr, Bool.true_and,
    Bool.or_true, if_true, hrec]

/-- C7 witness: the general whole-replacement rule applied at a concrete
rebasing visit of a sequence façade (the recursive snapshot abstracted as a
constant function): the visitor writes that snapshot into the parent copy
slot and prunes. -/
theorem C7_sequence_rebase_witness :
    snapVisitorCore (fun Hh _ _ => some (Hh, .prim (.bool true))) true (.ref 2) exHeapC7W
        ⟨.ref 2, false⟩ (.ref 1) 1 [.ref 1] []
      = (plainWrite exHeapC7W (.ref 2) (Key.s "undefined") (.prim (.bool true)),
         ⟨.ref 2, false⟩, true) :=
  C7_sequence_rebase.1 (fun Hh _ _ => some (Hh, .prim (.bool true))) (.ref 2) exHeapC7W
    (.ref 2) (.ref 1) ⟨0, none, [], false⟩ ⟨true, 0, []⟩ 1 [.ref 1] [] false false
    exHeapC7W (.ref 2) (.ref 2) (.ref 2) exHeapC7W (.prim (.bool true))
    (by decide) (by decide) (by decide) (by decide) (by decide) rfl

/-! ## C10: in-place mutation of plain patch containers -/

/-- The C10 heap: `v = {foo: {bar: 123}}` with `v.foo` at slot 0 and `v` at
slot 1. -/
def exHeapC10 : Heap :=
  ⟨[.plain ⟨false, 0, [(Key.s "bar", .prim (.num 123))]⟩,
    .plain ⟨false, 0, [(Key.s "foo", .ref 0)]⟩]⟩

/-- The C10 run: wrap `v` (façade 2), read `p.foo` (child façade 3),
allocate the user literal `{qux: p.foo}` (slot 4, its `qux` slot holding
the façade), then `p.foo =` that literal. -/
def exC10run : Heap :=
  trapSet ((trapGet (createProxy exHeapC10 (.ref 1) false).1 2 (.s "foo")).1.alloc
    (.plain ⟨false, 0, [(Key.s "qux", .ref 3)]⟩)).1 2 (.s "foo") (.ref 4)

/-- The C10 snapshot. -/
def exC10snap : Heap × JSVal :=
  (captureSnapshotF 20 exC10run (.ref 2) none).getD (⟨[]⟩, .prim Prim.undef)

/-- The C10 witness instance: a record owning `k` (slot 0, sitting on the
traversal stack as a plain patch container), a façade (slot 1) over the
empty record at slot 2. -/
def exHeapC10W : Heap :=
  ⟨[.plain ⟨false, 0, [(Key.s "k", .prim (.num 3))]⟩,
    .prox ⟨2, none, [], false⟩,
    .plain ⟨false, 0, []⟩]⟩

/-- C10: the in-place patch-container mutation in general, and the claim's
scenario.  General rule, part 1 (lines 514-516 with `stackPatched`): for
every recursive-snapshot function, base, heap, copy state and stack, when a
plain (non-façade) container sits on the visited path — `snapDetect` reports
`stackPatched` — the visitor's entire effect is one `plainWrite` of the
façade's recursive snapshot into the container the walk attached as the
parent copy, and the traversal is pruned.  Part 2: `plainWrite` mutates its
target container in place — the heap keeps its size (nothing is allocated,
so no copy is attached), only the slot at the written key of that very
container changes, and every other heap object is untouched.  Scenario:
before the snapshot the user literal at slot 4 holds the façade (slot 3,
whose source is slot 0) in its `qux` slot; `captureSnapshot` mutates that
literal in place — its `qux` slot is overwritten with the façade's plain
source tree (slot 0) — and the snapshot's `foo` slot holds slot 4 itself,
the very container the user assigned, not a copy. -/
theorem C10_inplace_patch_mutation :
    (∀ (recSnap : Heap → JSVal → Option JSVal → Option (Heap × JSVal))
       (rebasing : Bool) (base : JSVal) (H : Heap) (copy pxy : JSVal) (t : ProxyData)
       (stackDepth : Nat) (objStack : List JSVal) (keyStack : List Key)
       (pp : Bool) (H2 : Heap) (copy2 copyI2 pc2 : JSVal) (H3 : Heap) (snap : JSVal),
       proxyDataOf H pxy = some t →
       snapDetect H t objStack keyStack copy = some (true, pp) →
       snapApplyWalk H pp objStack keyStack none copy base copy copy
         = (H2, copy2, copyI2, pc2) →
       recSnap H2 pxy none = some (H3, snap) →
       snapVisitorCore recSnap rebasing base H ⟨copy, false⟩ pxy stackDepth objStack
           keyStack
         = (plainWrite H3 pc2 (keyStack.getD (stackDepth - 2) (.s "undefined")) snap,
            ⟨copy2, false⟩, true)) ∧
    (∀ (H : Heap) (c : Nat) (d : PlainData) (k : Key) (w : JSVal),
       plainAt H c = some d →
       plainWrite H (.ref c) k w = H.set c (.plain (d.set k w)) ∧
       (plainWrite H (.ref c) k w).size = H.size ∧
       (∀ r, r ≠ c → (plainWrite H (.ref c) k w).get? r = H.get? r)) ∧
    (plainAt exC10run 4 = some ⟨false, 0, [(Key.s "qux", .ref 3)]⟩ ∧
     proxyDataOf exC10run (.ref 3) = some ⟨0, none, [], false⟩ ∧
     captureSnapshotF 20 exC10run (.ref 2) none = some exC10snap ∧
     exC10snap.2 = .ref 6 ∧
     plainAt exC10snap.1 6 = some ⟨false, 0, [(Key.s "foo", .ref 4)]⟩ ∧
     plainAt exC10snap.1 4 = some ⟨false, 0, [(Key.s "qux", .ref 0)]⟩) := by
  refine ⟨?_, ?_, by decide⟩
  · intro recSnap rebasing base H copy pxy t stackDepth objStack keyStack pp H2 copy2
      copyI2 pc2 H3 snap hpx hdet hwalk hrec
    unfold snapVisitorCore
    dsimp only
    simp only [Bool.false_eq_true, if_false, hpx, hdet, hwalk, Bool.true_or, if_true,
      hrec]
  · intro H c d k w hd
    have he : plainWrite H (.ref c) k w = H.set c (.plain (d.set k w)) := by
      unfold plainWrite
      dsimp only
      rw [hd]
    refine ⟨he, ?_, ?_⟩
    · rw [he]
      exact Heap.size_set H c (.plain (d.set k w))
    · intro r hr
      rw [he]
      exact Heap.get?_set_other _ (fun hc => hr hc.symm)

/-- C10 witness: part 1 applied at a concrete visit whose stack carries a
plain container (the recursive snapshot abstracted as a constant function) —
the visitor's effect is the single in-place write of that snapshot into the
attached container — and part 2 applied at the claim's literal slot. -/
theorem C10_inplace_patch_mutation_witness :
    snapVisitorCore (fun Hh _ _ => some (Hh, .ref 2)) false (.ref 2) exHeapC10W
        ⟨.ref 0, false⟩ (.ref 1) 2 [.ref 0, .ref 1] [Key.s "k"]
      = (plainWrite exHeapC10W (.ref 0) (Key.s "k") (.ref 2), ⟨.ref 0, false⟩, true) ∧
    plainWrite exC10run (.ref 4) (Key.s "qux") (.ref 0)
      = exC10run.set 4 (.plain ((⟨false, 0, [(Key.s "qux", .ref 3)]⟩ : PlainData).set
          (Key.s "qux") (.ref 0))) :=
  ⟨C10_inplace_patch_mutation.1 (fun Hh _ _ => some (Hh, .ref 2)) false (.ref 2)
    exHeapC10W (.ref 0) (.ref 1) ⟨2, none, [], false⟩ 2 [.ref 0, .ref 1] [Key.s "k"]
    false exHeapC10W (.ref 0) (.prim (.num 3)) (.ref 0) exHeapC10W (.ref 2)
    (by decide) (by decide) (by decide) rfl,
   (C10_inplace_patch_mutation.2.1 exC10run 4 ⟨false, 0, [(Key.s "qux", .ref 3)]⟩
    (Key.s "qux") (.ref 0) (by decide)).1⟩

/-! ## C8: the store — nested apply and notification coalescing -/

/-- The mutable variables of `createStore`: `currState`, `prevState` and
`listenersPending` (`stackDepth` is threaded explicitly, and the listener
set is abstracted into a notification log). -/
structure StoreModel where
  curr : JSVal
  prev : JSVal
  pending : Bool
  deriving DecidableEq, Repr

/-- A synchronous mutator body: a sequence of façade operations and nested
`apply` calls (the `patch(proxy, apply)` callback of `createStore`). -/
inductive Mutator where
  | done
  | act (op : UserOp) (rest : Mutator)
  | nest (inner : Mutator) (rest : Mutator)

/-- The `resolve` tail of `apply` (lines 29-50 of createStore.ts, result
handling aside): fold the façade onto the state current now; on a change,
either mark listeners pending (when re-entrant) or commit and notify. The
log records the `stackDepth` at each notification. -/
def resolveModel (d : Nat) (st2 : StoreModel) (curr2 : JSVal) : StoreModel × List Nat :=
  if st2.prev ≠ curr2 then
    if d ≠ 0 then (⟨curr2, st2.prev, true⟩, [])
    else (⟨curr2, curr2, false⟩, [d])
  else (⟨curr2, st2.prev, st2.pending⟩, [])

/-- The trailing pending check of `apply` (lines 58-63): at depth zero a
pending flag fires one coalesced notification. -/
def postNotify (d : Nat) (x : StoreModel × List Nat) : StoreModel × List Nat :=
  if d = 0 ∧ x.1.pending = true then (⟨x.1.curr, x.1.prev, false⟩, x.2 ++ [d])
  else x

/-- Run a mutator body through the façade at `p`: perform trap operations
and nested `apply` calls (`applyFn` is the store's `apply` at the next
depth). -/
def runBody (applyFn : Heap → StoreModel → Mutator → Option (Heap × StoreModel × List Nat))
    (p : Nat) : Heap → StoreModel → Mutator → Option (Heap × StoreModel × List Nat)
  | H, st, .done => some (H, st, [])
  | H, st, .act op rest => runBody applyFn p (runOp H p op) st rest
  | H, st, .nest inner rest =>
    match applyFn H st inner with
    | some (H2, st2, log) =>
      match runBody applyFn p H2 st2 rest with
      | some (H3, st3, log2) => some (H3, st3, log ++ log2)
      | none => none
    | none => none

/-- `apply` of `createStore` (lines 18-65), fuel-indexed on nesting depth:
wrap the current state, run the mutator at depth `d + 1`, then resolve —
snapshotting the façade rebased onto the state current at completion time
(`getState()` is read again at line 30) — and fire the trailing coalesced
notification when the depth counter is back at zero. -/
def applyModel (snapFuel : Nat) (rc : Bool) : Nat → Nat → Heap → StoreModel → Mutator →
    Option (Heap × StoreModel × List Nat)
  | 0, _, _, _, _ => none
  | fuel + 1, d, H, st, m =>
    match createProxy H st.curr rc with
    | (H1, .ref p) =>
      match runBody (fun H2 st2 m2 => applyModel snapFuel rc fuel (d + 1) H2 st2 m2)
          p H1 st m with
      | some (H2, st2, log) =>
        match captureSnapshotF snapFuel H2 (.ref p) (some st2.curr) with
        | some (H3, curr2) =>
          match postNotify d (resolveModel d st2 curr2) with
          | (stR, logR) => some (H3, stR, log ++ logR)
        | none => none
      | none => none
    | (_, _) => none

theorem postNotify_ne (d : Nat) (x : StoreModel × List Nat) (hd : d ≠ 0) :
    postNotify d x = x := by
  unfold postNotify
  rw [if_neg (fun hc => hd hc.1)]

theorem runBody_silent
    (applyFn : Heap → StoreModel → Mutator → Option (Heap × StoreModel × List Nat))
    (p : Nat)
    (hA : ∀ (H : Heap) (st : StoreModel) (m : Mutator) (H' : Heap) (st' : StoreModel)
      (log : List Nat), applyFn H st m = some (H', st', log) → log = [] ∧ st'.prev = st.prev) :
    ∀ (m : Mutator) (H : Heap) (st : StoreModel) {H' : Heap} {st' : StoreModel}
      {log : List Nat},
    runBody applyFn p H st m = some (H', st', log) → log = [] ∧ st'.prev = st.prev := by
  intro m
  induction m with
  | done =>
    intro H st H' st' log h
    injection h with h
    injection h with h1 h
    injection h with h2 h3
    exact ⟨h3.symm, by rw [← h2]⟩
  | act op rest ih =>
    intro H st H' st' log h
    exact ih (runOp H p op) st h
  | nest inner rest ihi ihr =>
    intro H st H' st' log h
    unfold runBody at h
    cases ha : applyFn H st inner with
    | none =>
      rw [ha] at h
      exact Option.noConfusion h
    | some trip =>
      obtain ⟨H2, st2, log1⟩ := trip
      rw [ha] at h
      dsimp only at h
      cases hb : runBody applyFn p H2 st2 rest with
      | none =>
        rw [hb] at h
        exact Option.noConfusion h
      | some trip2 =>
        obtain ⟨H3, st3, log2⟩ := trip2
        rw [hb] at h
        obtain ⟨hl1, hp1⟩ := hA H st inner H2 st2 log1 ha
        obtain ⟨hl2, hp2⟩ := ihr H2 st2 hb
        injection h with h
        injection h with h1 h
        injection h with h2 h3
        refine ⟨?_, ?_⟩
        · rw [← h3, hl1, hl2]
          rfl
        · rw [← h2, hp2, hp1]

theorem applyModel_silent (snapFuel : Nat) (rc : Bool) :
    ∀ (fuel d : Nat) (H : Heap) (st : StoreModel) (m : Mutator) {H' : Heap}
      {st' : StoreModel} {log : List Nat},
    d ≠ 0 →
    applyModel snapFuel rc fuel d H st m = some (H', st', log) →
    log = [] ∧ st'.prev = st.prev := by
  intro fuel
  induction fuel with
  | zero =>
    intro d H st m H' st' log hd h
    exact Option.noConfusion h
  | succ n ih =>
    intro d H st m H' st' log hd h
    unfold applyModel at h
    cases hcp : createProxy H st.curr rc with
    | mk H1 v1 =>
      rw [hcp] at h
      cases v1 with
      | prim w =>
        exact Option.noConfusion h
      | tomb =>
        exact Option.noConfusion h
      | ref p =>
        dsimp only at h
        cases hrb : runBody (fun H2 st2 m2 => applyModel snapFuel rc n (d + 1) H2 st2 m2)
            p H1 st m with
        | none =>
          rw [hrb] at h
          exact Option.noConfusion h
        | some trip =>
          obtain ⟨H2, st2, log1⟩ := trip
          rw [hrb] at h
          dsimp only at h
          cases hsn : captureSnapshotF snapFuel H2 (.ref p) (some st2.curr) with
          | none =>
            rw [hsn] at h
            exact Option.noConfusion h
          | some pr2 =>
            obtain ⟨H3, curr2⟩ := pr2
            rw [hsn] at h
            dsimp only at h
            obtain ⟨hl1, hp1⟩ := runBody_silent _ p
              (fun Ha sta ma Hb stb logb hh =>
                ih (d + 1) Ha sta ma (Nat.succ_ne_zero d) hh) m H1 st hrb
            have hr1 : (resolveModel d st2 curr2).2 = []
                ∧ (resolveModel d st2 curr2).1.prev = st2.prev := by
              unfold resolveModel
              by_cases hne : st2.prev ≠ curr2
              · rw [if_pos hne, if_pos hd]
                exact ⟨rfl, rfl⟩
              · rw [if_neg hne]
                exact ⟨rfl, rfl⟩
            rw [postNotify_ne d _ hd] at h
            injection h with h
            injection h with h1 h
            injection h with h2 h3
            refine ⟨?_, ?_⟩
            · rw [← h3, hl1, hr1.1]
              rfl
            · rw [← h2, hr1.2, hp1]

/-- The C8 example heap: the store's initial state `{a: 1, b: 2}` at slot 0. -/
def exHeapC8 : Heap :=
  ⟨[.plain ⟨false, 0, [(Key.s "a", .prim (.num 1)), (Key.s "b", .prim (.num 2))]⟩]⟩

/-- The C8 example mutator: a nested `apply` writes `b = 20` to the store,
then the outer mutator writes `a = 10` through its own façade. -/
def exC8mutator : Mutator :=
  .nest (.act (.write (Key.s "b") (.prim (.num 20))) .done)
    (.act (.write (Key.s "a") (.prim (.num 10))) .done)

/-- The mutator of the inner apply alone, used at a positive stack depth. -/
def exC8innerMut : Mutator := .act (.write (Key.s "b") (.prim (.num 20))) .done

/-- The result of the C8 example run. -/
def exC8res : Heap × StoreModel × List Nat :=
  (applyModel 30 false 5 0 exHeapC8 ⟨.ref 0, .ref 0, false⟩ exC8mutator).getD
    (⟨[]⟩, ⟨.prim Prim.undef, .prim Prim.undef, false⟩, [])

/-- The result of running the inner mutator alone at stack depth 1. -/
def exC8inner : Heap × StoreModel × List Nat :=
  (applyModel 30 false 4 1 exHeapC8 ⟨.ref 0, .ref 0, false⟩ exC8innerMut).getD
    (⟨[]⟩, ⟨.prim Prim.undef, .prim Prim.undef, false⟩, [])

/-- C8: an `apply` at a positive re-entrancy depth never notifies (and never
commits `prevState`); a top-level `apply` notifies at most once, exactly at
depth zero, always leaves the pending flag clear, and is silent only when
the final state is the last notified state; and in the nested example —
inner apply writes `b = 20`, outer writes `a = 10` — the outer snapshot is
folded onto the state current at completion time: the final committed state
is `{a: 10, b: 20}`, carrying the nested change, with exactly one
notification at depth zero. -/
theorem C8_store_coalescing :
    (∀ (snapFuel : Nat) (rc : Bool) (fuel d : Nat) (H : Heap) (st : StoreModel)
      (m : Mutator) (H' : Heap) (st' : StoreModel) (log : List Nat), d ≠ 0 →
      applyModel snapFuel rc fuel d H st m = some (H', st', log) →
      log = [] ∧ st'.prev = st.prev) ∧
    (∀ (snapFuel : Nat) (rc : Bool) (fuel : Nat) (H : Heap) (st : StoreModel)
      (m : Mutator) (H' : Heap) (st' : StoreModel) (log : List Nat),
      applyModel snapFuel rc fuel 0 H st m = some (H', st', log) →
      (log = [] ∧ st'.pending = false ∧ st'.curr = st.prev) ∨
      (log = [0] ∧ st'.pending = false)) ∧
    (applyModel 30 false 5 0 exHeapC8 ⟨.ref 0, .ref 0, false⟩ exC8mutator
        = some exC8res ∧
      exC8res.2.2 = [0] ∧ exC8res.2.1.curr = .ref 6 ∧ exC8res.2.1.prev = .ref 6 ∧
      exC8res.2.1.pending = false ∧
      plainAt exC8res.1 6 = some ⟨false, 0, [(Key.s "a", .prim (.num 10)),
        (Key.s "b", .prim (.num 20))]⟩ ∧
      plainAt exC8res.1 4 = some ⟨false, 0, [(Key.s "a", .prim (.num 1)),
        (Key.s "b", .prim (.num 20))]⟩) := by
  refine ⟨fun snapFuel rc fuel d H st m H' st' log hd h =>
    applyModel_silent snapFuel rc fuel d H st m hd h, ?_, by decide⟩
  intro snapFuel rc fuel H st m H' st' log h
  cases fuel with
  | zero => exact Option.noConfusion h
  | succ n =>
    unfold applyModel at h
    cases hcp : createProxy H st.curr rc with
    | mk H1 v1 =>
      rw [hcp] at h
      cases v1 with
      | prim w => exact Option.noConfusion h
      | tomb => exact Option.noConfusion h
      | ref p =>
        dsimp only at h
        cases hrb : runBody (fun H2 st2 m2 => applyModel snapFuel rc n (0 + 1) H2 st2 m2)
            p H1 st m with
        | none =>
          rw [hrb] at h
          exact Option.noConfusion h
        | some trip =>
          obtain ⟨H2, st2, log1⟩ := trip
          rw [hrb] at h
          dsimp only at h
          cases hsn : captureSnapshotF snapFuel H2 (.ref p) (some st2.curr) with
          | none =>
            rw [hsn] at h
            exact Option.noConfusion h
          | some pr2 =>
            obtain ⟨H3, curr2⟩ := pr2
            rw [hsn] at h
            dsimp only at h
            obtain ⟨hl1, hp1⟩ := runBody_silent _ p
              (fun Ha sta ma Hb stb logb hh =>
                applyModel_silent snapFuel rc n (0 + 1) Ha sta ma
                  (Nat.succ_ne_zero 0) hh) m H1 st hrb
            subst hl1
            by_cases hne : st2.prev ≠ curr2
            · have hres : resolveModel 0 st2 curr2 = (⟨curr2, curr2, false⟩, [0]) := by
                unfold resolveModel
                rw [if_pos hne, if_neg (fun hc : (0 : Nat) ≠ 0 => hc rfl)]
              have hpost : postNotify 0 (resolveModel 0 st2 curr2)
                  = (⟨curr2, curr2, false⟩, [0]) := by
                rw [hres]
                unfold postNotify
                rw [if_neg (fun hc => Bool.noConfusion hc.2)]
              rw [hpost] at h
              injection h with h
              injection h with h1 h
              injection h with h2 h3
              exact Or.inr ⟨h3.symm, by rw [← h2]⟩
            · cases hpd : st2.pending with
              | true =>
                have hres : resolveModel 0 st2 curr2 = (⟨curr2, st2.prev, true⟩, []) := by
                  unfold resolveModel
                  rw [if_neg hne, hpd]
                have hpost : postNotify 0 (resolveModel 0 st2 curr2)
                    = (⟨curr2, st2.prev, false⟩, [0]) := by
                  rw [hres]
                  unfold postNotify
                  rw [if_pos ⟨rfl, rfl⟩]
                  rfl
                rw [hpost] at h
                injection h with h
                injection h with h1 h
                injection h with h2 h3
                exact Or.inr ⟨h3.symm, by rw [← h2]⟩
              | false =>
                have hres : resolveModel 0 st2 curr2 = (⟨curr2, st2.prev, false⟩, []) := by
                  unfold resolveModel
                  rw [if_neg hne, hpd]
                have hpost : postNotify 0 (resolveModel 0 st2 curr2)
                    = (⟨curr2, st2.prev, false⟩, []) := by
                  rw [hres]
                  unfold postNotify
                  rw [if_neg (fun hc => Bool.noConfusion hc.2)]
                rw [hpost] at h
                injection h with h
                injection h with h1 h
                injection h with h2 h3
                refine Or.inl ⟨h3.symm, by rw [← h2], ?_⟩
                rw [← h2]
                show curr2 = st.prev
                rw [← hp1]
                exact (not_ne_iff.mp hne).symm

/-- Witness for C8: the inner apply at depth 1 emits no notification, and
the top-level run of the nested example emits exactly one (at depth zero). -/
theorem C8_store_coalescing_witness :
    exC8inner.2.2 = ([] : List Nat) ∧ exC8res.2.2 = [0] := by
  constructor
  · have h : applyModel 30 false 4 1 exHeapC8 ⟨.ref 0, .ref 0, false⟩ exC8innerMut
        = some (exC8inner.1, exC8inner.2.1, exC8inner.2.2) := by decide
    exact (C8_store_coalescing.1 30 false 4 1 exHeapC8 ⟨.ref 0, .ref 0, false⟩
      exC8innerMut exC8inner.1 exC8inner.2.1 exC8inner.2.2 (by decide) h).1
  · have h : applyModel 30 false 5 0 exHeapC8 ⟨.ref 0, .ref 0, false⟩ exC8mutator
        = some (exC8res.1, exC8res.2.1, exC8res.2.2) := by decide
    rcases C8_store_coalescing.2.1 30 false 5 exHeapC8 ⟨.ref 0, .ref 0, false⟩
        exC8mutator exC8res.1 exC8res.2.1 exC8res.2.2 h with ⟨h1, _, _⟩ | ⟨h1, _⟩
    · exact absurd h1 (by decide)
    · exact h1

/-! ## C6: traversal — cycle skipping and termination -/

/-- The weight of a frame: one more than its remaining key count. -/
def frameW (f : Frame) : Nat :=
  match f.keyList with
  | some keys => keys.length - f.j + 1
  | none => 1

/-- The termination measure of a traversal stack (top first): frame weights
scaled exponentially, deeper frames heavier. -/
def stackM (C N : Nat) : List Frame → Nat
  | [] => 0
  | f :: rest => frameW f * C ^ (N - rest.length) + stackM C N rest

/-- An upper bound on the key-list length contributed by one heap object. -/
def objKeyBound : Obj → Nat
  | .plain d => d.ownKeysP.length
  | .prox t => t.proxies.length

/-- An upper bound on any traversable key list over the heap. -/
def heapKeyBound (H : Heap) : Nat :=
  H.objs.foldr (fun o a => objKeyBound o + a) 0

/-- The traversal-loop invariant: key lists are the ones computed from the
heap, and every frame below the top (a frame that pushed a child) has a key
list and an object distinct from every frame below it. -/
def TravInv (H : Heap) (frames : List Frame) : Prop :=
  (∀ f ∈ frames, f.keyList = traversableOwnKeys H f.obj) ∧
  (∀ f ∈ frames.tail, f.keyList ≠ none) ∧
  List.Pairwise (fun a b => a.obj ≠ b.obj) frames.tail

theorem frameW_pos (f : Frame) : 1 ≤ frameW f := by
  obtain ⟨o, kl, j, ck⟩ := f
  unfold frameW
  cases kl with
  | none => exact le_refl 1
  | some keys =>
    dsimp only
    omega

theorem foldrBound {α : Type} (g : α → Nat) : ∀ (l : List α) (i : Nat) (o : α),
    l.get? i = some o → g o ≤ l.foldr (fun x a => g x + a) 0 := by
  intro l
  induction l with
  | nil => intro i o h; exact Option.noConfusion h
  | cons x tl ih =>
    intro i o h
    cases i with
    | zero =>
      injection h with h
      subst h
      exact Nat.le_add_right _ _
    | succ n =>
      exact (ih n o h).trans (Nat.le_add_left _ _)

theorem foldrBound2 {α : Type} (g : α → Nat) : ∀ (l : List α) (i j : Nat) (o1 o2 : α),
    i ≠ j → l.get? i = some o1 → l.get? j = some o2 →
    g o1 + g o2 ≤ l.foldr (fun x a => g x + a) 0 := by
  intro l
  induction l with
  | nil => intro i j o1 o2 hij h1 h2; exact Option.noConfusion h1
  | cons x tl ih =>
    intro i j o1 o2 hij h1 h2
    show g o1 + g o2 ≤ g x + tl.foldr (fun x a => g x + a) 0
    cases i with
    | zero =>
      injection h1 with h1
      subst h1
      cases j with
      | zero => exact absurd rfl hij
      | succ m =>
        exact Nat.add_le_add_left (foldrBound g tl m o2 h2) _
    | succ n =>
      cases j with
      | zero =>
        injection h2 with h2
        subst h2
        rw [Nat.add_comm]
        exact Nat.add_le_add_left (foldrBound g tl n o1 h1) _
      | succ m =>
        exact (ih n m o1 o2 (fun hc => hij (by rw [hc])) h1 h2).trans
          (Nat.le_add_left _ _)

theorem travKeys_len {H : Heap} {v : JSVal} {keys : List Key}
    (hk : traversableOwnKeys H v = some keys) : keys.length ≤ heapKeyBound H := by
  cases v with
  | prim w => exact Option.noConfusion hk
  | tomb => exact Option.noConfusion hk
  | ref r =>
    unfold traversableOwnKeys at hk
    dsimp only at hk
    cases hg : H.get? r with
    | none =>
      rw [hg] at hk
      exact Option.noConfusion hk
    | some o =>
      rw [hg] at hk
      cases o with
      | plain d =>
        injection hk with hk
        subst hk
        exact foldrBound objKeyBound H.objs r _ hg
      | prox t =>
        cases hpd : patchData H t with
        | none =>
          simp only [hpd, Option.map_none'] at hk
          by_cases he : t.proxies.isEmpty = true
          · rw [if_pos he] at hk
            exact Option.noConfusion hk
          · rw [if_neg he] at hk
            injection hk with hk
            subst hk
            rw [List.length_map]
            exact foldrBound objKeyBound H.objs r _ hg
        | some pd =>
          obtain ⟨pr, hpr, hpl⟩ : ∃ pr, t.patches = some pr ∧ plainAt H pr = some pd := by
            unfold patchData at hpd
            cases hp2 : t.patches with
            | none =>
              rw [hp2] at hpd
              exact Option.noConfusion hpd
            | some pr =>
              rw [hp2] at hpd
              exact ⟨pr, rfl, hpd⟩
          have hgpr : H.get? pr = some (.plain pd) := plainAt_inv hpl
          have hne : pr ≠ r := by
            intro hc
            rw [hc, hg] at hgpr
            exact Obj.noConfusion (Option.some.inj hgpr)
          simp only [hpd, Option.map_some'] at hk
          by_cases he : t.proxies.isEmpty = true
          · rw [if_pos he] at hk
            injection hk with hk
            subst hk
            exact (foldrBound objKeyBound H.objs pr _ hgpr).trans' (le_refl _)
          · rw [if_neg he] at hk
            injection hk with hk
            subst hk
            rw [List.length_append]
            have h1 : (((t.proxies.map Prod.fst).filter
                (fun k => !pd.ownKeysP.contains k)).length) ≤ t.proxies.length := by
              exact (List.length_filter_le _ _).trans (le_of_eq (List.length_map _ _))
            have h2 := foldrBound2 objKeyBound H.objs pr r _ _ hne hgpr hg
            show pd.ownKeysP.length + _ ≤ heapKeyBound H
            exact le_trans (Nat.add_le_add_left h1 _) h2

theorem mkFrame_w (H : Heap) (v : JSVal) : frameW (mkFrame H v) ≤ heapKeyBound H + 1 := by
  cases hk : traversableOwnKeys H v with
  | none =>
    unfold frameW mkFrame
    dsimp only
    rw [hk]
    exact Nat.le_add_left 1 _
  | some keys =>
    unfold frameW mkFrame
    dsimp only
    rw [hk]
    have := travKeys_len hk
    dsimp only
    omega

theorem scanProxy_bounds {H : Heap} {t : ProxyData} : ∀ (ks : List Key) (j : Nat)
    {j' : Nat} {k : Key} {v : JSVal},
    scanProxyKeysAux H t ks j = some (j', k, v) → j ≤ j' ∧ j' < j + ks.length := by
  intro ks
  induction ks with
  | nil =>
    intro j j' k v h
    exact Option.noConfusion h
  | cons k0 rest ih =>
    intro j j' k v h
    unfold scanProxyKeysAux at h
    cases hpd : patchData H t with
    | none =>
      simp only [hpd] at h
      injection h with h
      injection h with h1 h
      subst h1
      simp only [List.length_cons]
      omega
    | some pd =>
      simp only [hpd] at h
      by_cases how : pd.hasOwnKey k0 = true
      · rw [if_pos how] at h
        dsimp only at h
        by_cases hpx : isProxyable H (pd.read k0) = true
        · rw [if_pos hpx] at h
          injection h with h
          injection h with h1 h
          subst h1
          simp only [List.length_cons]
          omega
        · rw [if_neg hpx] at h
          obtain ⟨ha, hb⟩ := ih (j + 1) h
          simp only [List.length_cons]
          omega
      · rw [if_neg how] at h
        dsimp only at h
        injection h with h
        injection h with h1 h
        subst h1
        simp only [List.length_cons]
        omega

theorem scanPlain_bounds {H : Heap} {obj : JSVal} : ∀ (ks : List Key) (j : Nat)
    {j' : Nat} {k : Key} {v : JSVal},
    scanPlainKeysAux H obj ks j = some (j', k, v) → j ≤ j' ∧ j' < j + ks.length := by
  intro ks
  induction ks with
  | nil =>
    intro j j' k v h
    exact Option.noConfusion h
  | cons k0 rest ih =>
    intro j j' k v h
    unfold scanPlainKeysAux at h
    by_cases hpx : isProxyable H (plainRead H obj k0) = true
    · rw [if_pos hpx] at h
      injection h with h
      injection h with h1 h
      subst h1
      simp only [List.length_cons]
      omega
    · rw [if_neg hpx] at h
      obtain ⟨ha, hb⟩ := ih (j + 1) h
      simp only [List.length_cons]
      omega

theorem stackM_pop (C N : Nat) (hC : 1 ≤ C) (f : Frame) (rest : List Frame) :
    stackM C N rest < stackM C N (f :: rest) := by
  show stackM C N rest < frameW f * C ^ (N - rest.length) + stackM C N rest
  exact Nat.lt_add_of_pos_left (Nat.mul_pos (frameW_pos f) (Nat.pow_pos hC))

theorem stackM_push (C N : Nat) (hC : 2 ≤ C) (g f' f : Frame) (rest : List Frame)
    (hg : frameW g ≤ C - 1) (hf : frameW f' < frameW f) (hm : rest.length < N) :
    stackM C N (g :: f' :: rest) < stackM C N (f :: rest) := by
  show frameW g * C ^ (N - (rest.length + 1))
      + (frameW f' * C ^ (N - rest.length) + stackM C N rest)
    < frameW f * C ^ (N - rest.length) + stackM C N rest
  have he : N - rest.length = (N - (rest.length + 1)) + 1 := by omega
  have hpow : C ^ (N - rest.length) = C ^ (N - (rest.length + 1)) * C := by
    rw [he, pow_succ]
  have h1 : frameW g * C ^ (N - (rest.length + 1)) < C ^ (N - rest.length) := by
    rw [hpow]
    calc frameW g * C ^ (N - (rest.length + 1))
        ≤ (C - 1) * C ^ (N - (rest.length + 1)) := Nat.mul_le_mul_right _ hg
      _ < C * C ^ (N - (rest.length + 1)) :=
          mul_lt_mul_of_pos_right (by omega) (Nat.pow_pos (by omega))
      _ = C ^ (N - (rest.length + 1)) * C := Nat.mul_comm _ _
  have h3 : frameW g * C ^ (N - (rest.length + 1)) + frameW f' * C ^ (N - rest.length)
      < frameW f * C ^ (N - rest.length) := by
    calc frameW g * C ^ (N - (rest.length + 1)) + frameW f' * C ^ (N - rest.length)
        < C ^ (N - rest.length) + frameW f' * C ^ (N - rest.length) :=
          Nat.add_lt_add_right h1 _
      _ = frameW f' * C ^ (N - rest.length) + C ^ (N - rest.length) := Nat.add_comm _ _
      _ = (frameW f' + 1) * C ^ (N - rest.length) := (Nat.succ_mul _ _).symm
      _ ≤ frameW f * C ^ (N - rest.length) := Nat.mul_le_mul_right _ hf
  rw [← Nat.add_assoc]
  exact Nat.add_lt_add_right h3 _

/-- The reference number behind a value. -/
def refOf : JSVal → Nat
  | .ref r => r
  | _ => 0

theorem travInv_tailLen {H : Heap} {frames : List Frame} (hinv : TravInv H frames) :
    frames.tail.length ≤ H.size := by
  obtain ⟨hkl, hsome, hpw⟩ := hinv
  have href : ∀ f ∈ frames.tail, ∃ r, f.obj = .ref r ∧ r < H.size := by
    intro f hf
    have h1 := hkl f ((List.tail_sublist frames).subset hf)
    have h2 := hsome f hf
    rw [h1] at h2
    cases ho : f.obj with
    | prim w =>
      rw [ho] at h2
      exact absurd rfl h2
    | tomb =>
      rw [ho] at h2
      exact absurd rfl h2
    | ref r =>
      refine ⟨r, rfl, ?_⟩
      rw [ho] at h2
      unfold traversableOwnKeys at h2
      dsimp only at h2
      cases hg : H.get? r with
      | none =>
        rw [hg] at h2
        exact absurd rfl h2
      | some o => exact Heap.get?_lt_size hg
  have hpw2 : List.Pairwise (fun a b => refOf a.obj ≠ refOf b.obj) frames.tail := by
    refine List.Pairwise.imp_of_mem ?_ hpw
    intro a b ha hb hne hc
    obtain ⟨ra, hra, _⟩ := href a ha
    obtain ⟨rb, hrb, _⟩ := href b hb
    rw [hra, hrb] at hc
    rw [hra, hrb] at hne
    simp only [refOf] at hc
    exact hne (by rw [hc])
  have hnd : (frames.tail.map (fun f => refOf f.obj)).Nodup :=
    List.pairwise_map.mpr hpw2
  have hbd : ∀ x ∈ frames.tail.map (fun f => refOf f.obj), x < H.size := by
    intro x hx
    obtain ⟨f, hf, hfx⟩ := List.mem_map.mp hx
    obtain ⟨r, hr, hlt⟩ := href f hf
    rw [← hfx, hr]
    simpa [refOf] using hlt
  have hsub : (frames.tail.map (fun f => refOf f.obj)).toFinset ⊆ Finset.range H.size := by
    intro x hx
    exact Finset.mem_range.mpr (hbd x (List.mem_toFinset.mp hx))
  have hcard := Finset.card_le_card hsub
  rw [Finset.card_range, List.toFinset_card_of_nodup hnd, List.length_map] at hcard
  exact hcard

theorem triple_eta {σ : Type} (w : Heap × σ × Bool) {H : Heap} (h : w.1 = H) :
    w = (H, w.2.1, w.2.2) := by
  rw [← h]

theorem traverseStep_total {σ : Type} (vis : Visitor σ) (dfo : Bool) (H : Heap)
    (hv : ∀ (st : σ) (x : JSVal) (i : Nat) (os : List JSVal) (ks : List Key),
      (vis H st x i os ks).1 = H) (st : σ) :
    ∀ (f : Frame) (rest : List Frame), TravInv H (f :: rest) →
    ∃ st' frames', traverseStep vis dfo H st (f :: rest) = .more H st' frames' ∧
      TravInv H frames' ∧
      stackM (heapKeyBound H + 2) H.size frames'
        < stackM (heapKeyBound H + 2) H.size (f :: rest) := by
  intro f rest hinv
  have hinvrest : TravInv H rest := by
    obtain ⟨hkl, hsome, hpw⟩ := hinv
    refine ⟨fun g hg => hkl g (List.mem_cons_of_mem f hg), ?_, ?_⟩
    · intro g hg
      exact hsome g ((List.tail_sublist rest).subset hg)
    · exact hpw.sublist (List.tail_sublist rest)
  obtain ⟨hkl, hsome, hpw⟩ := hinv
  have hklf := hkl f (List.mem_cons_self f rest)
  have hklrest : ∀ g ∈ rest, g.keyList = traversableOwnKeys H g.obj :=
    fun g hg => hkl g (List.mem_cons_of_mem f hg)
  obtain ⟨fobj, fkl, fj, fck⟩ := f
  unfold traverseStep
  cases fkl with
  | none =>
    by_cases hpx : isProxy H fobj = true
    · refine ⟨(vis H st fobj (rest.length + 1)
        (((⟨fobj, none, fj, fck⟩ : Frame) :: rest).map (·.obj)).reverse
        ((rest.map (·.childKey)).reverse)).2.1, rest, ?_, hinvrest,
        stackM_pop _ _ (by omega) _ _⟩
      dsimp only
      rw [if_pos hpx, hv st fobj (rest.length + 1) _ _]
    · refine ⟨st, rest, ?_, hinvrest, stackM_pop _ _ (by omega) _ _⟩
      dsimp only
      rw [if_neg hpx]
  | some keys =>
    have hkeys : traversableOwnKeys H fobj = some keys := hklf.symm
    dsimp only
    cases hanc : rest.any (fun g => g.obj = fobj) with
    | true =>
      refine ⟨st, rest, ?_, hinvrest, stackM_pop _ _ (by omega) _ _⟩
      rw [if_pos rfl]
    | false =>
      have hancne : ∀ g ∈ rest, g.obj ≠ fobj := by
        intro g hg hc
        have : rest.any (fun g => decide (g.obj = fobj)) = true :=
          List.any_eq_true.mpr ⟨g, hg, decide_eq_true hc⟩
        rw [hanc] at this
        exact Bool.noConfusion this
      simp only [hanc, Bool.false_eq_true, if_false]
      cases hpo : proxyDataOf H fobj with
      | some t =>
        obtain ⟨st1, pb, hvisited⟩ : ∃ st1 pb, (if (!dfo && decide (fj = 0)) = true
            then vis H st fobj (rest.length + 1)
              (((⟨fobj, some keys, fj, fck⟩ : Frame) :: rest).map (·.obj)).reverse
              ((rest.map (·.childKey)).reverse)
            else (H, st, false)) = (H, st1, pb) := by
          split
          · exact ⟨_, _, triple_eta _ (hv st fobj (rest.length + 1) _ _)⟩
          · exact ⟨st, false, rfl⟩
        rw [hvisited]
        dsimp only
        cases pb with
        | true =>
          refine ⟨st1, rest, ?_, hinvrest, stackM_pop _ _ (by omega) _ _⟩
          rfl
        | false =>
          simp only [Bool.false_eq_true, if_false, hpo, Option.getD_some]
          cases hscan : scanProxyKeysAux H t (keys.drop fj) fj with
          | none =>
            by_cases hdfo : dfo = true
            · refine ⟨(vis H st1 fobj (rest.length + 1)
                (((⟨fobj, some keys, fj, fck⟩ : Frame) :: rest).map (·.obj)).reverse
                ((rest.map (·.childKey)).reverse)).2.1, rest, ?_, hinvrest,
                stackM_pop _ _ (by omega) _ _⟩
              dsimp only
              rw [if_pos hdfo, hv st1 fobj (rest.length + 1) _ _]
            · refine ⟨st1, rest, ?_, hinvrest, stackM_pop _ _ (by omega) _ _⟩
              dsimp only
              rw [if_neg hdfo]
          | some trip =>
            obtain ⟨j', k, v⟩ := trip
            obtain ⟨hj1, hj2⟩ := scanProxy_bounds _ fj hscan
            rw [List.length_drop] at hj2
            have hinv2 : TravInv H (mkFrame H v
                :: (⟨fobj, some keys, j' + 1, k⟩ : Frame) :: rest) := by
              refine ⟨?_, ?_, ?_⟩
              · intro g hg
                rcases List.mem_cons.mp hg with rfl | hg2
                · rfl
                · rcases List.mem_cons.mp hg2 with rfl | hg3
                  · exact hkeys.symm
                  · exact hklrest g hg3
              · intro g hg
                rcases List.mem_cons.mp hg with rfl | hg2
                · exact Option.noConfusion
                · exact hsome g hg2
              · refine List.pairwise_cons.mpr ⟨?_, hpw⟩
                intro b hb
                exact fun hc => hancne b hb (by rw [← hc])
            have hm : rest.length < H.size := by
              have := travInv_tailLen hinv2
              simp only [List.tail_cons, List.length_cons] at this
              omega
            refine ⟨st1, _, ?_, hinv2, ?_⟩
            · rfl
            · refine stackM_push _ _ (by omega) _ _ _ rest ?_ ?_ hm
              · have := mkFrame_w H v
                omega
              · show frameW ⟨fobj, some keys, j' + 1, k⟩
                  < frameW ⟨fobj, some keys, fj, fck⟩
                have e1 : frameW ⟨fobj, some keys, j' + 1, k⟩
                    = keys.length - (j' + 1) + 1 := rfl
                have e2 : frameW ⟨fobj, some keys, fj, fck⟩
                    = keys.length - fj + 1 := rfl
                rw [e1, e2]
                omega
      | none =>
        cases hscan : scanPlainKeysAux H fobj (keys.drop fj) fj with
        | none =>
          refine ⟨st, rest, ?_, hinvrest, stackM_pop _ _ (by omega) _ _⟩
          rfl
        | some trip =>
          obtain ⟨j', k, v⟩ := trip
          obtain ⟨hj1, hj2⟩ := scanPlain_bounds _ fj hscan
          rw [List.length_drop] at hj2
          have hinv2 : TravInv H (mkFrame H v
              :: (⟨fobj, some keys, j' + 1, k⟩ : Frame) :: rest) := by
            refine ⟨?_, ?_, ?_⟩
            · intro g hg
              rcases List.mem_cons.mp hg with rfl | hg2
              · rfl
              · rcases List.mem_cons.mp hg2 with rfl | hg3
                · exact hkeys.symm
                · exact hklrest g hg3
            · intro g hg
              rcases List.mem_cons.mp hg with rfl | hg2
              · exact Option.noConfusion
              · exact hsome g hg2
            · refine List.pairwise_cons.mpr ⟨?_, hpw⟩
              intro b hb
              exact fun hc => hancne b hb (by rw [← hc])
          have hm : rest.length < H.size := by
            have := travInv_tailLen hinv2
            simp only [List.tail_cons, List.length_cons] at this
            omega
          refine ⟨st, _, ?_, hinv2, ?_⟩
          · rfl
          · refine stackM_push _ _ (by omega) _ _ _ rest ?_ ?_ hm
            · have := mkFrame_w H v
              omega
            · show frameW ⟨fobj, some keys, j' + 1, k⟩
                < frameW ⟨fobj, some keys, fj, fck⟩
              have e1 : frameW ⟨fobj, some keys, j' + 1, k⟩
                  = keys.length - (j' + 1) + 1 := rfl
              have e2 : frameW ⟨fobj, some keys, fj, fck⟩
                  = keys.length - fj + 1 := rfl
              rw [e1, e2]
              omega

theorem traverseLoop_total {σ : Type} (vis : Visitor σ) (dfo : Bool) (H : Heap)
    (hv : ∀ (st : σ) (x : JSVal) (i : Nat) (os : List JSVal) (ks : List Key),
      (vis H st x i os ks).1 = H) :
    ∀ (n : Nat) (st : σ) (frames : List Frame), TravInv H frames →
      stackM (heapKeyBound H + 2) H.size frames ≤ n →
      ∃ fuel H' st', traverseLoop vis dfo fuel H st frames = some (H', st') := by
  intro n
  induction n with
  | zero =>
    intro st frames hinv hM
    cases frames with
    | nil => exact ⟨1, H, st, rfl⟩
    | cons f rest =>
      exfalso
      have e : stackM (heapKeyBound H + 2) H.size (f :: rest)
          = frameW f * (heapKeyBound H + 2) ^ (H.size - rest.length)
            + stackM (heapKeyBound H + 2) H.size rest := rfl
      rw [e] at hM
      have hp : 0 < frameW f * (heapKeyBound H + 2) ^ (H.size - rest.length) :=
        Nat.mul_pos (frameW_pos f) (pow_pos (by omega) _)
      omega
  | succ n ih =>
    intro st frames hinv hM
    cases frames with
    | nil => exact ⟨1, H, st, rfl⟩
    | cons f rest =>
      obtain ⟨st', frames', hstep, hinv', hlt⟩ :=
        traverseStep_total vis dfo H hv st f rest hinv
      have hM' : stackM (heapKeyBound H + 2) H.size frames' ≤ n :=
        Nat.lt_succ_iff.mp (lt_of_lt_of_le hlt hM)
      obtain ⟨fuel, H', st'', hrun⟩ := ih st' frames' hinv' hM'
      refine ⟨fuel + 1, H', st'', ?_⟩
      unfold traverseLoop
      rw [hstep]
      exact hrun

/-- The claim's cyclic value: v = {a: null}, p = wrap(v), then p.a = p.
Slot 0 is v, slot 1 the façade p, slot 2 the patch table holding a ↦ p. -/
def exHeapC6 : Heap :=
  trapSet (createProxy ⟨[.plain ⟨false, 0, [(Key.s "a", .prim Prim.null)]⟩]⟩
    (.ref 0) false).1 1 (.s "a") (.ref 1)

/-- A visitor that records each visited façade together with the container
path presented to it, and never touches the heap. -/
def logVis : Visitor (List (JSVal × List JSVal)) :=
  fun H st p _i os _ks => (H, st ++ [(p, os)], false)

/-- C6: on any finite (possibly cyclic) graph, the traversal machine of
`traverseProxyable0` (a) skips a frame whose container is identical to an
ancestor on the current path — popping it without visiting and without
touching heap or state; (b) terminates for every heap-preserving visitor and
every root (some fuel makes the fuelled loop complete); and (c) on the
claim's example v = {a:null}, p = wrap(v), p.a = p, invokes the visitor
exactly once, with path [p], in either traversal order. -/
theorem C6_traverse_termination :
    (∀ (σ : Type) (vis : Visitor σ) (dfo : Bool) (H : Heap) (st : σ)
       (f : Frame) (rest : List Frame) (keys : List Key),
       f.keyList = some keys →
       rest.any (fun g => g.obj = f.obj) = true →
       traverseStep vis dfo H st (f :: rest) = .more H st rest) ∧
    (∀ (σ : Type) (vis : Visitor σ) (dfo : Bool) (H : Heap) (st : σ)
       (root : JSVal),
       (∀ (st : σ) (x : JSVal) (i : Nat) (os : List JSVal) (ks : List Key),
         (vis H st x i os ks).1 = H) →
       ∃ fuel H' st',
         traverseProxyable0F vis dfo fuel H st root = some (H', st')) ∧
    (traverseProxyable0F logVis false 10 exHeapC6 [] (.ref 1)
       = some (exHeapC6, [(.ref 1, [.ref 1])]) ∧
     traverseProxyable0F logVis true 10 exHeapC6 [] (.ref 1)
       = some (exHeapC6, [(.ref 1, [.ref 1])])) := by
  refine ⟨?_, ?_, by decide, by decide⟩
  · intro σ vis dfo H st f rest keys hkl hanc
    obtain ⟨fobj, fkl, fj, fck⟩ := f
    dsimp only at hkl hanc
    subst hkl
    unfold traverseStep
    dsimp only
    rw [if_pos hanc]
  · intro σ vis dfo H st root hv
    have hinv : TravInv H [mkFrame H root] := by
      refine ⟨?_, ?_, List.Pairwise.nil⟩
      · intro g hg
        rcases List.mem_singleton.mp hg with rfl
        rfl
      · intro g hg
        exact absurd hg (List.not_mem_nil g)
    obtain ⟨fuel, H', st', hrun⟩ := traverseLoop_total vis dfo H hv
      (stackM (heapKeyBound H + 2) H.size [mkFrame H root])
      st [mkFrame H root] hinv (le_refl _)
    exact ⟨fuel, H', st', hrun⟩

/-- C6 witness: the ancestor-skip rule applied at a concrete duplicated
stack, termination applied to the logging visitor on the cyclic heap, and
the exactly-one-visit run itself. -/
theorem C6_traverse_termination_witness :
    traverseStep logVis false exHeapC6 []
        ((⟨.ref 1, some [Key.s "a"], 0, Key.s "undefined"⟩ : Frame)
          :: [⟨.ref 1, some [Key.s "a"], 1, Key.s "a"⟩])
      = .more exHeapC6 [] [⟨.ref 1, some [Key.s "a"], 1, Key.s "a"⟩] ∧
    (∃ fuel H' st',
      traverseProxyable0F logVis false fuel exHeapC6 [] (.ref 1)
        = some (H', st')) ∧
    traverseProxyable0F logVis false 10 exHeapC6 [] (.ref 1)
      = some (exHeapC6, [(.ref 1, [.ref 1])]) :=
  ⟨C6_traverse_termination.1 _ logVis false exHeapC6 []
      ⟨.ref 1, some [Key.s "a"], 0, Key.s "undefined"⟩
      [⟨.ref 1, some [Key.s "a"], 1, Key.s "a"⟩] [Key.s "a"] rfl (by decide),
   C6_traverse_termination.2.1 _ logVis false exHeapC6 [] (.ref 1)
      (fun _ _ _ _ _ => rfl),
   C6_traverse_termination.2.2.1⟩
